import Mathlib

/-!
# JUnit report formatter of klar (`formatter/junit_output.go`)

A shallow embedding of `JUnitReportXML`, `formatTime` and
`noVulnerabilitiesFound`, and theorems about the report they build.

Conventions of the embedding:

* Go strings are Lean `String`s, that is valid UTF-8.  The regular-expression
  replacement works rune by rune; all safe characters are ASCII, so a byte-level
  and a rune-level reading agree.  What is written to the file is counted and
  kept in bytes (`utf8Bytes`).
* The map `vsMap` is given as the list of its entries in the order the `range`
  loop visits them.  A Go map has pairwise distinct keys; theorems that need
  this carry it as a hypothesis.
* The records of a severity are values (`[]*clair.Vulnerability` without nil
  pointers).
* The file system, the working directory and `xml.MarshalIndent` are passed in
  explicitly.
* For the round trip, `xml.MarshalIndent` and `xml.Unmarshal` of Go's
  `encoding/xml` are modelled for the element shapes of the report types: the
  printer with its escaping and indentation, the decoder as the strict
  tokenizer with its element stack.  The environment `okEnv` plugs the
  modelled printer into `JUnitReportXML`.
-/

namespace Formatter

/-! ## Data model -/

/-- Modelled from the spec: the record type `clair.Vulnerability` is declared in
the package `clair`, outside the formatter; the fields are the ones the
formatter and its tests read. -/
structure Vulnerability where
  Name : String
  Description : String
  Link : String
  Severity : String
  FixedBy : String
  FeatureName : String
  FeatureVersion : String
deriving DecidableEq, Repr

/-- The Go type `xml.Name`; the formatter leaves every `XMLName` field at its zero value. -/
structure XMLName where
  Space : String := ""
  Local : String := ""
deriving DecidableEq, Repr

/-- JUnitSkipMessage contains the reason why a testcase was skipped. -/
structure JUnitSkipMessage where
  Message : String
deriving DecidableEq, Repr

/-- JUnitProperty represents a key/value pair used to define properties. -/
structure JUnitProperty where
  Name : String
  Value : String
deriving DecidableEq, Repr

/-- JUnitFailure contains data related to a failed test.  The Go field `Type` is
spelled `Type_`, the plain word being reserved. -/
structure JUnitFailure where
  Message : String
  Type_ : String
  Contents : String
deriving DecidableEq, Repr

/-- JUnitTestCase is a single test case with its result. -/
structure JUnitTestCase where
  XMLName : XMLName := {}
  Classname : String := ""
  Name : String := ""
  Time : String := ""
  SkipMessage : Option JUnitSkipMessage := none
  Failure : Option JUnitFailure := none
deriving DecidableEq, Repr

/-- JUnitTestSuite is a single JUnit test suite which may contain many testcases. -/
structure JUnitTestSuite where
  XMLName : XMLName := {}
  Tests : Int := 0
  Failures : Int := 0
  Time : String := ""
  Name : String := ""
  Properties : List JUnitProperty := []
  TestCases : List JUnitTestCase := []
deriving DecidableEq, Repr

/-- JUnitTestSuites is a collection of JUnit test suites. -/
structure JUnitTestSuites where
  XMLName : XMLName := {}
  Suites : List JUnitTestSuite := []
  Name : String := ""
deriving DecidableEq, Repr

/-! ## The regular expression `[^.a-zA-Z0-9]+` and `ReplaceAllString` -/

/-- The negated character class `[^.a-zA-Z0-9]` of the pattern compiled in
`JUnitReportXML`: true for every rune that is not a dot, a letter `a-z`, a
letter `A-Z` or a digit `0-9`. -/
def classMatch (c : Char) : Bool :=
  !(c == '.' || (decide ('a'.toNat ≤ c.toNat) && decide (c.toNat ≤ 'z'.toNat))
    || (decide ('A'.toNat ≤ c.toNat) && decide (c.toNat ≤ 'Z'.toNat))
    || (decide ('0'.toNat ≤ c.toNat) && decide (c.toNat ≤ '9'.toNat)))

/-- The leftmost match of `[^.a-zA-Z0-9]+` in `src` at or after position `pos`,
as the pair (start, end) that Go's `doExecute` returns: the match starts at the
first rune of the class and, the `+` being greedy, runs to the end of the run of
class runes.  Positions count runes. -/
def doExecute (src : List Char) (pos : Nat) : Option (Nat × Nat) :=
  let a0 := pos + ((src.drop pos).takeWhile (fun c => !classMatch c)).length
  if a0 < src.length then
    some (a0, a0 + ((src.drop a0).takeWhile classMatch).length)
  else
    none

/-- The loop of `regexp.(*Regexp).replaceAll` for the pattern above: `buf`
collects the output, `lastMatchEnd` is the end of the most recent match and
`searchPos` the position where the next match is looked for.  One unit of fuel
is one iteration; `none` means the fuel ran out before the loop ended. -/
def replaceAll (src repl : List Char) : Nat → Nat → Nat → List Char → Option (List Char)
  | 0, _, _, _ => none
  | fuel + 1, lastMatchEnd, searchPos, buf =>
    if searchPos ≤ src.length then
      match doExecute src searchPos with
      | none => some (buf ++ src.drop lastMatchEnd)
      | some (a0, a1) =>
        -- copy the unmatched characters before this match
        let buf1 := buf ++ (src.drop lastMatchEnd).take (a0 - lastMatchEnd)
        -- insert the replacement, but not for an empty match right after a match
        let buf2 := if a1 > lastMatchEnd ∨ a0 = 0 then buf1 ++ repl else buf1
        -- advance past this match; always advance at least one character
        let width := if searchPos < src.length then 1 else 0
        let searchPos1 :=
          if searchPos + width > a1 then searchPos + width
          else if searchPos + 1 > a1 then searchPos + 1
          else a1
        replaceAll src repl fuel a1 searchPos1 buf2
    else
      some (buf ++ src.drop lastMatchEnd)

/-- The call `reg.ReplaceAllString(src, repl)` for `reg = [^.a-zA-Z0-9]+` and a
replacement without `$`.  Every iteration of the loop moves `searchPos` forward,
so `src.length + 1` iterations are enough (see `replaceAll_eq_some`). -/
def ReplaceAllString (src repl : String) : String :=
  match replaceAll src.data repl.data (src.length + 1) 0 0 [] with
  | some out => String.mk out
  | none => src

/-- The value of `cleanImageName` in `JUnitReportXML`: the image name with every
run of special characters (all but the dot, the letters and the digits) replaced by
one underscore.  The comment above the line in the source says `Remove`; the call
replaces, and the file name the test expects has the underscores.  Compiling the
constant pattern cannot fail, so the error return behind `regexp.Compile` is never
taken. -/
def cleanImageName (imageName : String) : String :=
  ReplaceAllString imageName "_"

/-! ## `formatTime`

`formatTime` goes through `float64`.  A finite `float64` is kept as the exact
fraction it denotes, and every arithmetic step rounds the exact result to the
nearest value with a 53 bit significand, ties to even, as IEEE 754 prescribes.
The exponent range is not modelled: a `Duration` is an `int64` count of
nanoseconds, so every value met here lies between `1e-9` and `1e10` in
magnitude, far inside the normal range. -/

/-- Go `time.Duration`: a count of nanoseconds. -/
abbrev Duration := Int

/-- The constant `time.Millisecond`. -/
def Millisecond : Duration := 1000000

/-- The constant `time.Second`. -/
def Second : Duration := 1000000000

/-- The constant `oneMsSecondDuration = time.Duration(1) * time.Millisecond`. -/
def oneMsSecondDuration : Duration := 1 * Millisecond

/-- A finite `float64`, as the exact fraction `num / den` with `den > 0`. -/
structure Float64 where
  num : Int
  den : Nat
deriving DecidableEq, Repr

/-- Auxiliary loop of `log2`. -/
def log2Aux : Nat → Nat → Nat
  | 0, _ => 0
  | fuel + 1, n => if n ≥ 2 then log2Aux fuel (n / 2) + 1 else 0

/-- Position of the highest set bit of `n` (and `0` for `n = 0`). -/
def log2 (n : Nat) : Nat := log2Aux n n

/-- The integer nearest to `a / b`, ties going to the even one. -/
def roundHalfEven (a b : Nat) : Nat :=
  let q := a / b
  let r := a % b
  if 2 * r > b ∨ (2 * r = b ∧ q % 2 = 1) then q + 1 else q

/-- The positive fraction `a / b` rounded to a 53 bit significand: with `e` the
exponent for which `2^e ≤ a / b < 2^(e+1)`, the result is
`roundHalfEven (a / b * 2^(52 - e)) / 2^(52 - e)`, returned as a fraction. -/
def roundPos (a b : Nat) : Nat × Nat :=
  let la := log2 a
  let lb := log2 b
  -- `e` is `la - lb - 1` when `a / b < 2^(la - lb)`, and `la - lb` otherwise
  let below : Bool :=
    if la ≥ lb then decide (a < b * 2 ^ (la - lb)) else decide (a * 2 ^ (lb - la) < b)
  -- `52 - e = up - la`
  let up := 52 + lb + (if below then 1 else 0)
  if up ≥ la then
    let s := up - la
    (roundHalfEven (a * 2 ^ s) b, 2 ^ s)
  else
    let s := la - up
    (roundHalfEven a (b * 2 ^ s) * 2 ^ s, 1)

/-- The `float64` nearest to the fraction `num / den`. -/
def round64 (num : Int) (den : Nat) : Float64 :=
  if num = 0 then ⟨0, 1⟩
  else
    let r := roundPos num.natAbs den
    ⟨if num < 0 then -(r.1 : Int) else r.1, r.2⟩

/-- The conversion `float64(n)` of an integer. -/
def Float64.ofInt (n : Int) : Float64 := round64 n 1

/-- The `float64` quotient `x / y` (for `y` not zero). -/
def Float64.div (x y : Float64) : Float64 :=
  round64 (x.num * y.den * (if y.num < 0 then -1 else 1)) (x.den * y.num.natAbs)

/-- The `float64` sum `x + y`. -/
def Float64.add (x y : Float64) : Float64 :=
  round64 (x.num * y.den + y.num * x.den) (x.den * y.den)

/-- The method `Duration.Seconds` of package `time`:
`float64(d / Second) + float64(d % Second) / 1e9`, with Go's truncating integer
division. -/
def Seconds (d : Duration) : Float64 :=
  let sec := Int.tdiv d Second
  let nsec := Int.tmod d Second
  Float64.add (Float64.ofInt sec) (Float64.div (Float64.ofInt nsec) (Float64.ofInt 1000000000))

/-- Decimal digits of `n`, padded on the left with zeros to three digits. -/
def pad3 (n : Nat) : String :=
  let s := Nat.repr n
  String.mk (List.replicate (3 - s.length) '0') ++ s

/-- The call `fmt.Sprintf("%.3f", x)`: the exact value of `x` rounded to three
decimals, ties to even, printed with a sign for negative `x`. -/
def sprintf3f (x : Float64) : String :=
  let k := roundHalfEven (x.num.natAbs * 1000) x.den
  (if x.num < 0 then "-" else "") ++ Nat.repr (k / 1000) ++ "." ++ pad3 (k % 1000)

/-- The function `formatTime` of `junit_output.go`. -/
def formatTime (d : Duration) : String :=
  sprintf3f (Seconds d)

/-- The unit roundoff of `float64`: half the gap between `1` and the next value. -/
def unitRoundoff : ℚ := 1 / 2 ^ 53

/-- The rational number a `Float64` stands for. -/
def Float64.val (x : Float64) : ℚ := (x.num : ℚ) / (x.den : ℚ)

/-! ## Building the document -/

/-- The function `noVulnerabilitiesFound` of `junit_output.go`. -/
def noVulnerabilitiesFound (testSuiteName : String) : JUnitTestSuite :=
  let ts : JUnitTestSuite :=
    { Tests := 1
      Failures := 0
      Time := formatTime oneMsSecondDuration
      Name := testSuiteName
      Properties := []
      TestCases := [] }
  let testCase : JUnitTestCase :=
    { Classname := "no.vulnerabilities.found"
      Name := "No vulnerabilities found"
      Time := formatTime oneMsSecondDuration }
  { ts with TestCases := ts.TestCases ++ [testCase] }

/-- The body of the inner loop of `JUnitReportXML` up to the `append`: the test
case built from one vulnerability. -/
def newTestCase (vulnerability : Vulnerability) : JUnitTestCase :=
  let failure : JUnitFailure :=
    { Message := vulnerability.FeatureName ++ " [" ++ vulnerability.FeatureVersion ++ "]: "
        ++ vulnerability.Link
      Type_ := "ERROR"
      Contents := vulnerability.Description }
  let testCase : JUnitTestCase :=
    { Classname := vulnerability.FeatureName
      Name := vulnerability.Name ++ " [" ++ vulnerability.Severity ++ "]"
      Time := formatTime oneMsSecondDuration
      Failure := some failure }
  if vulnerability.FixedBy ≠ "" then
    { testCase with
      Failure := testCase.Failure.map fun f =>
        { f with Contents := f.Contents ++ " FIXED BY: " ++ vulnerability.FixedBy } }
  else
    testCase

/-- The body of the outer loop of `JUnitReportXML` up to the `append`: the test
suite built for the severity `sev` with vulnerabilities `vs`. -/
def newTestSuite (cleanImageName sev : String) (vs : List Vulnerability) : JUnitTestSuite :=
  let ts : JUnitTestSuite :=
    { Tests := (vs.length : Int)
      Failures := (vs.length : Int)
      Time := formatTime oneMsSecondDuration
      Name := cleanImageName ++ "_" ++ sev
      TestCases := [] }
  -- individual test cases
  vs.foldl (fun ts vulnerability =>
    { ts with TestCases := ts.TestCases ++ [newTestCase vulnerability] }) ts

/-- The first part of `JUnitReportXML`, down to the comment `// to xml`: the value
of `suites` that is marshalled.  `vsMap` lists the entries of the map in the
order the `range` loop visits them. -/
def buildSuites (vsMap : List (String × List Vulnerability)) (imageName : String) :
    JUnitTestSuites :=
  let suites : JUnitTestSuites := {}
  let suites := { suites with Name := imageName }
  let clean := cleanImageName imageName
  -- convert vulnerability map to individual test suites
  let suites := vsMap.foldl (fun suites entry =>
    { suites with Suites := suites.Suites ++ [newTestSuite clean entry.1 entry.2] }) suites
  if vsMap.length = 0 then
    { suites with Suites := suites.Suites ++ [noVulnerabilitiesFound clean] }
  else
    suites

/-! ## Strings as bytes

A Go string is a sequence of bytes, the UTF-8 encoding of its runes.  Bytes are
natural numbers below 256. -/

/-- The function `utf8.AppendRune` on no bytes: the encoding of a rune.  The
shifts and masks of the source are written as divisions and remainders.  A `Char`
is neither a surrogate nor above `U+10FFFF`, so the branch of the source for
invalid runes is not reached. -/
def AppendRune (c : Char) : List Nat :=
  let r := c.toNat
  if r ≤ 0x7F then [r]
  else if r ≤ 0x7FF then [0xC0 + r / 64, 0x80 + r % 64]
  else if r ≤ 0xFFFF then [0xE0 + r / 4096, 0x80 + r / 64 % 64, 0x80 + r % 64]
  else [0xF0 + r / 262144, 0x80 + r / 4096 % 64, 0x80 + r / 64 % 64, 0x80 + r % 64]

/-- The bytes of a list of runes. -/
def encodeRunes : List Char → List Nat
  | [] => []
  | c :: cs => AppendRune c ++ encodeRunes cs

/-- The conversion `[]byte(s)`: the bytes of a Go string. -/
def utf8Bytes (s : String) : List Nat :=
  encodeRunes s.data

/-- The table `acceptRanges` of package `utf8`, by first byte: the values allowed
for the second byte of a sequence. -/
def acceptRange (p0 : Nat) : Nat × Nat :=
  if p0 = 0xE0 then (0xA0, 0xBF)
  else if p0 = 0xED then (0x80, 0x9F)
  else if p0 = 0xF0 then (0x90, 0xBF)
  else if p0 = 0xF4 then (0x80, 0x8F)
  else (0x80, 0xBF)

/-- The function `utf8.DecodeRune`: the first rune of the bytes and the bytes
after it; `none` where the source returns `RuneError` with size 0 or 1 (no
bytes, or bytes that do not start with the encoding of a rune). -/
def DecodeRune : List Nat → Option (Char × List Nat)
  | [] => none
  | p0 :: rest =>
    if p0 < 0x80 then some (Char.ofNat p0, rest)
    else if p0 < 0xC2 ∨ 0xF4 < p0 then none
    else
      match rest with
      | [] => none
      | b1 :: rest1 =>
        if b1 < (acceptRange p0).1 ∨ (acceptRange p0).2 < b1 then none
        else if p0 < 0xE0 then some (Char.ofNat (p0 % 32 * 64 + b1 % 64), rest1)
        else
          match rest1 with
          | [] => none
          | b2 :: rest2 =>
            if b2 < 0x80 ∨ 0xBF < b2 then none
            else if p0 < 0xF0 then
              some (Char.ofNat (p0 % 16 * 4096 + b1 % 64 * 64 + b2 % 64), rest2)
            else
              match rest2 with
              | [] => none
              | b3 :: rest3 =>
                if b3 < 0x80 ∨ 0xBF < b3 then none
                else
                  some (Char.ofNat (p0 % 8 * 262144 + b1 % 64 * 4096 + b2 % 64 * 64 + b3 % 64),
                    rest3)

/-- The runes of a sequence of bytes, read with `DecodeRune` one after the other;
`none` when the bytes are not UTF-8.  Every rune takes at least one byte, so the
length of the input is fuel enough. -/
def decodeRunes : Nat → List Nat → Option (List Char)
  | _, [] => some []
  | 0, _ :: _ => none
  | k + 1, p0 :: rest =>
    match DecodeRune (p0 :: rest) with
    | none => none
    | some (c, tail) =>
      match decodeRunes k tail with
      | none => none
      | some cs => some (c :: cs)

/-! ## Writing the file -/

/-- A Go `error` value, by its message. -/
abbrev GoError := String

/-- The result of `filepath.Join(dir, name)` for a file name without separator:
the entry `name` of the directory `dir`.  The only name joined is the output file
name, which holds no separator (see `xmlFileName_no_separator`). -/
structure Path where
  dir : String
  name : String
deriving DecidableEq, Repr

/-- What `JUnitReportXML` calls outside its package. -/
structure Env where
  /-- The call `xml.MarshalIndent(suites, "", "\t")`: the bytes or the error. -/
  MarshalIndent : JUnitTestSuites → Except GoError (List Nat)
  /-- The call `os.Getwd()`. -/
  Getwd : Except GoError String
  /-- The error `os.Create` returns for a path; `none` when the file is created
  (and truncated). -/
  Create : Path → Option GoError
  /-- How many bytes the created file accepts before a write to it fails. -/
  capacity : Nat
  /-- The error of a write that the created file does not take whole. -/
  WriteError : Path → GoError

/-- The constant `xml.Header`. -/
def xmlHeader : String := "<?xml version=\"1.0\" encoding=\"UTF-8\"?>\n"

/-- The created file, an `os.File` open for writing. -/
structure File where
  /-- The bytes the file holds. -/
  content : List Nat
  /-- How many more bytes the file accepts. -/
  room : Nat
  /-- The error of a write that the file does not take whole. -/
  fault : GoError
deriving DecidableEq, Repr

/-- The method `Write` of `os.File`: the new state, the number of bytes written
and the error.  A write that does not fit leaves the bytes that fit in the file. -/
def File.Write (f : File) (b : List Nat) : File × Nat × Option GoError :=
  if b.length ≤ f.room then
    ({ f with content := f.content ++ b, room := f.room - b.length }, b.length, none)
  else
    ({ f with content := f.content ++ b.take f.room, room := 0 }, f.room, some f.fault)

/-- The constant `defaultBufSize` of package `bufio`. -/
def defaultBufSize : Nat := 4096

/-- The error `io.ErrShortWrite`. -/
def ErrShortWrite : GoError := "short write"

/-- A `bufio.Writer` on the created file; `buf` stands for `b.buf[0:b.n]`, and the
size of the buffer is `defaultBufSize`. -/
structure Writer where
  /-- The first error met; once set, nothing more is written. -/
  err : Option GoError
  /-- The buffered bytes. -/
  buf : List Nat
  /-- The file written to. -/
  wr : File
deriving DecidableEq, Repr

/-- The call `bufio.NewWriter(f)`. -/
def NewWriter (f : File) : Writer :=
  { err := none, buf := [], wr := f }

/-- The method `Available` of `bufio.Writer`. -/
def Writer.Available (b : Writer) : Nat :=
  defaultBufSize - b.buf.length

/-- The method `Buffered` of `bufio.Writer`. -/
def Writer.Buffered (b : Writer) : Nat :=
  b.buf.length

/-- The method `Flush` of `bufio.Writer`: the new state and the error. -/
def Writer.Flush (b : Writer) : Writer × Option GoError :=
  match b.err with
  | some e => (b, some e)
  | none =>
    if b.buf.length = 0 then (b, none)
    else
      let r := b.wr.Write b.buf
      let n := r.2.1
      let err := if n < b.buf.length ∧ r.2.2 = none then some ErrShortWrite else r.2.2
      match err with
      | some e => ({ err := some e, buf := b.buf.drop n, wr := r.1 }, some e)
      | none => ({ b with buf := [], wr := r.1 }, none)

/-- The loop of the method `Write` of `bufio.Writer`, run while the bytes left do
not fit the buffer and no error is set: the writer, the bytes left and the number
of bytes taken so far. -/
def Writer.writeLoop : Nat → Writer → List Nat → Nat → Writer × List Nat × Nat
  | 0, b, p, nn => (b, p, nn)
  | k + 1, b, p, nn =>
    if p.length > b.Available ∧ b.err = none then
      if b.Buffered = 0 then
        -- Large write, empty buffer: write directly from p
        let r := b.wr.Write p
        Writer.writeLoop k { b with err := r.2.2, wr := r.1 } (p.drop r.2.1) (nn + r.2.1)
      else
        let n := min b.Available p.length
        let b1 := (Writer.Flush { b with buf := b.buf ++ p.take n }).1
        Writer.writeLoop k b1 (p.drop n) (nn + n)
    else (b, p, nn)

/-- The method `Write` of `bufio.Writer`: the new state, the number of bytes taken
and the error.  The loop ends within three rounds (see `writeLoop_ends`). -/
def Writer.Write (b : Writer) (p : List Nat) : Writer × Nat × Option GoError :=
  let r := Writer.writeLoop 3 b p 0
  match r.1.err with
  | some e => (r.1, r.2.2, some e)
  | none => ({ r.1 with buf := r.1.buf ++ r.2.1 }, r.2.2 + r.2.1.length, none)

/-- The method `WriteString` of `bufio.Writer`.  An `os.File` has the method
`WriteString`, which writes the bytes of the string, so the large write of the
loop and the rest go as in `Write`. -/
def Writer.WriteString (b : Writer) (s : String) : Writer × Nat × Option GoError :=
  b.Write (utf8Bytes s)

/-- What a call of `JUnitReportXML` leaves behind. -/
structure Outcome where
  /-- The returned error, `none` for `nil`. -/
  err : Option GoError
  /-- The file created, with the bytes it holds at return. -/
  file : Option (Path × List Nat)
  /-- The lines printed with `fmt.Println`. -/
  stdout : List String
deriving DecidableEq, Repr

/-- The name of the output file, `"CLAIR-"+cleanImageName+".xml"`. -/
def xmlFileName (imageName : String) : String :=
  "CLAIR-" ++ cleanImageName imageName ++ ".xml"

/-- The function `JUnitReportXML` of `junit_output.go`. -/
def JUnitReportXML (env : Env) (vsMap : List (String × List Vulnerability))
    (imageName : String) : Outcome :=
  let suites := buildSuites vsMap imageName
  -- to xml
  match env.MarshalIndent suites with
  | .error err => { err := some err, file := none, stdout := [] }
  | .ok bytes =>
    match env.Getwd with
    | .error err => { err := some err, file := none, stdout := [err] }
    | .ok dir =>
      let f : Path := { dir := dir, name := xmlFileName imageName }
      match env.Create f with
      | some err => { err := some err, file := none, stdout := [err] }
      | none =>
        let writer := NewWriter { content := [], room := env.capacity, fault := env.WriteError f }
        -- the three results below are dropped, as in the source
        let writer := (writer.WriteString xmlHeader).1
        let writer := (writer.Write bytes).1
        let writer := writer.Flush.1
        { err := none, file := some (f, writer.wr.content), stdout := [] }

/-! ## Reference definitions, following the specification's words -/

/-- The safe characters `[A-Za-z0-9.]` of the specification. -/
def isSafeChar (c : Char) : Bool :=
  c.isAlphanum || c == '.'

/-- Scan left to right: a safe character is copied unchanged, and a maximal run of
other characters gives exactly one underscore.  `inRun` tells whether the
character before the current one belonged to such a run. -/
def collapseRuns : Bool → List Char → List Char
  | _, [] => []
  | inRun, c :: cs =>
    if isSafeChar c then c :: collapseRuns false cs
    else if inRun then collapseRuns true cs
    else '_' :: collapseRuns true cs

/-- The sanitized identifier as the specification defines it. -/
def sanitizeSpec (subject : String) : String :=
  String.mk (collapseRuns false subject.data)

/-- The attributes of a test case that the report format fixes: classname, name, type and message of the
failure detail, and the skip detail. -/
def caseView (tc : JUnitTestCase) :
    String × String × Option (String × String) × Option JUnitSkipMessage :=
  (tc.Classname, tc.Name, tc.Failure.map (fun f => (f.Type_, f.Message)), tc.SkipMessage)

/-! ## The scenario of the test file -/

/-- The record `lowVul` of `generateVulnerabilityMap`. -/
def lowVul : Vulnerability :=
  { Description := "descLow", FeatureName := "featureNameLow", FeatureVersion := "1.0",
    FixedBy := "fixedByLow", Link := "http://link.com.low", Name := "nameLow",
    Severity := "low" }

/-- The record `medVul` of `generateVulnerabilityMap`. -/
def medVul : Vulnerability :=
  { Description := "descMed", FeatureName := "featureNameMed", FeatureVersion := "1.0",
    FixedBy := "fixedByMed", Link := "http://link.com.med", Name := "nameMed",
    Severity := "med" }

/-- The record `medVul2` of `generateVulnerabilityMap`. -/
def medVul2 : Vulnerability :=
  { Description := "descMed2", FeatureName := "featureNameMed2", FeatureVersion := "1.0",
    FixedBy := "fixedByMed2", Link := "http://link.com.med2", Name := "nameMed2",
    Severity := "med" }

/-- A record without remediation: `lowVul` with an empty `FixedBy`. -/
def unfixedVul : Vulnerability :=
  { lowVul with FixedBy := "" }

/-- The map of `generateVulnerabilityMap`, visited in the order `low`, `med`. -/
def testVsMap : List (String × List Vulnerability) :=
  [("low", [lowVul]), ("med", [medVul, medVul2])]

/-- The map of `generateVulnerabilityMap`, visited in the order `med`, `low`. -/
def testVsMapRev : List (String × List Vulnerability) :=
  [("med", [medVul, medVul2]), ("low", [lowVul])]

/-- A map whose only key, `low`, has an empty record list. -/
def emptyBucketMap : List (String × List Vulnerability) :=
  [("low", [])]

/-- The constant `imageName` of the test file. -/
def testImageName : String := "test_image:latest"

/-! ## `encoding/xml`: marshalling

`xml.MarshalIndent(suites, "", "\t")` for the three report types, following the
struct tags: attributes in field order, child elements in field order, one tab of
indentation per level, no line break before the end tag of an element without
child elements.  Text and attribute values go through `EscapeText`. -/

/-- The function `isInCharacterRange` of `encoding/xml`: the characters XML allows. -/
def isInCharacterRange (r : Char) : Bool :=
  r.toNat == 0x09 || r.toNat == 0x0A || r.toNat == 0x0D
    || (decide (0x20 ≤ r.toNat) && decide (r.toNat ≤ 0xD7FF))
    || (decide (0xE000 ≤ r.toNat) && decide (r.toNat ≤ 0xFFFD))
    || (decide (0x10000 ≤ r.toNat) && decide (r.toNat ≤ 0x10FFFF))

/-- The Unicode replacement character `U+FFFD`. -/
def replacementChar : Char := Char.ofNat 0xFFFD

/-- What `EscapeText` writes for one rune. -/
def escapeRune (r : Char) : List Char :=
  if r = '"' then "&#34;".data
  else if r = '\'' then "&#39;".data
  else if r = '&' then "&amp;".data
  else if r = '<' then "&lt;".data
  else if r = '>' then "&gt;".data
  else if r = '\t' then "&#x9;".data
  else if r = '\n' then "&#xA;".data
  else if r = '\r' then "&#xD;".data
  else if isInCharacterRange r then [r]
  else [replacementChar]

/-- The function `EscapeText` of `encoding/xml` (with newlines escaped). -/
def escapeText : List Char → List Char
  | [] => []
  | r :: rs => escapeRune r ++ escapeText rs

/-- The line break and indentation the printer writes before a tag at `depth`. -/
def writeIndent (depth : Nat) : List Char :=
  '\n' :: List.replicate depth '\t'

/-- One attribute of a start tag. -/
def writeAttr (a : String × String) : List Char :=
  ' ' :: a.1.data ++ '=' :: '"' :: escapeText a.2.data ++ ['"']

/-- All attributes of a start tag. -/
def writeAttrs : List (String × String) → List Char
  | [] => []
  | a :: as => writeAttr a ++ writeAttrs as

/-- A start tag. -/
def writeStart (name : String) (attr : List (String × String)) : List Char :=
  '<' :: name.data ++ writeAttrs attr ++ ['>']

/-- An end tag. -/
def writeEnd (name : String) : List Char :=
  '<' :: '/' :: name.data ++ ['>']

/-- The decimal form `strconv.FormatInt(n, 10)` of an integer attribute. -/
def formatInt (n : Int) : String :=
  if n < 0 then "-" ++ Nat.repr n.natAbs else Nat.repr n.natAbs

/-- Marshalling of a `JUnitFailure` at `depth`. -/
def marshalFailure (depth : Nat) (f : JUnitFailure) : List Char :=
  writeIndent depth ++ writeStart "failure" [("message", f.Message), ("type", f.Type_)]
    ++ escapeText f.Contents.data ++ writeEnd "failure"

/-- Marshalling of a `JUnitSkipMessage` at `depth`. -/
def marshalSkipMessage (depth : Nat) (m : JUnitSkipMessage) : List Char :=
  writeIndent depth ++ writeStart "skipped" [("message", m.Message)] ++ writeEnd "skipped"

/-- Marshalling of a `JUnitProperty` at `depth`. -/
def marshalProperty (depth : Nat) (p : JUnitProperty) : List Char :=
  writeIndent depth ++ writeStart "property" [("name", p.Name), ("value", p.Value)]
    ++ writeEnd "property"

/-- Marshalling of a list of properties. -/
def marshalPropertyList (depth : Nat) : List JUnitProperty → List Char
  | [] => []
  | p :: ps => marshalProperty depth p ++ marshalPropertyList depth ps

/-- The field `Properties` with its tag `properties>property,omitempty`: the parent
element is written for a slice even when `omitempty` leaves out every child. -/
def marshalProperties (depth : Nat) (ps : List JUnitProperty) : List Char :=
  writeIndent depth ++ writeStart "properties" []
    ++ marshalPropertyList (depth + 1) ps
    ++ (if ps = [] then [] else writeIndent depth) ++ writeEnd "properties"

/-- The field `SkipMessage`, a pointer with `omitempty`: nothing for `nil`. -/
def marshalOptSkipMessage (depth : Nat) : Option JUnitSkipMessage → List Char
  | some m => marshalSkipMessage depth m
  | none => []

/-- The field `Failure`, a pointer with `omitempty`: nothing for `nil`. -/
def marshalOptFailure (depth : Nat) : Option JUnitFailure → List Char
  | some f => marshalFailure depth f
  | none => []

/-- Marshalling of a `JUnitTestCase` at `depth`. -/
def marshalTestCase (depth : Nat) (tc : JUnitTestCase) : List Char :=
  writeIndent depth
    ++ writeStart "testcase"
        [("classname", tc.Classname), ("name", tc.Name), ("time", tc.Time)]
    ++ marshalOptSkipMessage (depth + 1) tc.SkipMessage
    ++ marshalOptFailure (depth + 1) tc.Failure
    ++ (if tc.SkipMessage.isSome || tc.Failure.isSome then writeIndent depth else [])
    ++ writeEnd "testcase"

/-- Marshalling of a list of test cases. -/
def marshalTestCases (depth : Nat) : List JUnitTestCase → List Char
  | [] => []
  | tc :: tcs => marshalTestCase depth tc ++ marshalTestCases depth tcs

/-- Marshalling of a `JUnitTestSuite` at `depth`. -/
def marshalTestSuite (depth : Nat) (ts : JUnitTestSuite) : List Char :=
  writeIndent depth
    ++ writeStart "testsuite"
        [("tests", formatInt ts.Tests), ("failures", formatInt ts.Failures),
          ("time", ts.Time), ("name", ts.Name)]
    ++ marshalProperties (depth + 1) ts.Properties
    ++ marshalTestCases (depth + 1) ts.TestCases
    ++ writeIndent depth ++ writeEnd "testsuite"

/-- Marshalling of a list of test suites. -/
def marshalTestSuiteList (depth : Nat) : List JUnitTestSuite → List Char
  | [] => []
  | ts :: tss => marshalTestSuite depth ts ++ marshalTestSuiteList depth tss

/-- The call `xml.MarshalIndent(suites, "", "\t")`; it has no error for these types. -/
def MarshalIndent (suites : JUnitTestSuites) : String :=
  String.mk (writeStart "testsuites" [("name", suites.Name)]
    ++ marshalTestSuiteList 1 suites.Suites
    ++ (if suites.Suites = [] then [] else writeIndent 0) ++ writeEnd "testsuites")

/-! ## `encoding/xml`: the decoder

The tokenizer `Decoder.Token` in strict mode, for the constructs the printer
writes and a little more: the XML declaration, start tags with quoted attribute
values, self-closing tags, end tags, and character data with the predefined and
the numeric character references.  Comments, directives, `CDATA` sections,
namespaces and names outside ASCII are not modelled: on them the model returns
`none`, as it does where the decoder reports an error. -/

/-- A token of the decoder. -/
inductive Token where
  | StartElement (name : String) (attr : List (String × String))
  | EndElement (name : String)
  | CharData (data : String)
  | ProcInst (target : String) (inst : String)
deriving DecidableEq, Repr

/-- The state of a decoder: the input still to read, the names of the open
elements, and the end tag still owed for a self-closing element. -/
structure Decoder where
  input : List Char
  stk : List String
  needClose : Option String
deriving DecidableEq, Repr

/-- The function `isNameByte` of `encoding/xml`. -/
def isNameByte (c : Char) : Bool :=
  (decide ('A'.toNat ≤ c.toNat) && decide (c.toNat ≤ 'Z'.toNat))
    || (decide ('a'.toNat ≤ c.toNat) && decide (c.toNat ≤ 'z'.toNat))
    || (decide ('0'.toNat ≤ c.toNat) && decide (c.toNat ≤ '9'.toNat))
    || c == '_' || c == ':' || c == '.' || c == '-'

/-- First character of an ASCII name without namespace: a letter or an underscore. -/
def isNameStart (c : Char) : Bool :=
  (decide ('A'.toNat ≤ c.toNat) && decide (c.toNat ≤ 'Z'.toNat))
    || (decide ('a'.toNat ≤ c.toNat) && decide (c.toNat ≤ 'z'.toNat))
    || c == '_'

/-- The white space `Decoder.space` skips. -/
def isSpaceByte (c : Char) : Bool :=
  c == ' ' || c == '\r' || c == '\n' || c == '\t'

/-- The method `Decoder.space`. -/
def space (input : List Char) : List Char :=
  input.dropWhile isSpaceByte

/-- The method `Decoder.name` for an ASCII name without colon: the longest run of
name bytes, which has to start like a name and must not be followed by a
character outside ASCII. -/
def readName (input : List Char) : Option (String × List Char) :=
  match input.takeWhile isNameByte, input.dropWhile isNameByte with
  | [], _ => none
  | c :: cs, rest =>
    if isNameStart c && (c :: cs).all (fun x => x != ':')
        && rest.head?.all (fun x => decide (x.toNat < 128)) then
      some (String.mk (c :: cs), rest)
    else
      none

/-- Value of a digit in the given base, 10 or 16. -/
def digitVal (base : Nat) (c : Char) : Option Nat :=
  if decide ('0'.toNat ≤ c.toNat) && decide (c.toNat ≤ '9'.toNat) then some (c.toNat - '0'.toNat)
  else if base = 16 && decide ('a'.toNat ≤ c.toNat) && decide (c.toNat ≤ 'f'.toNat) then
    some (c.toNat - 'a'.toNat + 10)
  else if base = 16 && decide ('A'.toNat ≤ c.toNat) && decide (c.toNat ≤ 'F'.toNat) then
    some (c.toNat - 'A'.toNat + 10)
  else none

/-- Value of a run of digits, continuing from `acc`. -/
def parseDigits (base : Nat) : List Char → Nat → Option Nat
  | [], acc => some acc
  | c :: cs, acc =>
    match digitVal base c with
    | some v => parseDigits base cs (acc * base + v)
    | none => none

/-- The conversion `string(rune(n))` of a character reference. -/
def entityRune (n : Nat) : Option Char :=
  if n ≤ 0x10FFFF then
    if n.isValidChar then some (Char.ofNat n) else some replacementChar
  else none

/-- The character a reference `&body;` stands for: `#` with decimal digits, `#x`
with hexadecimal digits, or one of the five predefined names. -/
def decodeEntity (body : List Char) : Option Char :=
  match body with
  | '#' :: 'x' :: ds => if ds = [] then none else (parseDigits 16 ds 0).bind entityRune
  | '#' :: ds => if ds = [] then none else (parseDigits 10 ds 0).bind entityRune
  | _ =>
    if body = "lt".data then some '<'
    else if body = "gt".data then some '>'
    else if body = "amp".data then some '&'
    else if body = "apos".data then some '\''
    else if body = "quot".data then some '"'
    else none

/-- The loop of `Decoder.text`: `quote` is the closing quote of an attribute value,
`none` for character data; `ent` holds the body of a reference being read, `b0`
and `b1` the two raw characters read last, `out` the text decoded so far.  The
result is the text and the input after it; character data stops before `<`. -/
def textLoop (quote : Option Char) :
    Option (List Char) → Char → Char → List Char → List Char → Option (List Char × List Char)
  | some _, _, _, _, [] => none
  | none, _, _, out, [] => if quote.isSome then none else some (out, [])
  | some body, b0, b1, out, c :: cs =>
    if c = ';' then
      match decodeEntity body with
      | some r => textLoop quote none (Char.ofNat 0) (Char.ofNat 0) (out ++ [r]) cs
      | none => none
    else textLoop quote (some (body ++ [c])) b0 b1 out cs
  | none, b0, b1, out, c :: cs =>
    if b0 = ']' ∧ b1 = ']' ∧ c = '>' then none
    else if c = '<' then (if quote.isSome then none else some (out, c :: cs))
    else if quote = some c then some (out, cs)
    else if c = '&' then textLoop quote (some []) b0 b1 out cs
    else if c = '\r' then textLoop quote none b1 c (out ++ ['\n']) cs
    else if b1 = '\r' ∧ c = '\n' then textLoop quote none b1 c out cs
    else textLoop quote none b1 c (out ++ [c]) cs

/-- The method `Decoder.text`: the loop, then the check that every character of
the text is one XML allows. -/
def text (quote : Option Char) (input : List Char) : Option (String × List Char) :=
  match textLoop quote none (Char.ofNat 0) (Char.ofNat 0) [] input with
  | some (out, rest) => if out.all isInCharacterRange then some (String.mk out, rest) else none
  | none => none

/-- The attribute loop of `Decoder.rawToken`, after the element name: the
attributes, whether the tag is self-closing, and the input after the tag.  One
unit of fuel is one attribute. -/
def readAttrs : Nat → List Char → Option (List (String × String) × Bool × List Char)
  | 0, _ => none
  | fuel + 1, input =>
    match space input with
    | [] => none
    | c :: rest =>
      if c = '/' then
        match rest with
        | [] => none
        | c1 :: rest1 => if c1 = '>' then some ([], true, rest1) else none
      else if c = '>' then some ([], false, rest)
      else
        match readName (c :: rest) with
        | none => none
        | some (n, rest1) =>
          if n = "xmlns" then none
          else
            match space rest1 with
            | [] => none
            | e :: rest2 =>
              if e = '=' then
                match space rest2 with
                | [] => none
                | q :: rest3 =>
                  if q = '"' ∨ q = '\'' then
                    match text (some q) rest3 with
                    | some (v, rest4) =>
                      match readAttrs fuel rest4 with
                      | some (attr, empty, rest5) => some ((n, v) :: attr, empty, rest5)
                      | none => none
                    | none => none
                  else none
              else none

/-- The body of a processing instruction, up to `?>`. -/
def readProcInst : List Char → List Char → Option (List Char × List Char)
  | _, [] => none
  | acc, c :: cs =>
    match c, cs with
    | '?', '>' :: rest => some (acc, rest)
    | _, _ => readProcInst (acc ++ [c]) cs

/-- An end tag, after `</`. -/
def readEndTag (d : Decoder) (rest : List Char) : Option (Token × Decoder) :=
  match readName rest with
  | some (n, rest1) =>
    match space rest1 with
    | [] => none
    | c :: rest2 =>
      if c = '>' then some (Token.EndElement n, { d with input := rest2 }) else none
  | none => none

/-- A processing instruction, after `<?`.  Of the XML declarations only the one
of `xml.Header` is modelled. -/
def readProcInstTag (d : Decoder) (rest : List Char) : Option (Token × Decoder) :=
  match readName rest with
  | some (target, rest1) =>
    match readProcInst [] (space rest1) with
    | some (inst, rest2) =>
      if target = "xml" ∧ inst ≠ "version=\"1.0\" encoding=\"UTF-8\"".data then none
      else some (Token.ProcInst target (String.mk inst), { d with input := rest2 })
    | none => none
  | none => none

/-- A start tag, after `<`. -/
def readStartTag (d : Decoder) (rest : List Char) : Option (Token × Decoder) :=
  match readName rest with
  | some (n, rest1) =>
    match readAttrs (rest1.length + 1) rest1 with
    | some (attr, empty, rest2) =>
      some (Token.StartElement n attr,
        { d with input := rest2, needClose := if empty then some n else none })
    | none => none
  | none => none

/-- The method `Decoder.rawToken`. -/
def rawToken (d : Decoder) : Option (Token × Decoder) :=
  match d.needClose with
  | some n => some (Token.EndElement n, { d with needClose := none })
  | none =>
    match d.input with
    | [] => none
    | c :: rest =>
      if c = '<' then
        match rest with
        | [] => none
        | c1 :: rest1 =>
          if c1 = '/' then readEndTag d rest1
          else if c1 = '?' then readProcInstTag d rest1
          else if c1 = '!' then none
          else readStartTag d rest
      else
        match text none (c :: rest) with
        | some (data, rest1) => some (Token.CharData data, { d with input := rest1 })
        | none => none

/-- The method `Decoder.Token`: the raw token, with the stack of open elements
kept and every end tag checked against it. -/
def token (d : Decoder) : Option (Token × Decoder) :=
  match rawToken d with
  | some (Token.StartElement n attr, d1) =>
    some (Token.StartElement n attr, { d1 with stk := n :: d1.stk })
  | some (Token.EndElement n, d1) =>
    match d1.stk with
    | top :: stk1 => if top = n then some (Token.EndElement n, { d1 with stk := stk1 }) else none
    | [] => none
  | some (t, d1) => some (t, d1)
  | none => none

/-- The loop of `Decoder.Skip`: read to the end of the current element. -/
def skipLoop : Nat → Nat → Decoder → Option Decoder
  | 0, _, _ => none
  | k + 1, depth, d =>
    match token d with
    | some (Token.StartElement _ _, d1) => skipLoop k (depth + 1) d1
    | some (Token.EndElement _, d1) => if depth = 0 then some d1 else skipLoop k (depth - 1) d1
    | some (_, d1) => skipLoop k depth d1
    | none => none

/-- The method `Decoder.Skip`.  A token takes at least one character of the input,
but for the end of a self-closing tag, so no loop of the decoder runs more often
than there are characters left, plus one. -/
def skip (d : Decoder) : Option Decoder :=
  skipLoop (d.input.length + 1) 0 d

/-! ## `encoding/xml`: unmarshalling

`xml.Unmarshal` into a `JUnitTestSuites`, following the struct tags: attributes
are assigned by name, child elements are unmarshalled into the field of their
name, other child elements are skipped, and character data is kept only for the
`chardata` field of `JUnitFailure`.  Every loop below reads tokens until the end
tag of its element; `k` bounds its iterations. -/

/-- The white space `strings.TrimSpace` removes. -/
def isUnicodeSpace (c : Char) : Bool :=
  (decide (0x09 ≤ c.toNat) && decide (c.toNat ≤ 0x0D)) || c.toNat == 0x20 || c.toNat == 0x85
    || c.toNat == 0xA0 || c.toNat == 0x1680
    || (decide (0x2000 ≤ c.toNat) && decide (c.toNat ≤ 0x200A))
    || c.toNat == 0x2028 || c.toNat == 0x2029 || c.toNat == 0x202F || c.toNat == 0x205F
    || c.toNat == 0x3000

/-- The function `strings.TrimSpace`. -/
def trimSpace (s : List Char) : List Char :=
  ((s.dropWhile isUnicodeSpace).reverse.dropWhile isUnicodeSpace).reverse

/-- How `copyValue` sets an `int` field from an attribute value: `0` for the empty
value, else `strconv.ParseInt(strings.TrimSpace(s), 10, 64)`. -/
def parseInt (s : String) : Option Int :=
  if s.data = [] then some 0
  else
    match trimSpace s.data with
    | [] => none
    | c :: ds =>
      if c = '-' then
        if ds = [] then none
        else (parseDigits 10 ds 0).bind fun n =>
          if n ≤ 9223372036854775808 then some (-(n : Int)) else none
      else if c = '+' then
        if ds = [] then none
        else (parseDigits 10 ds 0).bind fun n =>
          if n ≤ 9223372036854775807 then some (n : Int) else none
      else
        (parseDigits 10 (c :: ds) 0).bind fun n =>
          if n ≤ 9223372036854775807 then some (n : Int) else none

/-- One attribute assigned to a `JUnitFailure`. -/
def assignFailureAttr (f : JUnitFailure) (a : String × String) : JUnitFailure :=
  if a.1 = "message" then { f with Message := a.2 }
  else if a.1 = "type" then { f with Type_ := a.2 }
  else f

/-- The token loop for a `JUnitFailure`; `data` collects the character data. -/
def unmarshalFailureLoop :
    Nat → JUnitFailure → String → Decoder → Option (JUnitFailure × Decoder)
  | 0, _, _, _ => none
  | k + 1, f, data, d =>
    match token d with
    | some (Token.StartElement _ _, d1) =>
      match skip d1 with
      | some d2 => unmarshalFailureLoop k f data d2
      | none => none
    | some (Token.EndElement _, d1) => some ({ f with Contents := data }, d1)
    | some (Token.CharData s, d1) => unmarshalFailureLoop k f (data ++ s) d1
    | some (_, d1) => unmarshalFailureLoop k f data d1
    | none => none

/-- Unmarshalling of a `failure` element into `init`, after its start tag. -/
def unmarshalFailure (init : JUnitFailure) (attr : List (String × String))
    (d : Decoder) : Option (JUnitFailure × Decoder) :=
  unmarshalFailureLoop (d.input.length + 1) (attr.foldl assignFailureAttr init) "" d

/-- One attribute assigned to a `JUnitSkipMessage`. -/
def assignSkipMessageAttr (m : JUnitSkipMessage) (a : String × String) : JUnitSkipMessage :=
  if a.1 = "message" then { m with Message := a.2 } else m

/-- The token loop for an element without fields for child elements or text. -/
def unmarshalLeafLoop : Nat → Decoder → Option Decoder
  | 0, _ => none
  | k + 1, d =>
    match token d with
    | some (Token.StartElement _ _, d1) =>
      match skip d1 with
      | some d2 => unmarshalLeafLoop k d2
      | none => none
    | some (Token.EndElement _, d1) => some d1
    | some (_, d1) => unmarshalLeafLoop k d1
    | none => none

/-- Unmarshalling of a `skipped` element into `init`, after its start tag. -/
def unmarshalSkipMessage (init : JUnitSkipMessage) (attr : List (String × String))
    (d : Decoder) : Option (JUnitSkipMessage × Decoder) :=
  match unmarshalLeafLoop (d.input.length + 1) d with
  | some d1 => some (attr.foldl assignSkipMessageAttr init, d1)
  | none => none

/-- One attribute assigned to a `JUnitProperty`. -/
def assignPropertyAttr (p : JUnitProperty) (a : String × String) : JUnitProperty :=
  if a.1 = "name" then { p with Name := a.2 }
  else if a.1 = "value" then { p with Value := a.2 }
  else p

/-- Unmarshalling of a `property` element, after its start tag. -/
def unmarshalProperty (attr : List (String × String)) (d : Decoder) :
    Option (JUnitProperty × Decoder) :=
  match unmarshalLeafLoop (d.input.length + 1) d with
  | some d1 => some (attr.foldl assignPropertyAttr { Name := "", Value := "" }, d1)
  | none => none

/-- The token loop inside a `properties` element: every `property` child is
appended to the list. -/
def unmarshalPropertiesLoop :
    Nat → List JUnitProperty → Decoder → Option (List JUnitProperty × Decoder)
  | 0, _, _ => none
  | k + 1, ps, d =>
    match token d with
    | some (Token.StartElement n attr, d1) =>
      if n = "property" then
        match unmarshalProperty attr d1 with
        | some (p, d2) => unmarshalPropertiesLoop k (ps ++ [p]) d2
        | none => none
      else
        match skip d1 with
        | some d2 => unmarshalPropertiesLoop k ps d2
        | none => none
    | some (Token.EndElement _, d1) => some (ps, d1)
    | some (_, d1) => unmarshalPropertiesLoop k ps d1
    | none => none

/-- One attribute assigned to a `JUnitTestCase`. -/
def assignTestCaseAttr (tc : JUnitTestCase) (a : String × String) : JUnitTestCase :=
  if a.1 = "classname" then { tc with Classname := a.2 }
  else if a.1 = "name" then { tc with Name := a.2 }
  else if a.1 = "time" then { tc with Time := a.2 }
  else tc

/-- The token loop for a `JUnitTestCase`. -/
def unmarshalTestCaseLoop :
    Nat → JUnitTestCase → Decoder → Option (JUnitTestCase × Decoder)
  | 0, _, _ => none
  | k + 1, tc, d =>
    match token d with
    | some (Token.StartElement n attr, d1) =>
      if n = "skipped" then
        match unmarshalSkipMessage (tc.SkipMessage.getD { Message := "" }) attr d1 with
        | some (m, d2) => unmarshalTestCaseLoop k { tc with SkipMessage := some m } d2
        | none => none
      else if n = "failure" then
        match unmarshalFailure
            (tc.Failure.getD { Message := "", Type_ := "", Contents := "" }) attr d1 with
        | some (f, d2) => unmarshalTestCaseLoop k { tc with Failure := some f } d2
        | none => none
      else
        match skip d1 with
        | some d2 => unmarshalTestCaseLoop k tc d2
        | none => none
    | some (Token.EndElement _, d1) => some (tc, d1)
    | some (_, d1) => unmarshalTestCaseLoop k tc d1
    | none => none

/-- Unmarshalling of a `testcase` element, after its start tag. -/
def unmarshalTestCase (attr : List (String × String)) (d : Decoder) :
    Option (JUnitTestCase × Decoder) :=
  unmarshalTestCaseLoop (d.input.length + 1)
    (attr.foldl assignTestCaseAttr { XMLName := { Space := "", Local := "testcase" } }) d

/-- One attribute assigned to a `JUnitTestSuite`; an `int` field that does not
parse is an error. -/
def assignTestSuiteAttr (ts : Option JUnitTestSuite) (a : String × String) :
    Option JUnitTestSuite :=
  match ts with
  | none => none
  | some ts =>
    if a.1 = "tests" then (parseInt a.2).map fun n => { ts with Tests := n }
    else if a.1 = "failures" then (parseInt a.2).map fun n => { ts with Failures := n }
    else if a.1 = "time" then some { ts with Time := a.2 }
    else if a.1 = "name" then some { ts with Name := a.2 }
    else some ts

/-- The token loop for a `JUnitTestSuite`. -/
def unmarshalTestSuiteLoop :
    Nat → JUnitTestSuite → Decoder → Option (JUnitTestSuite × Decoder)
  | 0, _, _ => none
  | k + 1, ts, d =>
    match token d with
    | some (Token.StartElement n attr, d1) =>
      if n = "properties" then
        match unmarshalPropertiesLoop (d1.input.length + 1) ts.Properties d1 with
        | some (ps, d2) => unmarshalTestSuiteLoop k { ts with Properties := ps } d2
        | none => none
      else if n = "testcase" then
        match unmarshalTestCase attr d1 with
        | some (tc, d2) =>
          unmarshalTestSuiteLoop k { ts with TestCases := ts.TestCases ++ [tc] } d2
        | none => none
      else
        match skip d1 with
        | some d2 => unmarshalTestSuiteLoop k ts d2
        | none => none
    | some (Token.EndElement _, d1) => some (ts, d1)
    | some (_, d1) => unmarshalTestSuiteLoop k ts d1
    | none => none

/-- Unmarshalling of a `testsuite` element, after its start tag. -/
def unmarshalTestSuite (attr : List (String × String)) (d : Decoder) :
    Option (JUnitTestSuite × Decoder) :=
  match attr.foldl assignTestSuiteAttr
      (some { XMLName := { Space := "", Local := "testsuite" } }) with
  | some ts => unmarshalTestSuiteLoop (d.input.length + 1) ts d
  | none => none

/-- One attribute assigned to a `JUnitTestSuites`. -/
def assignTestSuitesAttr (s : JUnitTestSuites) (a : String × String) : JUnitTestSuites :=
  if a.1 = "name" then { s with Name := a.2 } else s

/-- The token loop for a `JUnitTestSuites`. -/
def unmarshalTestSuitesLoop :
    Nat → JUnitTestSuites → Decoder → Option (JUnitTestSuites × Decoder)
  | 0, _, _ => none
  | k + 1, s, d =>
    match token d with
    | some (Token.StartElement n attr, d1) =>
      if n = "testsuite" then
        match unmarshalTestSuite attr d1 with
        | some (ts, d2) => unmarshalTestSuitesLoop k { s with Suites := s.Suites ++ [ts] } d2
        | none => none
      else
        match skip d1 with
        | some d2 => unmarshalTestSuitesLoop k s d2
        | none => none
    | some (Token.EndElement _, d1) => some (s, d1)
    | some (_, d1) => unmarshalTestSuitesLoop k s d1
    | none => none

/-- The search for the first start tag, and the unmarshalling of that element,
which has to be named `testsuites`. -/
def unmarshalDocument : Nat → Decoder → Option JUnitTestSuites
  | 0, _ => none
  | k + 1, d =>
    match token d with
    | some (Token.StartElement n attr, d1) =>
      if n = "testsuites" then
        match unmarshalTestSuitesLoop (d1.input.length + 1)
            (attr.foldl assignTestSuitesAttr
              { XMLName := { Space := "", Local := "testsuites" } }) d1 with
        | some (s, _) => some s
        | none => none
      else none
    | some (_, d1) => unmarshalDocument k d1
    | none => none

/-- The decoding of a document given as text, into a zero `suites`; `none` stands
for an error. -/
def unmarshalText (data : String) : Option JUnitTestSuites :=
  unmarshalDocument (data.length + 1) { input := data.data, stk := [], needClose := none }

/-- The call `xml.Unmarshal(data, &suites)` on a zero `suites`, as in the test
`TestJUnitReportXML`; `none` stands for an error.  The bytes are read as UTF-8
before the tokens are; bytes that are not UTF-8 are an error here wherever they
stand, and in Go where they stand in text, attribute values or names. -/
def Unmarshal (data : List Nat) : Option JUnitTestSuites :=
  match decodeRunes data.length data with
  | none => none
  | some cs => unmarshalText (String.mk cs)

/-! ## What a round trip through XML keeps -/

/-- A character after a round trip: `EscapeText` replaces what XML cannot hold. -/
def sanitizeRune (r : Char) : Char :=
  if isInCharacterRange r then r else replacementChar

/-- A string after a round trip. -/
def sanitizeString (s : String) : String :=
  String.mk (s.data.map sanitizeRune)

/-- A `JUnitFailure` after a round trip. -/
def decodedFailure (f : JUnitFailure) : JUnitFailure :=
  { Message := sanitizeString f.Message
    Type_ := sanitizeString f.Type_
    Contents := sanitizeString f.Contents }

/-- A `JUnitTestCase` without skip message after a round trip. -/
def decodedTestCase (tc : JUnitTestCase) : JUnitTestCase :=
  { XMLName := { Space := "", Local := "testcase" }
    Classname := sanitizeString tc.Classname
    Name := sanitizeString tc.Name
    Time := sanitizeString tc.Time
    SkipMessage := none
    Failure := tc.Failure.map decodedFailure }

/-- A `JUnitTestSuite` without properties after a round trip. -/
def decodedTestSuite (ts : JUnitTestSuite) : JUnitTestSuite :=
  { XMLName := { Space := "", Local := "testsuite" }
    Tests := ts.Tests
    Failures := ts.Failures
    Time := sanitizeString ts.Time
    Name := sanitizeString ts.Name
    Properties := []
    TestCases := ts.TestCases.map decodedTestCase }

/-- A `JUnitTestSuites` after a round trip. -/
def decodedTestSuites (s : JUnitTestSuites) : JUnitTestSuites :=
  { XMLName := { Space := "", Local := "testsuites" }
    Suites := s.Suites.map decodedTestSuite
    Name := sanitizeString s.Name }

/-- What the round-trip property compares: the top-level name and, suite by suite,
the name, `Tests`, `Failures`, the number of cases and the names of the cases. -/
def roundTripView (s : JUnitTestSuites) :
    String × List (String × Int × Int × Nat × List String) :=
  (s.Name, s.Suites.map fun ts =>
    (ts.Name, ts.Tests, ts.Failures, ts.TestCases.length, ts.TestCases.map fun tc => tc.Name))

/-- The numbers the round-trip property compares, suite by suite: `Tests`,
`Failures` and the number of cases. -/
def countsView (s : JUnitTestSuites) : List (Int × Int × Nat) :=
  s.Suites.map fun ts => (ts.Tests, ts.Failures, ts.TestCases.length)

/-- The names the round-trip property compares: the top-level name and, suite by
suite, the name of the suite and the names of its cases. -/
def namesView (s : JUnitTestSuites) : String × List (String × List String) :=
  (s.Name, s.Suites.map fun ts => (ts.Name, ts.TestCases.map fun tc => tc.Name))

/-! ## Properties used to state the round trip -/

/-- Modelled name check: an ASCII name without colon, as the printer writes them. -/
def validName (n : String) : Bool :=
  match n.data with
  | [] => false
  | c :: cs => isNameStart c && (c :: cs).all isNameByte && (c :: cs).all (fun x => x != ':')

/-- The shape of the suites `JUnitReportXML` builds: no properties, counts that are
lengths, no skip message. -/
def builtSuite (ts : JUnitTestSuite) : Prop :=
  ts.Properties = [] ∧ 0 ≤ ts.Tests ∧ ts.Tests ≤ 9223372036854775807 ∧
  0 ≤ ts.Failures ∧ ts.Failures ≤ 9223372036854775807 ∧
  ∀ tc ∈ ts.TestCases, tc.SkipMessage = none

/-- Whether every character of a string is one XML allows. -/
def xmlValid (s : String) : Bool :=
  s.data.all isInCharacterRange

/-- A subject that is the single control character `U+0001`. -/
def controlSubject : String := String.mk [Char.ofNat 1]

/-- An environment in which the working directory is `/work`, the marshaller is
the modelled `xml.MarshalIndent`, the file is created and takes `capacity` bytes; a
write beyond them fails as on a full disk. -/
def okEnv (capacity : Nat) : Env :=
  { MarshalIndent := fun suites => .ok (utf8Bytes (MarshalIndent suites))
    Getwd := .ok "/work"
    Create := fun _ => none
    capacity := capacity
    WriteError := fun f => "write " ++ f.dir ++ "/" ++ f.name ++ ": no space left on device" }

/-- The text of the file `CLAIR-test_image_latest.xml` for the map of the test file,
visited in the order `low`, `med`. -/
def testReport : String :=
  "<?xml version=\"1.0\" encoding=\"UTF-8\"?>\n"
  ++ "<testsuites name=\"test_image:latest\">\n"
  ++ "\t<testsuite tests=\"1\" failures=\"1\" time=\"0.001\" name=\"test_image_latest_low\">\n"
  ++ "\t\t<properties></properties>\n"
  ++ "\t\t<testcase classname=\"featureNameLow\" name=\"nameLow [low]\" time=\"0.001\">\n"
  ++ "\t\t\t<failure message=\"featureNameLow [1.0]: http://link.com.low\" type=\"ERROR\">"
  ++ "descLow FIXED BY: fixedByLow</failure>\n"
  ++ "\t\t</testcase>\n"
  ++ "\t</testsuite>\n"
  ++ "\t<testsuite tests=\"2\" failures=\"2\" time=\"0.001\" name=\"test_image_latest_med\">\n"
  ++ "\t\t<properties></properties>\n"
  ++ "\t\t<testcase classname=\"featureNameMed\" name=\"nameMed [med]\" time=\"0.001\">\n"
  ++ "\t\t\t<failure message=\"featureNameMed [1.0]: http://link.com.med\" type=\"ERROR\">"
  ++ "descMed FIXED BY: fixedByMed</failure>\n"
  ++ "\t\t</testcase>\n"
  ++ "\t\t<testcase classname=\"featureNameMed2\" name=\"nameMed2 [med]\" time=\"0.001\">\n"
  ++ "\t\t\t<failure message=\"featureNameMed2 [1.0]: http://link.com.med2\" type=\"ERROR\">"
  ++ "descMed2 FIXED BY: fixedByMed2</failure>\n"
  ++ "\t\t</testcase>\n"
  ++ "\t</testsuite>\n"
  ++ "</testsuites>"

/-- A subject outside ASCII: the letter `U+00E9`, two bytes in a Go string. -/
def accentSubject : String := String.mk [Char.ofNat 0xE9]

/-! ## Theorems -/

set_option maxRecDepth 8192 in
/-- The nominal duration of one millisecond is rendered as `"0.001"`. -/
theorem formatTime_oneMs : formatTime oneMsSecondDuration = "0.001" := by
  decide

/-! ### The regular expression against the reference scan -/

theorem classMatch_eq_not_isSafeChar (c : Char) : classMatch c = !isSafeChar c := by
  simp only [classMatch, isSafeChar, Char.isAlphanum, Char.isAlpha, Char.isUpper, Char.isLower,
    Char.isDigit, Char.toNat, UInt32.le_def, ge_iff_le, BitVec.le_def, UInt32.toNat]
  have h1 : ('a'.val.toBitVec.toNat) = 97 := rfl
  have h2 : ('z'.val.toBitVec.toNat) = 122 := rfl
  have h3 : ('A'.val.toBitVec.toNat) = 65 := rfl
  have h4 : ('Z'.val.toBitVec.toNat) = 90 := rfl
  have h5 : ('0'.val.toBitVec.toNat) = 48 := rfl
  have h6 : ('9'.val.toBitVec.toNat) = 57 := rfl
  have h7 : (UInt32.toBitVec 65).toNat = 65 := rfl
  have h8 : (UInt32.toBitVec 90).toNat = 90 := rfl
  have h9 : (UInt32.toBitVec 97).toNat = 97 := rfl
  have h10 : (UInt32.toBitVec 122).toNat = 122 := rfl
  have h11 : (UInt32.toBitVec 48).toNat = 48 := rfl
  have h12 : (UInt32.toBitVec 57).toNat = 57 := rfl
  simp only [h1, h2, h3, h4, h5, h6, h7, h8, h9, h10, h11, h12]
  generalize c.val.toBitVec.toNat = n
  cases hc : (c == '.') <;> simp
  rw [Bool.eq_iff_iff]
  simp only [Bool.and_eq_true, Bool.or_eq_true, Bool.not_eq_true', decide_eq_false_iff_not]
  omega

theorem drop_length_takeWhile (p : Char → Bool) (l : List Char) :
    l.drop (l.takeWhile p).length = l.dropWhile p := by
  induction l with
  | nil => rfl
  | cons c cs ih =>
    by_cases h : p c = true
    · simp [List.takeWhile_cons, List.dropWhile_cons, h, ih]
    · simp [List.takeWhile_cons, List.dropWhile_cons, h]

theorem take_length_takeWhile (p : Char → Bool) (l : List Char) :
    l.take (l.takeWhile p).length = l.takeWhile p := by
  induction l with
  | nil => rfl
  | cons c cs ih =>
    by_cases h : p c = true
    · simp [List.takeWhile_cons, h, ih]
    · simp [List.takeWhile_cons, h]

theorem dropWhile_head_false (p : Char → Bool) (l : List Char) (c : Char) (cs : List Char)
    (h : l.dropWhile p = c :: cs) : p c = false := by
  induction l with
  | nil => simp at h
  | cons x xs ih =>
    by_cases hx : p x = true
    · rw [List.dropWhile_cons, if_pos hx] at h
      exact ih h
    · rw [List.dropWhile_cons, if_neg hx] at h
      injection h with h1 _
      subst h1
      simpa using hx

theorem collapseRuns_true_dropWhile (l : List Char) :
    collapseRuns true l = collapseRuns false (l.dropWhile classMatch) := by
  induction l with
  | nil => rfl
  | cons c cs ih =>
    by_cases h : classMatch c = true
    · have hs : isSafeChar c = false := by
        rw [classMatch_eq_not_isSafeChar] at h
        simpa using h
      simp [collapseRuns, List.dropWhile_cons, h, hs, ih]
    · have hs : isSafeChar c = true := by
        rw [classMatch_eq_not_isSafeChar] at h
        simpa using h
      simp [collapseRuns, List.dropWhile_cons, h, hs]

theorem collapseRuns_false_takeWhile (l : List Char) :
    collapseRuns false l = l.takeWhile (fun c => !classMatch c)
      ++ collapseRuns false (l.dropWhile (fun c => !classMatch c)) := by
  induction l with
  | nil => rfl
  | cons c cs ih =>
    by_cases h : classMatch c = true
    · simp [List.takeWhile_cons, List.dropWhile_cons, h]
    · have hs : isSafeChar c = true := by
        rw [classMatch_eq_not_isSafeChar] at h
        simpa using h
      have h' : classMatch c = false := by simpa using h
      simp [collapseRuns, List.takeWhile_cons, List.dropWhile_cons, h', hs, ih]

theorem collapseRuns_false_cons_class (c : Char) (cs : List Char) (h : classMatch c = true) :
    collapseRuns false (c :: cs) = '_' :: collapseRuns false (cs.dropWhile classMatch) := by
  have hs : isSafeChar c = false := by
    rw [classMatch_eq_not_isSafeChar] at h
    simpa using h
  simp [collapseRuns, hs, collapseRuns_true_dropWhile]

/-- The loop of `replaceAll`, entered at a position `p` where the previous match
ended, returns what the reference scan makes of the rest of the input. -/
theorem replaceAll_loop (src : List Char) :
    ∀ (fuel p : Nat) (buf : List Char), p ≤ src.length → src.length - p < fuel →
      replaceAll src ['_'] fuel p p buf = some (buf ++ collapseRuns false (src.drop p)) := by
  intro fuel
  induction fuel with
  | zero => intro p buf _ h; omega
  | succ fuel ih =>
    intro p buf hp hfuel
    have hlen : (src.drop p).length = src.length - p := List.length_drop p src
    have hsplit := collapseRuns_false_takeWhile (src.drop p)
    have hdrop : src.drop (p + ((src.drop p).takeWhile (fun c => !classMatch c)).length)
        = (src.drop p).dropWhile (fun c => !classMatch c) := by
      rw [← drop_length_takeWhile, List.drop_drop]
    have htake : (src.drop p).take (((src.drop p).takeWhile (fun c => !classMatch c)).length)
        = (src.drop p).takeWhile (fun c => !classMatch c) := take_length_takeWhile _ _
    rw [replaceAll, if_pos hp, doExecute]
    simp only
    by_cases ha : p + ((src.drop p).takeWhile (fun c => !classMatch c)).length < src.length
    · rw [if_pos ha]
      simp only
      rw [hdrop, Nat.add_sub_cancel_left, htake]
      have hdlen : ((src.drop p).dropWhile (fun c => !classMatch c)).length
          = src.length - (p + ((src.drop p).takeWhile (fun c => !classMatch c)).length) := by
        rw [← hdrop, List.length_drop]
      cases hd : (src.drop p).dropWhile (fun c => !classMatch c) with
      | nil =>
        rw [hd] at hdlen
        simp only [List.length_nil] at hdlen
        omega
      | cons c cs =>
        have hc : classMatch c = true := by
          simpa using dropWhile_head_false _ _ _ _ hd
        rw [hd] at hdlen hdrop hsplit
        have hk : (cs.takeWhile classMatch).length ≤ cs.length :=
          (List.takeWhile_sublist classMatch).length_le
        have hdrop2 : src.drop (p + ((src.drop p).takeWhile (fun c => !classMatch c)).length
            + ((cs.takeWhile classMatch).length + 1)) = cs.dropWhile classMatch := by
          rw [← List.drop_drop, hdrop, List.drop_succ_cons, drop_length_takeWhile]
        rw [List.takeWhile_cons, if_pos hc, List.length_cons]
        rw [List.length_cons] at hdlen
        generalize ((src.drop p).takeWhile (fun c => !classMatch c)).length = n at *
        generalize (cs.takeWhile classMatch).length = k at *
        split_ifs <;> try omega
        rw [ih _ _ (by omega) (by omega), hdrop2, hsplit, collapseRuns_false_cons_class c cs hc]
        simp
    · rw [if_neg ha]
      simp only
      have hnil : (src.drop p).dropWhile (fun c => !classMatch c) = [] := by
        rw [← hdrop]
        exact List.drop_eq_nil_of_le (by omega)
      have hall : (src.drop p).takeWhile (fun c => !classMatch c) = src.drop p := by
        have := List.takeWhile_append_dropWhile (fun c => !classMatch c) (src.drop p)
        rw [hnil, List.append_nil] at this
        exact this
      rw [hsplit, hnil, hall]
      simp [collapseRuns]

/-- The regular-expression replacement computes the reference scan, and its loop
ends within the fuel it is given. -/
theorem replaceAll_eq_some (src : String) :
    replaceAll src.data ['_'] (src.length + 1) 0 0 [] = some (collapseRuns false src.data) := by
  have hlen : src.length = src.data.length := rfl
  have h := replaceAll_loop src.data (src.length + 1) 0 [] (Nat.zero_le _) (by omega)
  rw [h]
  rfl

theorem cleanImageName_eq_collapse (imageName : String) :
    cleanImageName imageName = String.mk (collapseRuns false imageName.data) := by
  have h : "_".data = ['_'] := rfl
  unfold cleanImageName ReplaceAllString
  rw [h, replaceAll_eq_some]

/-- The reference scan only produces safe characters and underscores. -/
theorem collapseRuns_mem (inRun : Bool) (l : List Char) (c : Char)
    (h : c ∈ collapseRuns inRun l) : isSafeChar c = true ∨ c = '_' := by
  induction l generalizing inRun with
  | nil => simp [collapseRuns] at h
  | cons x xs ih =>
    by_cases hx : isSafeChar x = true
    · simp only [collapseRuns, hx, if_true, List.mem_cons] at h
      rcases h with h | h
      · exact Or.inl (h ▸ hx)
      · exact ih false h
    · cases inRun with
      | true =>
        simp only [collapseRuns, hx, if_true, Bool.false_eq_true, if_false] at h
        exact ih true h
      | false =>
        simp only [collapseRuns, hx, Bool.false_eq_true, if_false, List.mem_cons] at h
        rcases h with h | h
        · exact Or.inr h
        · exact ih true h

/-- The output file name holds no path separator, so that `filepath.Join` places
the file in the working directory itself. -/
theorem xmlFileName_no_separator (imageName : String) :
    '/' ∉ (xmlFileName imageName).data := by
  intro h
  rw [xmlFileName, String.data_append, String.data_append, cleanImageName_eq_collapse,
    List.mem_append, List.mem_append] at h
  rcases h with (h | h) | h
  · revert h
    decide
  · rcases collapseRuns_mem _ _ _ h with h1 | h1
    · revert h1
      decide
    · revert h1
      decide
  · revert h
    decide

/-! ### The loops of `JUnitReportXML` as maps -/

theorem foldl_testCases (vs : List Vulnerability) (ts : JUnitTestSuite) :
    vs.foldl (fun ts vulnerability =>
      { ts with TestCases := ts.TestCases ++ [newTestCase vulnerability] }) ts
      = { ts with TestCases := ts.TestCases ++ vs.map newTestCase } := by
  induction vs generalizing ts with
  | nil => simp
  | cons v vs ih => simp [List.foldl_cons, ih]

theorem newTestSuite_eq (clean sev : String) (vs : List Vulnerability) :
    newTestSuite clean sev vs =
      { Tests := (vs.length : Int)
        Failures := (vs.length : Int)
        Time := "0.001"
        Name := clean ++ "_" ++ sev
        TestCases := vs.map newTestCase } := by
  simp [newTestSuite, foldl_testCases, formatTime_oneMs]

theorem foldl_suites (clean : String) (vsMap : List (String × List Vulnerability))
    (suites : JUnitTestSuites) :
    vsMap.foldl (fun suites entry =>
      { suites with Suites := suites.Suites ++ [newTestSuite clean entry.1 entry.2] }) suites
      = { suites with
          Suites := suites.Suites ++ vsMap.map (fun entry => newTestSuite clean entry.1 entry.2) } := by
  induction vsMap generalizing suites with
  | nil => simp
  | cons e es ih => simp [List.foldl_cons, ih]

theorem buildSuites_nil (imageName : String) :
    buildSuites [] imageName
      = { Name := imageName, Suites := [noVulnerabilitiesFound (cleanImageName imageName)] } := by
  simp [buildSuites]

theorem buildSuites_of_ne_nil (vsMap : List (String × List Vulnerability)) (imageName : String)
    (h : vsMap ≠ []) :
    buildSuites vsMap imageName
      = { Name := imageName
          Suites := vsMap.map
            (fun entry => newTestSuite (cleanImageName imageName) entry.1 entry.2) } := by
  have hlen : vsMap.length ≠ 0 := by
    intro h0
    exact h (List.length_eq_zero.mp h0)
  simp [buildSuites, foldl_suites, hlen]

theorem noVulnerabilitiesFound_eq (testSuiteName : String) :
    noVulnerabilitiesFound testSuiteName =
      { Tests := 1
        Failures := 0
        Time := "0.001"
        Name := testSuiteName
        TestCases := [{ Classname := "no.vulnerabilities.found"
                        Name := "No vulnerabilities found"
                        Time := "0.001" }] } := by
  simp [noVulnerabilitiesFound, formatTime_oneMs]

/-! ### Strings and keyed lists -/

theorem string_append_right_inj (a b c : String) : a ++ b = a ++ c ↔ b = c := by
  constructor
  · intro h
    have hd := congrArg String.data h
    rw [String.data_append, String.data_append] at hd
    exact String.ext (List.append_cancel_left hd)
  · intro h
    rw [h]

theorem string_append_left_inj (a b c : String) : a ++ c = b ++ c ↔ a = b := by
  constructor
  · intro h
    have hd := congrArg String.data h
    rw [String.data_append, String.data_append] at hd
    exact String.ext (List.append_cancel_right hd)
  · intro h
    rw [h]

/-- In a list of entries with pairwise distinct keys, the entries under the key of
a member are that member alone. -/
theorem filter_key_eq_singleton (vsMap : List (String × List Vulnerability))
    (hkeys : (vsMap.map Prod.fst).Nodup) (sev : String) (vs : List Vulnerability)
    (hmem : (sev, vs) ∈ vsMap) :
    vsMap.filter (fun entry => decide (entry.1 = sev)) = [(sev, vs)] := by
  induction vsMap with
  | nil => simp at hmem
  | cons e es ih =>
    rw [List.map_cons, List.nodup_cons] at hkeys
    rcases List.mem_cons.mp hmem with h | h
    · subst h
      have hnone : es.filter (fun entry => decide (entry.1 = sev)) = [] := by
        rw [List.filter_eq_nil_iff]
        intro x hx hsev
        apply hkeys.1
        have : x.1 = sev := by simpa using hsev
        exact List.mem_map.mpr ⟨x, hx, this⟩
      simp [List.filter_cons, hnone]
    · have hne : e.1 ≠ sev := by
        intro he
        apply hkeys.1
        exact List.mem_map.mpr ⟨(sev, vs), h, he.symm⟩
      simp [List.filter_cons, hne, ih hkeys.2 h]

/-! ### The claims -/

/-- C1: for a non-empty map (entries with pairwise distinct severity keys) and any
subject, the document has as many suites as there are distinct severities; suite
by suite it carries the name `cleanImageName + "_" + severity` and
`Tests = Failures = number of records`; and for every entry exactly one suite has
that name, with these counts. -/
theorem c1_one_suite_per_severity (vsMap : List (String × List Vulnerability))
    (imageName : String) (hne : vsMap ≠ []) (hkeys : (vsMap.map Prod.fst).Nodup) :
    (buildSuites vsMap imageName).Suites.length = (vsMap.map Prod.fst).toFinset.card ∧
    (buildSuites vsMap imageName).Suites.map (fun ts => (ts.Name, ts.Tests, ts.Failures))
      = vsMap.map (fun entry =>
          (cleanImageName imageName ++ "_" ++ entry.1, (entry.2.length : Int),
            (entry.2.length : Int))) ∧
    ∀ sev vs, (sev, vs) ∈ vsMap →
      ((buildSuites vsMap imageName).Suites.filter
          (fun ts => decide (ts.Name = cleanImageName imageName ++ "_" ++ sev))).map
        (fun ts => (ts.Tests, ts.Failures)) = [((vs.length : Int), (vs.length : Int))] := by
  rw [buildSuites_of_ne_nil vsMap imageName hne]
  refine ⟨?_, ?_, ?_⟩
  · rw [List.toFinset_card_of_nodup hkeys]
    simp
  · simp [newTestSuite_eq]
  · intro sev vs hmem
    have hfun : ((fun ts : JUnitTestSuite =>
          decide (ts.Name = cleanImageName imageName ++ "_" ++ sev))
        ∘ fun entry : String × List Vulnerability =>
          newTestSuite (cleanImageName imageName) entry.1 entry.2)
        = fun entry => decide (entry.1 = sev) := by
      funext entry
      simp [newTestSuite_eq, string_append_right_inj]
    simp only [List.filter_map, hfun, filter_key_eq_singleton vsMap hkeys sev vs hmem]
    simp [newTestSuite_eq]

/-- Witness of C1: the map `low: [V1], med: [V2, V3]` with subject
`test_image:latest` gives the suites `test_image_latest_low` (1, 1) and
`test_image_latest_med` (2, 2). -/
theorem c1_witness :
    testVsMap ≠ [] ∧ (testVsMap.map Prod.fst).Nodup ∧
    (buildSuites testVsMap testImageName).Suites.length = 2 ∧
    (buildSuites testVsMap testImageName).Suites.map (fun ts => (ts.Name, ts.Tests, ts.Failures))
      = [("test_image_latest_low", 1, 1), ("test_image_latest_med", 2, 2)] := by
  have h := c1_one_suite_per_severity testVsMap testImageName (by decide) (by decide)
  refine ⟨by decide, by decide, ?_, ?_⟩
  · rw [h.1]
    decide
  · rw [h.2.1]
    decide

/-- C2: for every subject, the document built from the empty map has exactly one
suite, the suite `noVulnerabilitiesFound (cleanImageName subject)`: its name is
the sanitized identifier, `Tests = 1`, `Failures = 0`, `Time = "0.001"`, and its
only case has classname `no.vulnerabilities.found`, name
`No vulnerabilities found`, time `"0.001"`, no failure and no skip detail. -/
theorem c2_empty_map_single_suite (imageName : String) :
    (buildSuites [] imageName).Suites = [noVulnerabilitiesFound (cleanImageName imageName)] ∧
    (buildSuites [] imageName).Suites.length = 1 ∧
    noVulnerabilitiesFound (cleanImageName imageName) =
      { XMLName := { Space := "", Local := "" }
        Tests := 1
        Failures := 0
        Time := "0.001"
        Name := cleanImageName imageName
        Properties := []
        TestCases := [{ XMLName := { Space := "", Local := "" }
                        Classname := "no.vulnerabilities.found"
                        Name := "No vulnerabilities found"
                        Time := "0.001"
                        SkipMessage := none
                        Failure := none }] } := by
  rw [buildSuites_nil]
  exact ⟨rfl, rfl, noVulnerabilitiesFound_eq _⟩

/-- C3: for every subject, the identifier that `JUnitReportXML` computes with the
regular expression `[^.a-zA-Z0-9]+` is the one of the reference scan (copy the
characters of `[A-Za-z0-9.]`, one underscore for each maximal run of other
characters), the replacement loop ending within its fuel; `test_image:latest`
gives `test_image_latest` and `my/app@sha256:abc` gives `my_app_sha256_abc`. -/
theorem c3_cleanImageName_refines_spec :
    (∀ subject : String,
      replaceAll subject.data ['_'] (subject.length + 1) 0 0 []
        = some (sanitizeSpec subject).data ∧
      cleanImageName subject = sanitizeSpec subject) ∧
    cleanImageName "test_image:latest" = "test_image_latest" ∧
    cleanImageName "my/app@sha256:abc" = "my_app_sha256_abc" := by
  refine ⟨fun subject => ⟨?_, ?_⟩, by decide, by decide⟩
  · rw [replaceAll_eq_some]
    rfl
  · rw [cleanImageName_eq_collapse]
    rfl

theorem newTestCase_failure (v : Vulnerability) :
    newTestCase v =
      { Classname := v.FeatureName
        Name := v.Name ++ " [" ++ v.Severity ++ "]"
        Time := "0.001"
        SkipMessage := none
        Failure := some
          { Message := v.FeatureName ++ " [" ++ v.FeatureVersion ++ "]: " ++ v.Link
            Type_ := "ERROR"
            Contents :=
              if v.FixedBy ≠ "" then v.Description ++ " FIXED BY: " ++ v.FixedBy
              else v.Description } } := by
  by_cases h : v.FixedBy = "" <;> simp [newTestCase, formatTime_oneMs, h]

theorem caseView_newTestCase (v : Vulnerability) :
    caseView (newTestCase v) =
      (v.FeatureName, v.Name ++ " [" ++ v.Severity ++ "]",
        some ("ERROR", v.FeatureName ++ " [" ++ v.FeatureVersion ++ "]: " ++ v.Link), none) := by
  rw [newTestCase_failure]
  rfl

/-- C4: for every entry `(sev, r_1 .. r_n)` of the map, the document holds the suite
built for it, named after the severity; the suite has exactly `n` cases, in the
order of the records, and case `i` has classname `r_i.FeatureName`, name
`r_i.Name + " [" + r_i.Severity + "]"`, a failure detail of type `ERROR` with
message `r_i.FeatureName + " [" + r_i.FeatureVersion + "]: " + r_i.Link`, and no
skip detail. -/
theorem c4_cases_follow_records (vsMap : List (String × List Vulnerability))
    (imageName sev : String) (vs : List Vulnerability) (hmem : (sev, vs) ∈ vsMap) :
    ∃ ts ∈ (buildSuites vsMap imageName).Suites,
      ts = newTestSuite (cleanImageName imageName) sev vs ∧
      ts.Name = cleanImageName imageName ++ "_" ++ sev ∧
      ts.TestCases.length = vs.length ∧
      ts.TestCases.map caseView = vs.map (fun r =>
        (r.FeatureName, r.Name ++ " [" ++ r.Severity ++ "]",
          some ("ERROR", r.FeatureName ++ " [" ++ r.FeatureVersion ++ "]: " ++ r.Link), none)) := by
  have hne : vsMap ≠ [] := List.ne_nil_of_mem hmem
  refine ⟨newTestSuite (cleanImageName imageName) sev vs, ?_, rfl, ?_, ?_, ?_⟩
  · rw [buildSuites_of_ne_nil vsMap imageName hne]
    exact List.mem_map.mpr ⟨(sev, vs), hmem, rfl⟩
  · rw [newTestSuite_eq]
  · rw [newTestSuite_eq]
    simp
  · rw [newTestSuite_eq]
    simp [caseView_newTestCase]

/-- Witness of C4: the entry `med` of the test map, with its two records in order. -/
theorem c4_witness :
    ("med", [medVul, medVul2]) ∈ testVsMap ∧
    ∃ ts ∈ (buildSuites testVsMap testImageName).Suites,
      ts.Name = "test_image_latest_med" ∧
      ts.TestCases.map caseView =
        [("featureNameMed", "nameMed [med]",
            some ("ERROR", "featureNameMed [1.0]: http://link.com.med"), none),
          ("featureNameMed2", "nameMed2 [med]",
            some ("ERROR", "featureNameMed2 [1.0]: http://link.com.med2"), none)] := by
  refine ⟨by decide, ?_⟩
  obtain ⟨ts, hts, _, hname, _, hcases⟩ :=
    c4_cases_follow_records testVsMap testImageName "med" [medVul, medVul2] (by decide)
  refine ⟨ts, hts, ?_, ?_⟩
  · rw [hname]
    decide
  · rw [hcases]
    decide

/-- Counterexample to C5: for the record `lowVul` the failure message is
`featureNameLow [1.0]: http://link.com.low`, with a colon after the bracket, not
`featureNameLow [1.0] http://link.com.low`. -/
theorem c5_counterexample :
    (newTestCase lowVul).Failure.map (fun f => f.Message)
        = some "featureNameLow [1.0]: http://link.com.low" ∧
    (newTestCase lowVul).Failure.map (fun f => f.Message)
        ≠ some (lowVul.FeatureName ++ " [" ++ lowVul.FeatureVersion ++ "] " ++ lowVul.Link) := by
  rw [newTestCase_failure]
  decide

/-- C5, amended: for every record the failure message of its case is
`FeatureName + " [" + FeatureVersion + "]: " + Link`; the closing bracket is
followed by a colon, a single space and the link. -/
theorem c5_failure_message (v : Vulnerability) :
    (newTestCase v).Failure.map (fun f => f.Message)
      = some (v.FeatureName ++ " [" ++ v.FeatureVersion ++ "]: " ++ v.Link) := by
  rw [newTestCase_failure]
  rfl

/-- C6: for every record the failure body of its case is the description followed
by `" FIXED BY: " + FixedBy` when `FixedBy` is not empty, and exactly the
description when it is empty. -/
theorem c6_failure_body (v : Vulnerability) :
    (v.FixedBy ≠ "" →
      (newTestCase v).Failure.map (fun f => f.Contents)
        = some (v.Description ++ " FIXED BY: " ++ v.FixedBy)) ∧
    (v.FixedBy = "" →
      (newTestCase v).Failure.map (fun f => f.Contents) = some v.Description) := by
  rw [newTestCase_failure]
  constructor
  · intro h
    simp [h]
  · intro h
    simp [h]

/-- Witness of C6: `lowVul` is fixed by `fixedByLow`, `unfixedVul` has no remediation. -/
theorem c6_witness :
    (lowVul.FixedBy ≠ "" ∧
      (newTestCase lowVul).Failure.map (fun f => f.Contents)
        = some "descLow FIXED BY: fixedByLow") ∧
    (unfixedVul.FixedBy = "" ∧
      (newTestCase unfixedVul).Failure.map (fun f => f.Contents) = some "descLow") :=
  ⟨⟨by decide, (c6_failure_body lowVul).1 (by decide)⟩,
    ⟨by decide, (c6_failure_body unfixedVul).2 (by decide)⟩⟩

/-- C7: for every map, empty or not, and every subject, each suite of the document
has `Tests` equal to the length of its case list and `Failures` equal to the
number of its cases that carry a failure detail. -/
theorem c7_counts_match_cases (vsMap : List (String × List Vulnerability)) (imageName : String)
    (ts : JUnitTestSuite) (hts : ts ∈ (buildSuites vsMap imageName).Suites) :
    ts.Tests = (ts.TestCases.length : Int) ∧
    ts.Failures = ((ts.TestCases.filter (fun tc => tc.Failure.isSome)).length : Int) := by
  by_cases hne : vsMap = []
  · subst hne
    rw [buildSuites_nil] at hts
    have h : ts = noVulnerabilitiesFound (cleanImageName imageName) := by simpa using hts
    rw [h, noVulnerabilitiesFound_eq]
    simp
  · rw [buildSuites_of_ne_nil vsMap imageName hne] at hts
    obtain ⟨entry, _, h⟩ := List.mem_map.mp hts
    rw [← h, newTestSuite_eq]
    have hall : (entry.2.map newTestCase).filter (fun tc => tc.Failure.isSome)
        = entry.2.map newTestCase := by
      rw [List.filter_eq_self]
      intro tc htc
      obtain ⟨v, _, hv⟩ := List.mem_map.mp htc
      rw [← hv, newTestCase_failure]
      rfl
    simp only [hall, List.length_map, and_self]

/-- Witness of C7: the suite of `med` in the test scenario, and the synthetic suite
of the empty map. -/
theorem c7_witness :
    (newTestSuite "test_image_latest" "med" [medVul, medVul2]
        ∈ (buildSuites testVsMap testImageName).Suites ∧
      (newTestSuite "test_image_latest" "med" [medVul, medVul2]).Tests = 2 ∧
      (newTestSuite "test_image_latest" "med" [medVul, medVul2]).Failures = 2) ∧
    (noVulnerabilitiesFound "test_image_latest" ∈ (buildSuites [] testImageName).Suites ∧
      (noVulnerabilitiesFound "test_image_latest").Tests = 1 ∧
      (noVulnerabilitiesFound "test_image_latest").Failures = 0) := by
  have hclean : cleanImageName testImageName = "test_image_latest" := by decide
  have hmed : newTestSuite "test_image_latest" "med" [medVul, medVul2]
      ∈ (buildSuites testVsMap testImageName).Suites := by
    rw [buildSuites_of_ne_nil testVsMap testImageName (by decide), hclean]
    exact List.mem_map.mpr ⟨("med", [medVul, medVul2]), by decide, rfl⟩
  have hnone : noVulnerabilitiesFound "test_image_latest"
      ∈ (buildSuites [] testImageName).Suites := by
    rw [buildSuites_nil, hclean]
    exact List.mem_singleton.mpr rfl
  have h1 := c7_counts_match_cases testVsMap testImageName _ hmed
  have h2 := c7_counts_match_cases [] testImageName _ hnone
  refine ⟨⟨hmed, ?_, ?_⟩, ⟨hnone, ?_, ?_⟩⟩
  · rw [h1.1, newTestSuite_eq]
    rfl
  · rw [h1.2, newTestSuite_eq]
    rfl
  · rw [h2.1, noVulnerabilitiesFound_eq]
    rfl
  · rw [h2.2, noVulnerabilitiesFound_eq]
    rfl

/-! ### Writing the file -/

theorem string_empty_append (s : String) : "" ++ s = s := by
  apply String.ext
  rw [String.data_append]
  rfl

/-! ### Bytes and runes -/

theorem char_toNat_valid (c : Char) :
    c.toNat < 0xD800 ∨ (0xDFFF < c.toNat ∧ c.toNat < 0x110000) := by
  have h := c.valid
  simp only [UInt32.isValidChar, Nat.isValidChar] at h
  exact h

theorem char_ofNat_toNat (c : Char) (n : Nat) (h : n = c.toNat) : Char.ofNat n = c := by
  rw [h]
  exact Char.ofNat_toNat c

theorem DecodeRune_AppendRune (c : Char) (tail : List Nat) :
    DecodeRune (AppendRune c ++ tail) = some (c, tail) := by
  have hv := char_toNat_valid c
  unfold AppendRune
  simp only []
  by_cases h1 : c.toNat ≤ 0x7F
  · rw [if_pos h1]
    simp only [List.singleton_append, DecodeRune]
    rw [if_pos (by omega), Char.ofNat_toNat]
  · rw [if_neg h1]
    by_cases h2 : c.toNat ≤ 0x7FF
    · rw [if_pos h2]
      simp only [List.cons_append, List.nil_append, DecodeRune]
      rw [if_neg (by omega), if_neg (by omega)]
      have ha : acceptRange (0xC0 + c.toNat / 64) = (0x80, 0xBF) := by
        unfold acceptRange
        rw [if_neg (by omega), if_neg (by omega), if_neg (by omega), if_neg (by omega)]
      rw [ha, if_neg (by omega), if_pos (by omega)]
      rw [char_ofNat_toNat c _ (by omega)]
    · rw [if_neg h2]
      by_cases h3 : c.toNat ≤ 0xFFFF
      · rw [if_pos h3]
        simp only [List.cons_append, List.nil_append, DecodeRune]
        rw [if_neg (by omega), if_neg (by omega)]
        have ha : ¬ (0x80 + c.toNat / 64 % 64 < (acceptRange (0xE0 + c.toNat / 4096)).1 ∨
            (acceptRange (0xE0 + c.toNat / 4096)).2 < 0x80 + c.toNat / 64 % 64) := by
          unfold acceptRange
          split_ifs <;> simp only [] <;> omega
        rw [if_neg ha, if_neg (by omega), if_neg (by omega), if_pos (by omega)]
        rw [char_ofNat_toNat c _ (by omega)]
      · rw [if_neg h3]
        simp only [List.cons_append, List.nil_append, DecodeRune]
        rw [if_neg (by omega), if_neg (by omega)]
        have ha : ¬ (0x80 + c.toNat / 4096 % 64 < (acceptRange (0xF0 + c.toNat / 262144)).1 ∨
            (acceptRange (0xF0 + c.toNat / 262144)).2 < 0x80 + c.toNat / 4096 % 64) := by
          unfold acceptRange
          split_ifs <;> simp only [] <;> omega
        rw [if_neg ha, if_neg (by omega), if_neg (by omega), if_neg (by omega), if_neg (by omega)]
        rw [char_ofNat_toNat c _ (by omega)]

theorem AppendRune_length (c : Char) : 1 ≤ (AppendRune c).length := by
  unfold AppendRune
  simp only []
  split_ifs <;> simp

theorem decodeRunes_encodeRunes (cs : List Char) (k : Nat)
    (hk : (encodeRunes cs).length ≤ k) : decodeRunes k (encodeRunes cs) = some cs := by
  induction cs generalizing k with
  | nil => cases k <;> rfl
  | cons c cs ih =>
    have hl := AppendRune_length c
    simp only [encodeRunes, List.length_append] at hk
    obtain ⟨k, rfl⟩ : ∃ j, k = j + 1 := ⟨k - 1, by omega⟩
    have hne : ∃ p0 rest, AppendRune c ++ encodeRunes cs = p0 :: rest := by
      cases hc : AppendRune c with
      | nil => rw [hc] at hl; simp at hl
      | cons p0 r => exact ⟨p0, r ++ encodeRunes cs, rfl⟩
    obtain ⟨p0, rest, hpr⟩ := hne
    have hd := DecodeRune_AppendRune c (encodeRunes cs)
    rw [hpr] at hd
    simp only [encodeRunes]
    rw [hpr, decodeRunes, hd]
    simp only []
    rw [ih k (by omega)]

/-- Reading the bytes of a string as UTF-8 gives the runes of the string. -/
theorem decodeRunes_utf8Bytes (s : String) :
    decodeRunes (utf8Bytes s).length (utf8Bytes s) = some s.data :=
  decodeRunes_encodeRunes s.data _ (le_refl _)

theorem encodeRunes_append (a b : List Char) :
    encodeRunes (a ++ b) = encodeRunes a ++ encodeRunes b := by
  induction a with
  | nil => rfl
  | cons c cs ih =>
    show encodeRunes (c :: (cs ++ b)) = encodeRunes (c :: cs) ++ encodeRunes b
    simp only [encodeRunes, ih, List.append_assoc]

theorem utf8Bytes_append (a b : String) : utf8Bytes (a ++ b) = utf8Bytes a ++ utf8Bytes b := by
  simp only [utf8Bytes, String.data_append, encodeRunes_append]

/-- Parsing the bytes of a text is decoding the text. -/
theorem Unmarshal_utf8Bytes (s : String) : Unmarshal (utf8Bytes s) = unmarshalText s := by
  unfold Unmarshal
  rw [decodeRunes_utf8Bytes]

/-! ### The buffered writer -/

theorem file_write_fits (f : File) (b : List Nat) (h : b.length ≤ f.room) :
    f.Write b = ({ f with content := f.content ++ b, room := f.room - b.length },
      b.length, none) := by
  unfold File.Write
  rw [if_pos h]

/-- After a write to the file, either all bytes are written or an error is set. -/
theorem file_write_all_or_error (f : File) (b : List Nat) :
    (f.Write b).2.1 = b.length ∨ (f.Write b).2.2 ≠ none := by
  unfold File.Write
  split_ifs
  · exact Or.inl rfl
  · exact Or.inr (by simp)

theorem flush_fits (b : Writer) (he : b.err = none) (h : b.buf.length ≤ b.wr.room) :
    b.Flush =
      ({ b with
          buf := []
          wr := { b.wr with content := b.wr.content ++ b.buf, room := b.wr.room - b.buf.length } },
        none) := by
  unfold Writer.Flush
  rw [he]
  simp only []
  by_cases h0 : b.buf.length = 0
  · rw [if_pos h0]
    have hb : b.buf = [] := List.length_eq_zero.mp h0
    cases b with
    | mk err buf wr =>
      cases wr with
      | mk content room fault =>
        simp only at hb he
        subst hb
        subst he
        simp
  · rw [if_neg h0, file_write_fits _ _ h]
    simp only [lt_self_iff_false, false_and, if_false]

/-- After `Flush`, either an error is set or the buffer is empty. -/
theorem flush_empty_or_error (b : Writer) :
    b.Flush.1.err ≠ none ∨ b.Flush.1.buf = [] := by
  unfold Writer.Flush
  cases he : b.err with
  | some e => exact Or.inl (by simp [he])
  | none =>
    simp only []
    by_cases h0 : b.buf.length = 0
    · rw [if_pos h0]
      exact Or.inr (List.length_eq_zero.mp h0)
    · rw [if_neg h0]
      split
      · exact Or.inl (by simp)
      · exact Or.inr rfl

/-- The loop of `Write` stops where its test fails. -/
theorem writeLoop_stop (k : Nat) (b : Writer) (p : List Nat) (nn : Nat)
    (h : ¬ (p.length > b.Available ∧ b.err = none)) :
    Writer.writeLoop k b p nn = (b, p, nn) := by
  cases k with
  | zero => rfl
  | succ k => rw [Writer.writeLoop, if_neg h]

/-- The loop of `Write` ends within three rounds: in the state it returns on fuel
3, its test fails. -/
theorem writeLoop_ends (b : Writer) (p : List Nat) (nn : Nat) :
    ¬ ((Writer.writeLoop 3 b p nn).2.1.length > (Writer.writeLoop 3 b p nn).1.Available ∧
      (Writer.writeLoop 3 b p nn).1.err = none) := by
  -- a large write on an empty buffer ends the loop
  have direct : ∀ (k : Nat) (b : Writer) (p : List Nat) (nn : Nat), b.Buffered = 0 →
      ¬ ((Writer.writeLoop (k + 1) b p nn).2.1.length
          > (Writer.writeLoop (k + 1) b p nn).1.Available ∧
        (Writer.writeLoop (k + 1) b p nn).1.err = none) := by
    intro k b p nn hb
    by_cases hc : p.length > b.Available ∧ b.err = none
    · rw [Writer.writeLoop, if_pos hc, if_pos hb]
      simp only []
      have hstop : ¬ ((p.drop (b.wr.Write p).2.1).length
          > (Writer.Available { b with err := (b.wr.Write p).2.2, wr := (b.wr.Write p).1 }) ∧
          (b.wr.Write p).2.2 = none) := by
        rcases file_write_all_or_error b.wr p with h | h
        · rw [h]
          simp
        · intro hh
          exact h hh.2
      rw [writeLoop_stop k _ _ _ hstop]
      exact hstop
    · rw [writeLoop_stop _ _ _ _ hc]
      exact hc
  by_cases hc : p.length > b.Available ∧ b.err = none
  · by_cases hb : b.Buffered = 0
    · exact direct 2 b p nn hb
    · rw [Writer.writeLoop, if_pos hc, if_neg hb]
      simp only []
      rcases flush_empty_or_error
        { b with buf := b.buf ++ p.take (min b.Available p.length) } with h | h
      · rw [writeLoop_stop 2 _ _ _ (fun hh => h hh.2)]
        exact fun hh => h hh.2
      · exact direct 1 _ _ _ (by rw [Writer.Buffered, h]; rfl)
  · rw [writeLoop_stop _ _ _ _ hc]
    exact hc

/-- While the file has room for them, the loop of `Write` loses no byte and sets
no error. -/
theorem writeLoop_fits (extra : Nat) (k : Nat) (b : Writer) (p : List Nat) (nn : Nat)
    (he : b.err = none) (h : b.buf.length + p.length + extra ≤ b.wr.room) :
    (Writer.writeLoop k b p nn).1.err = none ∧
    (Writer.writeLoop k b p nn).1.wr.content ++ (Writer.writeLoop k b p nn).1.buf
        ++ (Writer.writeLoop k b p nn).2.1 = b.wr.content ++ b.buf ++ p ∧
    (Writer.writeLoop k b p nn).1.buf.length + (Writer.writeLoop k b p nn).2.1.length + extra
      ≤ (Writer.writeLoop k b p nn).1.wr.room ∧
    (Writer.writeLoop k b p nn).1.wr.fault = b.wr.fault := by
  induction k generalizing b p nn with
  | zero => exact ⟨he, rfl, h, rfl⟩
  | succ k ih =>
    by_cases hc : p.length > b.Available ∧ b.err = none
    · by_cases hb : b.Buffered = 0
      · rw [Writer.writeLoop, if_pos hc, if_pos hb]
        simp only []
        have hb0 : b.buf = [] := List.length_eq_zero.mp hb
        rw [file_write_fits _ _ (by omega)]
        simp only [List.drop_length]
        obtain ⟨h1, h2, h3, h4⟩ := ih
          { b with
            err := none
            wr := { b.wr with content := b.wr.content ++ p, room := b.wr.room - p.length } }
          [] (nn + p.length) rfl (by simp only [List.length_nil]; omega)
        refine ⟨h1, ?_, h3, h4⟩
        rw [h2, hb0]
        simp
      · rw [Writer.writeLoop, if_pos hc, if_neg hb]
        simp only []
        have hn : min b.Available p.length ≤ p.length := Nat.min_le_right _ _
        have hfl := flush_fits { b with buf := b.buf ++ p.take (min b.Available p.length) }
          he (by simp only [List.length_append, List.length_take]; omega)
        rw [hfl]
        obtain ⟨h1, h2, h3, h4⟩ := ih
          { b with
            buf := []
            wr :=
              { b.wr with
                content := b.wr.content ++ (b.buf ++ p.take (min b.Available p.length))
                room := b.wr.room - (b.buf ++ p.take (min b.Available p.length)).length } }
          (p.drop (min b.Available p.length)) (nn + min b.Available p.length) he
          (by simp only [List.length_nil, List.length_drop, List.length_append, List.length_take]
              omega)
        refine ⟨h1, ?_, h3, h4⟩
        rw [h2]
        simp only [List.append_nil, List.append_assoc, List.take_append_drop]
    · rw [writeLoop_stop _ _ _ _ hc]
      exact ⟨he, rfl, h, rfl⟩

/-- While the file has room for them, `Write` loses no byte and returns no error. -/
theorem writer_write_fits (extra : Nat) (b : Writer) (p : List Nat)
    (he : b.err = none) (h : b.buf.length + p.length + extra ≤ b.wr.room) :
    (b.Write p).1.err = none ∧
    (b.Write p).1.wr.content ++ (b.Write p).1.buf = b.wr.content ++ b.buf ++ p ∧
    (b.Write p).1.buf.length + extra ≤ (b.Write p).1.wr.room ∧
    (b.Write p).2.2 = none := by
  obtain ⟨h1, h2, h3, _⟩ := writeLoop_fits extra 3 b p 0 he h
  have hW : b.Write p =
      ({ (Writer.writeLoop 3 b p 0).1 with
          buf := (Writer.writeLoop 3 b p 0).1.buf ++ (Writer.writeLoop 3 b p 0).2.1 },
        (Writer.writeLoop 3 b p 0).2.2 + (Writer.writeLoop 3 b p 0).2.1.length, none) := by
    unfold Writer.Write
    simp only []
    rw [h1]
  rw [hW]
  refine ⟨h1, ?_, ?_, rfl⟩
  · show (Writer.writeLoop 3 b p 0).1.wr.content
        ++ ((Writer.writeLoop 3 b p 0).1.buf ++ (Writer.writeLoop 3 b p 0).2.1) = _
    rw [← h2, List.append_assoc]
  · show ((Writer.writeLoop 3 b p 0).1.buf ++ (Writer.writeLoop 3 b p 0).2.1).length + extra
        ≤ (Writer.writeLoop 3 b p 0).1.wr.room
    rw [List.length_append]
    omega

/-- On a file that accepts all of `a ++ b`, writing `a`, writing `b` and flushing
leaves `a ++ b` in the file and no error. -/
theorem writer_all_written (capacity : Nat) (fault : GoError) (a b : List Nat)
    (hroom : (a ++ b).length ≤ capacity) :
    (((((NewWriter { content := [], room := capacity, fault := fault }).Write a).1.Write
      b).1.Flush).1.wr.content = a ++ b) ∧
    ((((NewWriter { content := [], room := capacity, fault := fault }).Write a).1.Write
      b).1.Flush).2 = none := by
  rw [List.length_append] at hroom
  obtain ⟨a1, a2, a3, _⟩ := writer_write_fits b.length
    (NewWriter { content := [], room := capacity, fault := fault }) a rfl
    (by simp only [NewWriter, List.length_nil]; omega)
  obtain ⟨b1, b2, b3, _⟩ := writer_write_fits 0 _ b a1 (by omega)
  rw [flush_fits _ b1 (by omega)]
  refine ⟨?_, rfl⟩
  show (((NewWriter { content := [], room := capacity, fault := fault }).Write a).1.Write
      b).1.wr.content ++ (((NewWriter { content := [], room := capacity, fault := fault }).Write
        a).1.Write b).1.buf = a ++ b
  rw [b2, a2]
  rfl

set_option maxRecDepth 100000 in
/-- C8, the code at the failing input: the file accepts five bytes only, the flush
of the writer returns the error of the file, and `JUnitReportXML` still returns
`nil`, leaving the first five bytes of the header in the file. -/
theorem c8_write_error_not_reported :
    (JUnitReportXML (okEnv 5) [] "a").err = none ∧
    (JUnitReportXML (okEnv 5) [] "a").file
      = some ({ dir := "/work", name := "CLAIR-a.xml" }, utf8Bytes "<?xml") ∧
    ((((NewWriter ⟨[], 5, "write /work/CLAIR-a.xml: no space left on device"⟩).WriteString
        xmlHeader).1.Write (utf8Bytes (MarshalIndent (buildSuites [] "a")))).1.Flush).2
      = some "write /work/CLAIR-a.xml: no space left on device" := by
  decide

set_option maxRecDepth 100000 in
/-- The text of the test scenario's file takes 948 bytes. -/
theorem testReport_bytes :
    xmlHeader ++ MarshalIndent (buildSuites testVsMap testImageName) = testReport ∧
    (utf8Bytes testReport).length = 948 := by
  decide

set_option maxRecDepth 100000 in
/-- For the subject `U+00E9` and the empty map the text has 280 characters and 281
bytes; a file that takes 280 bytes is left without the last byte. -/
theorem accentSubject_bytes :
    (xmlHeader ++ MarshalIndent (buildSuites [] accentSubject)).length = 280 ∧
    (utf8Bytes (xmlHeader ++ MarshalIndent (buildSuites [] accentSubject))).length = 281 ∧
    (JUnitReportXML (okEnv 280) [] accentSubject).file.map (fun f => f.2.length) = some 280 ∧
    (JUnitReportXML (okEnv 281) [] accentSubject).file.map (fun f => f.2.length) = some 281 := by
  decide

/-- Counterexample to C9: the different subjects `a:b` and `a/b` have the same
sanitized identifier `a_b` and so the same output file `CLAIR-a_b.xml`. -/
theorem c9_counterexample :
    "a:b" ≠ "a/b" ∧ xmlFileName "a:b" = "CLAIR-a_b.xml" ∧ xmlFileName "a/b" = "CLAIR-a_b.xml" := by
  decide

/-- C9, amended: the output file names of two subjects differ exactly when their
sanitized identifiers differ. -/
theorem c9_file_names_differ_iff (a b : String) :
    xmlFileName a ≠ xmlFileName b ↔ cleanImageName a ≠ cleanImageName b := by
  unfold xmlFileName
  rw [Ne, Ne, string_append_left_inj, string_append_right_inj]

/-- C10: when the working directory is known, the document is marshalled, the file
is created and accepts the bytes, `JUnitReportXML` returns `nil` and leaves, in
the working directory, the file `"CLAIR-" + cleanImageName + ".xml"` holding the
bytes of the XML declaration followed by the marshalled document. -/
theorem c10_file_name_and_content (env : Env) (vsMap : List (String × List Vulnerability))
    (imageName dir : String) (bytes : List Nat)
    (hwd : env.Getwd = .ok dir)
    (hxml : env.MarshalIndent (buildSuites vsMap imageName) = .ok bytes)
    (hcreate : env.Create { dir := dir, name := "CLAIR-" ++ cleanImageName imageName ++ ".xml" }
      = none)
    (hroom : (utf8Bytes xmlHeader ++ bytes).length ≤ env.capacity) :
    JUnitReportXML env vsMap imageName =
      { err := none
        file := some ({ dir := dir, name := "CLAIR-" ++ cleanImageName imageName ++ ".xml" },
          utf8Bytes xmlHeader ++ bytes)
        stdout := [] } := by
  have hw := (writer_all_written env.capacity
    (env.WriteError { dir := dir, name := "CLAIR-" ++ cleanImageName imageName ++ ".xml" })
    (utf8Bytes xmlHeader) bytes hroom).1
  simp only [JUnitReportXML, hxml, hwd, xmlFileName, hcreate, Writer.WriteString, hw]

set_option maxRecDepth 100000 in
/-- Witness of C10: the test scenario in an environment where every call succeeds
and the file takes 948 bytes; the file is `CLAIR-test_image_latest.xml` and holds
the 948 bytes of `testReport`. -/
theorem c10_witness :
    JUnitReportXML (okEnv 948) testVsMap testImageName =
      { err := none
        file := some ({ dir := "/work", name := "CLAIR-test_image_latest.xml" },
          utf8Bytes testReport)
        stdout := [] } ∧
    (utf8Bytes testReport).length = 948 := by
  have h := c10_file_name_and_content (okEnv 948) testVsMap testImageName "/work"
    (utf8Bytes (MarshalIndent (buildSuites testVsMap testImageName))) rfl rfl rfl (by decide)
  rw [h]
  decide

/-! ### Top-level name and time fields -/

/-- C11: for every map, empty or not, and every subject, the top-level name of the
document is the subject string itself, not the sanitized identifier; the subject
`test_image:latest` gives the name `test_image:latest`, which differs from its
sanitized identifier. -/
theorem c11_top_level_name :
    (∀ (vsMap : List (String × List Vulnerability)) (imageName : String),
      (buildSuites vsMap imageName).Name = imageName) ∧
    (buildSuites testVsMap "test_image:latest").Name = "test_image:latest" ∧
    (buildSuites [] "test_image:latest").Name = "test_image:latest" ∧
    (buildSuites testVsMap "test_image:latest").Name ≠ cleanImageName "test_image:latest" := by
  have hall : ∀ (vsMap : List (String × List Vulnerability)) (imageName : String),
      (buildSuites vsMap imageName).Name = imageName := by
    intro vsMap imageName
    by_cases hne : vsMap = []
    · rw [hne, buildSuites_nil]
    · rw [buildSuites_of_ne_nil vsMap imageName hne]
  refine ⟨hall, hall _ _, hall _ _, ?_⟩
  rw [hall]
  decide

/-- C13: for every map and subject, every suite of the document and every case of
every suite, the synthetic suite and case of the empty map included, has the time
field `"0.001"`. -/
theorem c13_time_fields (vsMap : List (String × List Vulnerability)) (imageName : String)
    (ts : JUnitTestSuite) (hts : ts ∈ (buildSuites vsMap imageName).Suites) :
    ts.Time = "0.001" ∧ ∀ tc ∈ ts.TestCases, tc.Time = "0.001" := by
  by_cases hne : vsMap = []
  · subst hne
    rw [buildSuites_nil] at hts
    have h : ts = noVulnerabilitiesFound (cleanImageName imageName) := by simpa using hts
    rw [h, noVulnerabilitiesFound_eq]
    refine ⟨rfl, ?_⟩
    intro tc htc
    have htc' : tc = { Classname := "no.vulnerabilities.found"
                       Name := "No vulnerabilities found"
                       Time := "0.001" } := by simpa using htc
    rw [htc']
  · rw [buildSuites_of_ne_nil vsMap imageName hne] at hts
    obtain ⟨entry, _, h⟩ := List.mem_map.mp hts
    rw [← h, newTestSuite_eq]
    refine ⟨rfl, ?_⟩
    intro tc htc
    obtain ⟨v, _, hv⟩ := List.mem_map.mp htc
    rw [← hv, newTestCase_failure]

/-- Witness of C13: the suite of `med` in the test scenario with its two cases, and
the synthetic suite of the empty map with its case. -/
theorem c13_witness :
    (newTestSuite "test_image_latest" "med" [medVul, medVul2]
        ∈ (buildSuites testVsMap testImageName).Suites ∧
      (newTestSuite "test_image_latest" "med" [medVul, medVul2]).Time = "0.001" ∧
      (newTestSuite "test_image_latest" "med" [medVul, medVul2]).TestCases.map
        (fun tc => tc.Time) = ["0.001", "0.001"]) ∧
    (noVulnerabilitiesFound "test_image_latest" ∈ (buildSuites [] testImageName).Suites ∧
      (noVulnerabilitiesFound "test_image_latest").Time = "0.001" ∧
      (noVulnerabilitiesFound "test_image_latest").TestCases.map
        (fun tc => tc.Time) = ["0.001"]) := by
  have hclean : cleanImageName testImageName = "test_image_latest" := by decide
  have hmed : newTestSuite "test_image_latest" "med" [medVul, medVul2]
      ∈ (buildSuites testVsMap testImageName).Suites := by
    rw [buildSuites_of_ne_nil testVsMap testImageName (by decide), hclean]
    exact List.mem_map.mpr ⟨("med", [medVul, medVul2]), by decide, rfl⟩
  have hnone : noVulnerabilitiesFound "test_image_latest"
      ∈ (buildSuites [] testImageName).Suites := by
    rw [buildSuites_nil, hclean]
    exact List.mem_singleton.mpr rfl
  have h1 := c13_time_fields testVsMap testImageName _ hmed
  have h2 := c13_time_fields [] testImageName _ hnone
  refine ⟨⟨hmed, h1.1, ?_⟩, ⟨hnone, h2.1, ?_⟩⟩
  · rw [newTestSuite_eq]
    simp [newTestCase_failure]
  · rw [noVulnerabilitiesFound_eq]
    rfl

/-! ### Shape of the sanitized identifier -/

/-- After a run, the scan starts with a safe character or yields nothing. -/
theorem collapseRuns_true_head (l : List Char) (c : Char)
    (h : (collapseRuns true l).head? = some c) : isSafeChar c = true := by
  induction l with
  | nil => simp [collapseRuns] at h
  | cons x xs ih =>
    by_cases hx : isSafeChar x = true
    · simp only [collapseRuns, hx, if_true, List.head?_cons, Option.some.injEq] at h
      exact h ▸ hx
    · simp only [collapseRuns, hx, if_true, Bool.false_eq_true, if_false] at h
      exact ih h

/-- No two neighbours in the result of the scan are both underscores. -/
theorem collapseRuns_chain (inRun : Bool) (l : List Char) :
    List.Chain' (fun a b => ¬(a = '_' ∧ b = '_')) (collapseRuns inRun l) := by
  induction l generalizing inRun with
  | nil => simp [collapseRuns]
  | cons x xs ih =>
    by_cases hx : isSafeChar x = true
    · simp only [collapseRuns, hx, if_true]
      refine List.Chain'.cons' (ih false) ?_
      intro y _ hxy
      rw [hxy.1] at hx
      revert hx
      decide
    · cases inRun with
      | true =>
        simp only [collapseRuns, hx, if_true, Bool.false_eq_true, if_false]
        exact ih true
      | false =>
        simp only [collapseRuns, hx, Bool.false_eq_true, if_false]
        refine List.Chain'.cons' (ih true) ?_
        intro y hy hxy
        have hsafe := collapseRuns_true_head xs y hy
        rw [hxy.2] at hsafe
        revert hsafe
        decide

/-- A list without two neighbouring underscores does not contain `__`. -/
theorem not_infix_of_chain (l : List Char)
    (h : List.Chain' (fun a b => ¬(a = '_' ∧ b = '_')) l) : ¬ (['_', '_'] <:+: l) := by
  intro hin
  have h2 : List.Chain' (fun a b => ¬(a = '_' ∧ b = '_')) ['_', '_'] := h.infix hin
  simp at h2

/-- Scanning the result of a scan changes nothing. -/
theorem collapseRuns_idem (l : List Char) :
    (∀ inRun, collapseRuns false (collapseRuns inRun l) = collapseRuns inRun l) ∧
    collapseRuns true (collapseRuns true l) = collapseRuns true l := by
  induction l with
  | nil => simp [collapseRuns]
  | cons x xs ih =>
    by_cases hx : isSafeChar x = true
    · constructor
      · intro inRun
        simp only [collapseRuns, hx, if_true]
        rw [ih.1 false]
      · simp only [collapseRuns, hx, if_true]
        rw [ih.1 false]
    · have hu : isSafeChar '_' = false := by decide
      constructor
      · intro inRun
        cases inRun with
        | true =>
          simp only [collapseRuns, hx, if_true, Bool.false_eq_true, if_false]
          exact ih.1 true
        | false =>
          simp only [collapseRuns, hx, hu, Bool.false_eq_true, if_false]
          rw [ih.2]
      · simp only [collapseRuns, hx, if_true, Bool.false_eq_true, if_false]
        exact ih.2

/-- C16: for every subject, the sanitized identifier holds only characters of
`[A-Za-z0-9.]` and underscores, and never two adjacent underscores; a run of
underscores in the input gives one underscore, as in `a__b` and `a_:_b`. -/
theorem c16_identifier_characters :
    (∀ subject : String,
      (∀ c ∈ (cleanImageName subject).data, isSafeChar c = true ∨ c = '_') ∧
      ¬ ("__".data <:+: (cleanImageName subject).data)) ∧
    cleanImageName "a__b" = "a_b" ∧ cleanImageName "a_:_b" = "a_b" := by
  refine ⟨fun subject => ⟨?_, ?_⟩, by decide, by decide⟩
  · intro c hc
    rw [cleanImageName_eq_collapse] at hc
    exact collapseRuns_mem false subject.data c hc
  · rw [cleanImageName_eq_collapse]
    exact not_infix_of_chain _ (collapseRuns_chain false subject.data)

/-- C17: sanitization is idempotent; a subject that is already a sanitized
identifier gives the same output file name and the same suite-name prefix. -/
theorem c17_sanitize_idempotent (s : String) :
    cleanImageName (cleanImageName s) = cleanImageName s ∧
    xmlFileName (cleanImageName s) = xmlFileName s ∧
    ∀ sev vs, (newTestSuite (cleanImageName (cleanImageName s)) sev vs).Name
      = (newTestSuite (cleanImageName s) sev vs).Name := by
  have h : cleanImageName (cleanImageName s) = cleanImageName s := by
    rw [cleanImageName_eq_collapse (cleanImageName s), cleanImageName_eq_collapse s]
    exact congrArg String.mk ((collapseRuns_idem s.data).1 false)
  refine ⟨h, ?_, ?_⟩
  · rw [xmlFileName, h, xmlFileName]
  · intro sev vs
    rw [h]

/-! ### Empty record lists and iteration order -/

/-- The name of a case built from a record ends with a bracket, so it is not the
name of the synthetic case. -/
theorem newTestCase_name_ne (v : Vulnerability) :
    (newTestCase v).Name ≠ "No vulnerabilities found" := by
  rw [newTestCase_failure]
  intro h
  have hd := congrArg (fun s : String => s.data.getLast?) h
  simp only [String.data_append] at hd
  rw [List.getLast?_append] at hd
  have h1 : ([']'] : List Char).getLast? = some ']' := rfl
  have h2 : "No vulnerabilities found".data.getLast? = some 'd' := by decide
  have h3 : ['N', 'o', ' ', 'v', 'u', 'l', 'n', 'e', 'r', 'a', 'b', 'i', 'l', 'i', 't', 'i', 'e',
      's', ' ', 'f', 'o', 'u', 'n', 'd'] = "No vulnerabilities found".data := rfl
  rw [h1, h3, h2] at hd
  have hd' : some ']' = some 'd' := hd
  revert hd'
  decide

/-- C18: for every map with at least one severity key, the document does not hold
the synthetic suite and no case of it is named `No vulnerabilities found`; a key
with an empty record list gives a suite with `Tests = 0`, `Failures = 0` and no
case; and the sum of `Tests` over the suites is the number of records of the map. -/
theorem c18_substitution_only_for_empty_map (vsMap : List (String × List Vulnerability))
    (imageName : String) (hne : vsMap ≠ []) :
    noVulnerabilitiesFound (cleanImageName imageName) ∉ (buildSuites vsMap imageName).Suites ∧
    (∀ ts ∈ (buildSuites vsMap imageName).Suites, ∀ tc ∈ ts.TestCases,
      tc.Name ≠ "No vulnerabilities found") ∧
    (∀ sev, (sev, []) ∈ vsMap →
      ∃ ts ∈ (buildSuites vsMap imageName).Suites,
        ts.Name = cleanImageName imageName ++ "_" ++ sev ∧
        ts.Tests = 0 ∧ ts.Failures = 0 ∧ ts.TestCases = []) ∧
    ((buildSuites vsMap imageName).Suites.map (fun ts => ts.Tests)).sum
      = (((vsMap.map (fun entry => entry.2.length)).sum : Nat) : Int) := by
  have hcases : ∀ ts ∈ (buildSuites vsMap imageName).Suites, ∀ tc ∈ ts.TestCases,
      tc.Name ≠ "No vulnerabilities found" := by
    intro ts hts tc htc
    rw [buildSuites_of_ne_nil vsMap imageName hne] at hts
    obtain ⟨entry, _, h⟩ := List.mem_map.mp hts
    rw [← h, newTestSuite_eq] at htc
    obtain ⟨v, _, hv⟩ := List.mem_map.mp htc
    rw [← hv]
    exact newTestCase_name_ne v
  refine ⟨?_, hcases, ?_, ?_⟩
  · intro hmem
    refine hcases _ hmem { Classname := "no.vulnerabilities.found"
                           Name := "No vulnerabilities found"
                           Time := "0.001" } ?_ rfl
    rw [noVulnerabilitiesFound_eq]
    exact List.mem_singleton.mpr rfl
  · intro sev hmem
    refine ⟨newTestSuite (cleanImageName imageName) sev [], ?_, ?_⟩
    · rw [buildSuites_of_ne_nil vsMap imageName hne]
      exact List.mem_map.mpr ⟨(sev, []), hmem, rfl⟩
    · rw [newTestSuite_eq]
      exact ⟨rfl, rfl, rfl, rfl⟩
  · rw [buildSuites_of_ne_nil vsMap imageName hne]
    simp only [List.map_map]
    clear hcases hne
    induction vsMap with
    | nil => rfl
    | cons e es ih =>
      simp only [List.map_cons, List.sum_cons, Function.comp_apply, newTestSuite_eq,
        Nat.cast_add] at ih ⊢
      rw [ih]

/-- Witness of C18: a map whose only key has an empty record list. -/
theorem c18_witness :
    emptyBucketMap ≠ [] ∧
    (buildSuites emptyBucketMap "a").Suites.map
      (fun ts => (ts.Name, ts.Tests, ts.Failures, ts.TestCases)) = [("a_low", 0, 0, [])] ∧
    noVulnerabilitiesFound (cleanImageName "a") ∉ (buildSuites emptyBucketMap "a").Suites ∧
    ((buildSuites emptyBucketMap "a").Suites.map (fun ts => ts.Tests)).sum = 0 := by
  have h := c18_substitution_only_for_empty_map emptyBucketMap "a" (by decide)
  refine ⟨by decide, ?_, h.1, ?_⟩
  · rw [buildSuites_of_ne_nil emptyBucketMap "a" (by decide)]
    simp only [emptyBucketMap, List.map_cons, List.map_nil, newTestSuite_eq]
    decide
  · rw [h.2.2.2]
    rfl

/-- Counterexample to C15: the test map visited as `low`, `med` and visited as
`med`, `low` is the same map, and the two documents differ (their suites come in
different orders). -/
theorem c15_counterexample :
    testVsMapRev.Perm testVsMap ∧
    (buildSuites testVsMapRev testImageName).Suites.map (fun ts => ts.Name)
      = ["test_image_latest_med", "test_image_latest_low"] ∧
    (buildSuites testVsMap testImageName).Suites.map (fun ts => ts.Name)
      = ["test_image_latest_low", "test_image_latest_med"] ∧
    buildSuites testVsMapRev testImageName ≠ buildSuites testVsMap testImageName := by
  have h1 : (buildSuites testVsMapRev testImageName).Suites.map (fun ts => ts.Name)
      = ["test_image_latest_med", "test_image_latest_low"] := by
    rw [buildSuites_of_ne_nil testVsMapRev testImageName (by decide)]
    simp only [testVsMapRev, List.map_cons, List.map_nil, newTestSuite_eq]
    decide
  have h2 : (buildSuites testVsMap testImageName).Suites.map (fun ts => ts.Name)
      = ["test_image_latest_low", "test_image_latest_med"] := by
    rw [buildSuites_of_ne_nil testVsMap testImageName (by decide)]
    simp only [testVsMap, List.map_cons, List.map_nil, newTestSuite_eq]
    decide
  refine ⟨List.Perm.swap _ _ _, h1, h2, ?_⟩
  intro h
  rw [h, h2] at h1
  revert h1
  decide

/-- C15, amended: two visits of the same map, in whatever orders, give documents
with the same top-level name and the same suites up to their order. -/
theorem c15_same_suites_up_to_order (vsMap₁ vsMap₂ : List (String × List Vulnerability))
    (imageName : String) (hperm : vsMap₁.Perm vsMap₂) :
    (buildSuites vsMap₁ imageName).Name = (buildSuites vsMap₂ imageName).Name ∧
    (buildSuites vsMap₁ imageName).Suites.Perm (buildSuites vsMap₂ imageName).Suites := by
  by_cases hne : vsMap₁ = []
  · subst hne
    rw [List.Perm.nil_eq hperm]
    exact ⟨rfl, List.Perm.refl _⟩
  · have hne2 : vsMap₂ ≠ [] := by
      intro h2
      rw [h2] at hperm
      exact hne (List.Perm.eq_nil hperm)
    rw [buildSuites_of_ne_nil vsMap₁ imageName hne, buildSuites_of_ne_nil vsMap₂ imageName hne2]
    exact ⟨rfl, hperm.map _⟩

/-- Witness of C15: the two visiting orders of the test map. -/
theorem c15_witness :
    testVsMapRev.Perm testVsMap ∧
    (buildSuites testVsMapRev testImageName).Name = (buildSuites testVsMap testImageName).Name ∧
    (buildSuites testVsMapRev testImageName).Suites.Perm
      (buildSuites testVsMap testImageName).Suites :=
  ⟨List.Perm.swap _ _ _,
    c15_same_suites_up_to_order testVsMapRev testVsMap testImageName (List.Perm.swap _ _ _)⟩

/-! ### `formatTime` on whole milliseconds -/

theorem log2Aux_spec : ∀ (fuel n : Nat), 1 ≤ n → n ≤ fuel →
    2 ^ log2Aux fuel n ≤ n ∧ n < 2 ^ (log2Aux fuel n + 1) := by
  intro fuel
  induction fuel with
  | zero => intro n h1 h2; omega
  | succ fuel ih =>
    intro n h1 h2
    rw [log2Aux]
    by_cases h : n ≥ 2
    · rw [if_pos h]
      obtain ⟨ha, hb⟩ := ih (n / 2) (by omega) (by omega)
      rw [pow_succ, pow_succ, pow_succ]
      rw [pow_succ] at hb
      constructor <;> omega
    · rw [if_neg h]
      simp
      omega

theorem log2_spec (n : Nat) (h : 1 ≤ n) : 2 ^ log2 n ≤ n ∧ n < 2 ^ (log2 n + 1) :=
  log2Aux_spec n n h (le_refl n)

theorem roundHalfEven_spec (a b : Nat) (hb : 0 < b) :
    2 * (roundHalfEven a b * b) ≤ 2 * a + b ∧ 2 * a ≤ 2 * (roundHalfEven a b * b) + b := by
  have hdm := Nat.div_add_mod a b
  have hr := Nat.mod_lt a hb
  have hcomm : b * (a / b) = a / b * b := Nat.mul_comm _ _
  unfold roundHalfEven
  simp only
  split_ifs with h
  · rw [Nat.add_mul, Nat.one_mul]
    omega
  · omega

theorem roundHalfEven_unique (a b N : Nat) (hb : 0 < b)
    (h1 : 2 * (N * b) < 2 * a + b) (h2 : 2 * a < 2 * (N * b) + b) :
    roundHalfEven a b = N := by
  have hdm := Nat.div_add_mod a b
  have hr := Nat.mod_lt a hb
  have hcomm : b * (a / b) = a / b * b := Nat.mul_comm _ _
  have hN1 : N ≤ a / b + 1 := by
    have : (2 * N) * b < (2 * (a / b) + 3) * b := by
      rw [Nat.add_mul, Nat.mul_assoc, Nat.mul_assoc]
      omega
    have := Nat.lt_of_mul_lt_mul_right this
    omega
  have hN2 : a / b ≤ N := by
    have : (2 * (a / b)) * b < (2 * N + 1) * b := by
      rw [Nat.add_mul, Nat.mul_assoc, Nat.mul_assoc]
      omega
    have := Nat.lt_of_mul_lt_mul_right this
    omega
  unfold roundHalfEven
  simp only
  rcases Nat.eq_or_lt_of_le hN2 with h | h
  · subst h
    rw [if_neg (by omega)]
  · have hN : N = a / b + 1 := by omega
    subst hN
    rw [Nat.add_mul, Nat.one_mul] at h1 h2
    rw [if_pos (by omega)]

theorem roundHalfEven_near (a b : Nat) (hb : 0 < b) :
    (a : ℚ) / b - 1 / 2 ≤ (roundHalfEven a b : ℚ) ∧ (roundHalfEven a b : ℚ) ≤ (a : ℚ) / b + 1 / 2 := by
  obtain ⟨h1, h2⟩ := roundHalfEven_spec a b hb
  have hbq : (0 : ℚ) < b := by exact_mod_cast hb
  have h1q : 2 * ((roundHalfEven a b : ℚ) * b) ≤ 2 * a + b := by exact_mod_cast h1
  have h2q : 2 * (a : ℚ) ≤ 2 * ((roundHalfEven a b : ℚ) * b) + b := by exact_mod_cast h2
  constructor
  · rw [sub_le_iff_le_add, div_le_iff₀ hbq]
    linarith
  · rw [← sub_le_iff_le_add, le_div_iff₀ hbq]
    linarith

theorem scaled_round (x M c : ℚ) (hc : 0 < c) (hx : 2 ^ 52 ≤ x)
    (hlo : x - 1 / 2 ≤ M) (hhi : M ≤ x + 1 / 2) :
    x * c * (1 - unitRoundoff) ≤ M * c ∧ M * c ≤ x * c * (1 + unitRoundoff) := by
  have hu : x * unitRoundoff ≥ 1 / 2 := by
    unfold unitRoundoff
    have : (2 : ℚ) ^ 52 * (1 / 2 ^ 53) = 1 / 2 := by norm_num
    have h53 : (0 : ℚ) ≤ 1 / 2 ^ 53 := by positivity
    nlinarith [mul_le_mul_of_nonneg_right hx h53]
  constructor
  · have : x * (1 - unitRoundoff) ≤ M := by linarith
    calc x * c * (1 - unitRoundoff) = x * (1 - unitRoundoff) * c := by ring
      _ ≤ M * c := mul_le_mul_of_nonneg_right this hc.le
  · have : M ≤ x * (1 + unitRoundoff) := by linarith
    calc M * c ≤ x * (1 + unitRoundoff) * c := mul_le_mul_of_nonneg_right this hc.le
      _ = x * c * (1 + unitRoundoff) := by ring

/-- The scaled value is at least `2^52` when the significand is scaled up. -/
theorem roundPos_scale_up (a b la lb : Nat) (bl : Bool)
    (hla : 2 ^ la ≤ a) (hlb : b < 2 ^ (lb + 1))
    (hbl : bl = if la ≥ lb then decide (a < b * 2 ^ (la - lb)) else decide (a * 2 ^ (lb - la) < b))
    (hup : 52 + lb + (if bl = true then 1 else 0) ≥ la) :
    b * 2 ^ 52 ≤ a * 2 ^ (52 + lb + (if bl = true then 1 else 0) - la) := by
  cases bl with
  | true =>
    simp only [if_true] at hup ⊢
    calc b * 2 ^ 52 ≤ 2 ^ (lb + 1) * 2 ^ 52 := Nat.mul_le_mul_right _ hlb.le
      _ = 2 ^ la * 2 ^ (52 + lb + 1 - la) := by
        rw [← pow_add, ← pow_add]
        congr 1
        omega
      _ ≤ a * 2 ^ (52 + lb + 1 - la) := Nat.mul_le_mul_right _ hla
  | false =>
    simp only [Bool.false_eq_true, if_false, Nat.add_zero] at hup ⊢
    by_cases hl : la ≥ lb
    · rw [if_pos hl] at hbl
      have h : b * 2 ^ (la - lb) ≤ a := by
        have := hbl.symm
        simp only [decide_eq_false_iff_not, not_lt] at this
        exact this
      calc b * 2 ^ 52 = b * 2 ^ (la - lb) * 2 ^ (52 + lb - la) := by
            rw [Nat.mul_assoc, ← pow_add]
            congr 2
            omega
        _ ≤ a * 2 ^ (52 + lb - la) := Nat.mul_le_mul_right _ h
    · rw [if_neg hl] at hbl
      have h : b ≤ a * 2 ^ (lb - la) := by
        have := hbl.symm
        simp only [decide_eq_false_iff_not, not_lt] at this
        exact this
      calc b * 2 ^ 52 ≤ a * 2 ^ (lb - la) * 2 ^ 52 := Nat.mul_le_mul_right _ h
        _ = a * 2 ^ (52 + lb - la) := by
            rw [Nat.mul_assoc, ← pow_add]
            congr 2
            omega

/-- The scaled value is at least `2^52` when the significand is scaled down. -/
theorem roundPos_scale_down (a b la lb : Nat) (bl : Bool)
    (hla : 2 ^ la ≤ a) (hlb : b < 2 ^ (lb + 1))
    (hbl : bl = if la ≥ lb then decide (a < b * 2 ^ (la - lb)) else decide (a * 2 ^ (lb - la) < b))
    (hup : ¬ 52 + lb + (if bl = true then 1 else 0) ≥ la) :
    b * 2 ^ (la - (52 + lb + (if bl = true then 1 else 0))) * 2 ^ 52 ≤ a := by
  cases bl with
  | true =>
    simp only [if_true] at hup ⊢
    calc b * 2 ^ (la - (52 + lb + 1)) * 2 ^ 52
        ≤ 2 ^ (lb + 1) * 2 ^ (la - (52 + lb + 1)) * 2 ^ 52 :=
          Nat.mul_le_mul_right _ (Nat.mul_le_mul_right _ hlb.le)
      _ = 2 ^ la := by
        rw [← pow_add, ← pow_add]
        congr 1
        omega
      _ ≤ a := hla
  | false =>
    simp only [Bool.false_eq_true, if_false, Nat.add_zero] at hup ⊢
    have hl : la ≥ lb := by omega
    rw [if_pos hl] at hbl
    have h : b * 2 ^ (la - lb) ≤ a := by
      have := hbl.symm
      simp only [decide_eq_false_iff_not, not_lt] at this
      exact this
    calc b * 2 ^ (la - (52 + lb)) * 2 ^ 52 = b * 2 ^ (la - lb) := by
          rw [Nat.mul_assoc, ← pow_add]
          congr 2
          omega
      _ ≤ a := h

/-- Rounding a positive fraction to 53 bits changes it by at most the unit
roundoff, relatively. -/
theorem roundPos_spec (a b : Nat) (ha : 0 < a) (hb : 0 < b) :
    0 < (roundPos a b).2 ∧
    (a : ℚ) / b * (1 - unitRoundoff) ≤ ((roundPos a b).1 : ℚ) / ((roundPos a b).2 : ℚ) ∧
    ((roundPos a b).1 : ℚ) / ((roundPos a b).2 : ℚ) ≤ (a : ℚ) / b * (1 + unitRoundoff) := by
  obtain ⟨hla, _⟩ := log2_spec a ha
  obtain ⟨_, hlb⟩ := log2_spec b hb
  have haq : (0 : ℚ) < a := by exact_mod_cast ha
  have hbq : (0 : ℚ) < b := by exact_mod_cast hb
  unfold roundPos
  simp only
  generalize log2 a = la at *
  generalize log2 b = lb at *
  generalize hbl : (if la ≥ lb then decide (a < b * 2 ^ (la - lb))
    else decide (a * 2 ^ (lb - la) < b)) = bl
  by_cases hup : 52 + lb + (if bl = true then 1 else 0) ≥ la
  · rw [if_pos hup]
    simp only
    have hs := roundPos_scale_up a b la lb bl hla hlb hbl.symm hup
    generalize 52 + lb + (if bl = true then 1 else 0) - la = s at *
    have hsq : (0 : ℚ) < 2 ^ s := by positivity
    obtain ⟨h1, h2⟩ := roundHalfEven_near (a * 2 ^ s) b hb
    have hx : (2 : ℚ) ^ 52 ≤ ((a * 2 ^ s : Nat) : ℚ) / b := by
      rw [le_div_iff₀ hbq]
      have : ((b * 2 ^ 52 : Nat) : ℚ) ≤ ((a * 2 ^ s : Nat) : ℚ) := by exact_mod_cast hs
      push_cast at this ⊢
      linarith
    obtain ⟨g1, g2⟩ := scaled_round _ _ (1 / 2 ^ s) (by positivity) hx h1 h2
    have e1 : ((a * 2 ^ s : Nat) : ℚ) / b * (1 / 2 ^ s) = (a : ℚ) / b := by
      push_cast
      field_simp
      ring
    have e2 : ∀ M : ℚ, M * (1 / 2 ^ s) = M / ((2 ^ s : Nat) : ℚ) := by
      intro M
      push_cast
      field_simp
    rw [e1, e2] at g1 g2
    exact ⟨by positivity, g1, g2⟩
  · rw [if_neg hup]
    simp only
    have hs := roundPos_scale_down a b la lb bl hla hlb hbl.symm hup
    generalize la - (52 + lb + (if bl = true then 1 else 0)) = s at *
    have hsq : (0 : ℚ) < 2 ^ s := by positivity
    have hbs : 0 < b * 2 ^ s := by positivity
    obtain ⟨h1, h2⟩ := roundHalfEven_near a (b * 2 ^ s) hbs
    have hx : (2 : ℚ) ^ 52 ≤ (a : ℚ) / ((b * 2 ^ s : Nat) : ℚ) := by
      rw [le_div_iff₀ (by exact_mod_cast hbs)]
      have : ((b * 2 ^ s * 2 ^ 52 : Nat) : ℚ) ≤ (a : ℚ) := by exact_mod_cast hs
      push_cast at this ⊢
      linarith
    obtain ⟨g1, g2⟩ := scaled_round _ _ (2 ^ s) hsq hx h1 h2
    have e1 : (a : ℚ) / ((b * 2 ^ s : Nat) : ℚ) * 2 ^ s = (a : ℚ) / b := by
      push_cast
      field_simp
      ring
    rw [e1] at g1 g2
    refine ⟨Nat.one_pos, ?_, ?_⟩
    · push_cast
      simpa using g1
    · push_cast
      simpa using g2

/-- Rounding a non-negative fraction gives a non-negative `float64` within the unit
roundoff of it. -/
theorem round64_spec (num : Int) (den : Nat) (hnum : 0 ≤ num) (hden : 0 < den) :
    0 ≤ (round64 num den).num ∧ 0 < (round64 num den).den ∧
    (num : ℚ) / den * (1 - unitRoundoff) ≤ (round64 num den).val ∧
    (round64 num den).val ≤ (num : ℚ) / den * (1 + unitRoundoff) := by
  obtain ⟨n, rfl⟩ := Int.eq_ofNat_of_zero_le hnum
  unfold round64
  by_cases h0 : (n : Int) = 0
  · rw [if_pos h0]
    have hn : n = 0 := by exact_mod_cast h0
    subst hn
    simp [Float64.val]
  · rw [if_neg h0]
    have hn : 0 < n := by
      rcases Nat.eq_zero_or_pos n with h | h
      · exact absurd (by exact_mod_cast h) h0
      · exact h
    have hneg : ¬ ((n : Int) < 0) := by omega
    simp only [Int.natAbs_ofNat, if_neg hneg, Float64.val]
    obtain ⟨h1, h2, h3⟩ := roundPos_spec n den hn hden
    refine ⟨by positivity, h1, ?_, ?_⟩
    · simpa using h2
    · simpa using h3

theorem ofInt_spec (q : Nat) :
    0 ≤ (Float64.ofInt q).num ∧ 0 < (Float64.ofInt q).den ∧
    (q : ℚ) * (1 - unitRoundoff) ≤ (Float64.ofInt q).val ∧
    (Float64.ofInt q).val ≤ (q : ℚ) * (1 + unitRoundoff) := by
  have h := round64_spec (q : Int) 1 (by omega) Nat.one_pos
  simpa [Float64.ofInt] using h

theorem add_spec (x y : Float64) (hx : 0 ≤ x.num) (hxd : 0 < x.den) (hy : 0 ≤ y.num)
    (hyd : 0 < y.den) :
    0 ≤ (Float64.add x y).num ∧ 0 < (Float64.add x y).den ∧
    (x.val + y.val) * (1 - unitRoundoff) ≤ (Float64.add x y).val ∧
    (Float64.add x y).val ≤ (x.val + y.val) * (1 + unitRoundoff) := by
  have hxq : (x.den : ℚ) ≠ 0 := by positivity
  have hyq : (y.den : ℚ) ≠ 0 := by positivity
  have h := round64_spec (x.num * y.den + y.num * x.den) (x.den * y.den)
    (by positivity) (by positivity)
  have e : ((x.num * y.den + y.num * x.den : Int) : ℚ) / ((x.den * y.den : Nat) : ℚ)
      = x.val + y.val := by
    unfold Float64.val
    push_cast
    field_simp
  rw [e] at h
  exact h

theorem div_spec (x y : Float64) (hx : 0 ≤ x.num) (hxd : 0 < x.den) (hy : 0 < y.num)
    (hyd : 0 < y.den) :
    0 ≤ (Float64.div x y).num ∧ 0 < (Float64.div x y).den ∧
    (x.val / y.val) * (1 - unitRoundoff) ≤ (Float64.div x y).val ∧
    (Float64.div x y).val ≤ (x.val / y.val) * (1 + unitRoundoff) := by
  have hxq : (x.den : ℚ) ≠ 0 := by positivity
  have hyq : (y.den : ℚ) ≠ 0 := by positivity
  have hynq : (y.num : ℚ) ≠ 0 := by
    have : (0 : ℚ) < y.num := by exact_mod_cast hy
    exact this.ne'
  have hneg : ¬ (y.num < 0) := by omega
  have habs : (y.num.natAbs : Int) = y.num := Int.natAbs_of_nonneg hy.le
  have hpos : 0 < y.num.natAbs := by omega
  have h := round64_spec (x.num * y.den * 1) (x.den * y.num.natAbs)
    (by positivity) (by positivity)
  have e : ((x.num * y.den * 1 : Int) : ℚ) / ((x.den * y.num.natAbs : Nat) : ℚ)
      = x.val / y.val := by
    unfold Float64.val
    have : ((y.num.natAbs : Nat) : ℚ) = (y.num : ℚ) := by
      rw [← Int.cast_natCast, habs]
    push_cast
    rw [this]
    field_simp
  rw [e] at h
  unfold Float64.div
  rw [if_neg hneg]
  exact h

theorem seconds_of_milliseconds (n : Nat) :
    Seconds ((n : Int) * Millisecond) =
      Float64.add (Float64.ofInt ((n / 1000 : Nat) : Int))
        (Float64.div (Float64.ofInt ((n % 1000 * 1000000 : Nat) : Int))
          (Float64.ofInt 1000000000)) := by
  have h0 : (0 : Int) ≤ (n : Int) * 1000000 := by positivity
  have h1 : Int.tdiv ((n : Int) * 1000000) 1000000000 = ((n / 1000 : Nat) : Int) := by
    rw [Int.tdiv_eq_ediv h0 (by decide)]
    push_cast
    omega
  have h2 : Int.tmod ((n : Int) * 1000000) 1000000000 = ((n % 1000 * 1000000 : Nat) : Int) := by
    rw [Int.tmod_eq_emod h0 (by decide)]
    push_cast
    omega
  unfold Seconds Millisecond Second
  simp only [h1, h2]

theorem ofInt_billion : Float64.ofInt 1000000000 = ⟨8388608000000000, 8388608⟩ := by
  decide

/-- The seconds of a whole number of milliseconds, times 1000, are within one half
of that number. -/
theorem seconds_near (n : Nat) (hn : n ≤ 9223372036854) :
    0 ≤ (Seconds ((n : Int) * Millisecond)).num ∧ 0 < (Seconds ((n : Int) * Millisecond)).den ∧
    (n : ℚ) - 1 / 2 < 1000 * (Seconds ((n : Int) * Millisecond)).val ∧
    1000 * (Seconds ((n : Int) * Millisecond)).val < (n : ℚ) + 1 / 2 := by
  rw [seconds_of_milliseconds]
  obtain ⟨q1, q2, q3, q4⟩ := ofInt_spec (n / 1000)
  obtain ⟨r1, r2, r3, r4⟩ := ofInt_spec (n % 1000 * 1000000)
  have hB : 0 < (Float64.ofInt 1000000000).num ∧ 0 < (Float64.ofInt 1000000000).den ∧
      (Float64.ofInt 1000000000).val = 1000000000 := by
    rw [ofInt_billion]
    refine ⟨by decide, by decide, ?_⟩
    simp only [Float64.val]
    norm_num
  obtain ⟨b1, b2, b3⟩ := hB
  obtain ⟨f1, f2, f3, f4⟩ := div_spec _ _ r1 r2 b1 b2
  obtain ⟨v1, v2, v3, v4⟩ := add_spec _ _ q1 q2 f1 f2
  rw [b3] at f3 f4
  generalize (Float64.ofInt ((n / 1000 : Nat) : Int)) = Q at *
  generalize (Float64.ofInt ((n % 1000 * 1000000 : Nat) : Int)) = R at *
  generalize Float64.div R (Float64.ofInt 1000000000) = F at *
  generalize Float64.add Q F = V at *
  have hdm : (n : ℚ) = 1000 * ((n / 1000 : Nat) : ℚ) + ((n % 1000 : Nat) : ℚ) := by
    have := Nat.div_add_mod n 1000
    exact_mod_cast this.symm
  have hR : ((n % 1000 * 1000000 : Nat) : ℚ) = ((n % 1000 : Nat) : ℚ) * 1000000 := by
    push_cast
    ring
  rw [hR] at r3 r4
  have hq0 : (0 : ℚ) ≤ ((n / 1000 : Nat) : ℚ) := by positivity
  have hr0 : (0 : ℚ) ≤ ((n % 1000 : Nat) : ℚ) := by positivity
  have hnq : (n : ℚ) ≤ 9223372036854 := by exact_mod_cast hn
  generalize ((n / 1000 : Nat) : ℚ) = qq at *
  generalize ((n % 1000 : Nat) : ℚ) = rr at *
  generalize (n : ℚ) = nn at *
  unfold unitRoundoff at *
  refine ⟨v1, v2, ?_, ?_⟩
  · linarith
  · linarith

theorem formatTime_milliseconds (n : Nat) (hn : n ≤ 9223372036854) :
    formatTime ((n : Int) * Millisecond) = Nat.repr (n / 1000) ++ "." ++ pad3 (n % 1000) := by
  obtain ⟨h1, h2, h3, h4⟩ := seconds_near n hn
  unfold formatTime sprintf3f
  generalize Seconds ((n : Int) * Millisecond) = V at *
  obtain ⟨vn, hvn⟩ := Int.eq_ofNat_of_zero_le h1
  have hneg : ¬ (V.num < 0) := by omega
  have hval : V.val = (vn : ℚ) / (V.den : ℚ) := by
    unfold Float64.val
    rw [hvn, Int.cast_natCast]
  rw [hval] at h3 h4
  have hdq : (0 : ℚ) < V.den := by exact_mod_cast h2
  have hk : roundHalfEven (V.num.natAbs * 1000) V.den = n := by
    rw [hvn, Int.natAbs_ofNat]
    apply roundHalfEven_unique _ _ _ h2
    · have : 2 * ((n : ℚ) * V.den) < 2 * ((vn : ℚ) * 1000) + V.den := by
        have e : 1000 * ((vn : ℚ) / V.den) * V.den = 1000 * vn := by field_simp
        have := mul_lt_mul_of_pos_right h3 hdq
        rw [e] at this
        linarith
      exact_mod_cast this
    · have : 2 * ((vn : ℚ) * 1000) < 2 * ((n : ℚ) * V.den) + V.den := by
        have e : 1000 * ((vn : ℚ) / V.den) * V.den = 1000 * vn := by field_simp
        have := mul_lt_mul_of_pos_right h4 hdq
        rw [e] at this
        linarith
      exact_mod_cast this
  simp only [hk, if_neg hneg]
  rw [string_empty_append]

set_option maxRecDepth 100000 in
theorem pad3_digits : ∀ r, r < 1000 → pad3 r = String.mk
    [Nat.digitChar (r / 100), Nat.digitChar (r / 10 % 10), Nat.digitChar (r % 10)] := by
  decide

/-- C12: for every whole number `n` of milliseconds that is a `Duration` (the
nanoseconds fit `int64`), `formatTime` returns the decimal digits of
`n div 1000`, a dot, and the three decimal digits of `n mod 1000`. -/
theorem c12_formatTime_three_decimals (n : Nat)
    (hn : (n : Int) * Millisecond ≤ 9223372036854775807) :
    formatTime ((n : Int) * Millisecond) =
      Nat.repr (n / 1000) ++ "." ++ String.mk
        [Nat.digitChar (n % 1000 / 100), Nat.digitChar (n % 1000 / 10 % 10),
          Nat.digitChar (n % 1000 % 10)] := by
  have hn' : n ≤ 9223372036854 := by
    unfold Millisecond at hn
    omega
  rw [formatTime_milliseconds n hn', pad3_digits (n % 1000) (Nat.mod_lt n (by decide))]

/-- Witness of C12: one millisecond gives `0.001`, two milliseconds give `0.002`,
and 1234567 milliseconds give `1234.567`. -/
theorem c12_witness :
    ((1 : Nat) : Int) * Millisecond ≤ 9223372036854775807 ∧
    formatTime (1 * Millisecond) = "0.001" ∧
    formatTime (2 * Millisecond) = "0.002" ∧
    formatTime (1234567 * Millisecond) = "1234.567" := by
  have h1 := c12_formatTime_three_decimals 1 (by decide)
  have h2 := c12_formatTime_three_decimals 2 (by decide)
  have h3 := c12_formatTime_three_decimals 1234567 (by decide)
  exact ⟨by decide, h1.trans (by decide), h2.trans (by decide), h3.trans (by decide)⟩

/-! ### Round trip through `encoding/xml` -/

theorem isInCharacterRange_replacementChar : isInCharacterRange replacementChar = true := by
  decide

theorem isInCharacterRange_sanitizeRune (r : Char) :
    isInCharacterRange (sanitizeRune r) = true := by
  unfold sanitizeRune
  split_ifs with h
  · exact h
  · exact isInCharacterRange_replacementChar

theorem sanitizeRune_of_valid (r : Char) (h : isInCharacterRange r = true) :
    sanitizeRune r = r := by
  simp [sanitizeRune, h]

/-- A raw character that is not special is copied by the loop of `Decoder.text`. -/
theorem textLoop_raw (quote : Option Char) (b0 b1 c : Char) (out cs : List Char)
    (h1 : c ≠ '>') (h2 : c ≠ '<') (h3 : quote ≠ some c) (h4 : c ≠ '&') (h5 : c ≠ '\r')
    (h6 : c ≠ '\n') :
    textLoop quote none b0 b1 out (c :: cs) = textLoop quote none b1 c (out ++ [c]) cs := by
  rw [textLoop]
  simp [h1, h2, h3, h4, h5, h6]

/-- A reference `&body;` is decoded by the loop of `Decoder.text`. -/
theorem textLoop_entity_char (quote : Option Char) (b0 b1 c : Char) (body out cs : List Char)
    (h : c ≠ ';') :
    textLoop quote (some body) b0 b1 out (c :: cs)
      = textLoop quote (some (body ++ [c])) b0 b1 out cs := by
  rw [textLoop]
  simp [h]

theorem textLoop_entity_end (quote : Option Char) (b0 b1 r : Char) (body out cs : List Char)
    (h : decodeEntity body = some r) :
    textLoop quote (some body) b0 b1 out (';' :: cs)
      = textLoop quote none (Char.ofNat 0) (Char.ofNat 0) (out ++ [r]) cs := by
  rw [textLoop]
  simp [h]

theorem textLoop_amp (quote : Option Char) (b0 b1 : Char) (out cs : List Char)
    (h3 : quote ≠ some '&') :
    textLoop quote none b0 b1 out ('&' :: cs) = textLoop quote (some []) b0 b1 out cs := by
  rw [textLoop]
  simp [h3]

theorem textLoop_entity_body (quote : Option Char) (b0 b1 : Char) (out rest : List Char) :
    ∀ (body acc : List Char), (∀ c ∈ body, c ≠ ';') →
      textLoop quote (some acc) b0 b1 out (body ++ rest)
        = textLoop quote (some (acc ++ body)) b0 b1 out rest := by
  intro body
  induction body with
  | nil => intro acc _; simp
  | cons c cs ih =>
    intro acc h
    rw [List.cons_append, textLoop_entity_char _ _ _ _ _ _ _ (h c (List.mem_cons_self _ _)),
      ih _ (fun x hx => h x (List.mem_cons_of_mem _ hx))]
    simp

/-- A whole reference `&body;` in the input gives the character it stands for. -/
theorem textLoop_entity (quote : Option Char) (hq : quote ≠ some '&') (body : List Char)
    (r : Char) (hbody : ∀ c ∈ body, c ≠ ';') (hdec : decodeEntity body = some r)
    (b0 b1 : Char) (out cs : List Char) :
    textLoop quote none b0 b1 out ('&' :: (body ++ ';' :: cs))
      = textLoop quote none (Char.ofNat 0) (Char.ofNat 0) (out ++ [r]) cs := by
  rw [textLoop_amp _ _ _ _ _ hq, textLoop_entity_body _ _ _ _ _ body [] hbody,
    List.nil_append, textLoop_entity_end _ _ _ r _ _ _ hdec]

/-- The loop of `Decoder.text` over escaped text: one step of the induction.  In
whatever state the loop is, the text written for `r` gives `sanitizeRune r`. -/
theorem textLoop_escapeRune (quote : Option Char) (hq : quote = none ∨ quote = some '"')
    (r b0 b1 : Char) (out cs : List Char) :
    ∃ c0 c1, textLoop quote none b0 b1 out (escapeRune r ++ cs)
      = textLoop quote none c0 c1 (out ++ [sanitizeRune r]) cs := by
  have hamp : quote ≠ some '&' := by
    rcases hq with h | h <;> rw [h] <;> decide
  unfold escapeRune
  split_ifs with h1 h2 h3 h4 h5 h6 h7 h8 h9
  · subst h1
    exact ⟨_, _, textLoop_entity quote hamp "#34".data '"' (by decide) (by decide) _ _ _ _⟩
  · subst h2
    exact ⟨_, _, textLoop_entity quote hamp "#39".data '\'' (by decide) (by decide) _ _ _ _⟩
  · subst h3
    exact ⟨_, _, textLoop_entity quote hamp "amp".data '&' (by decide) (by decide) _ _ _ _⟩
  · subst h4
    exact ⟨_, _, textLoop_entity quote hamp "lt".data '<' (by decide) (by decide) _ _ _ _⟩
  · subst h5
    exact ⟨_, _, textLoop_entity quote hamp "gt".data '>' (by decide) (by decide) _ _ _ _⟩
  · subst h6
    exact ⟨_, _, textLoop_entity quote hamp "#x9".data '\t' (by decide) (by decide) _ _ _ _⟩
  · subst h7
    exact ⟨_, _, textLoop_entity quote hamp "#xA".data '\n' (by decide) (by decide) _ _ _ _⟩
  · subst h8
    exact ⟨_, _, textLoop_entity quote hamp "#xD".data '\r' (by decide) (by decide) _ _ _ _⟩
  · refine ⟨b1, r, ?_⟩
    rw [sanitizeRune_of_valid r h9]
    refine textLoop_raw quote b0 b1 r out cs h5 h4 ?_ h3 h8 h7
    rcases hq with h | h <;> rw [h]
    · simp
    · intro hc
      exact h1 (Option.some.inj hc).symm
  · refine ⟨b1, replacementChar, ?_⟩
    have hs : sanitizeRune r = replacementChar := by simp [sanitizeRune, h9]
    rw [hs]
    refine textLoop_raw quote b0 b1 replacementChar out cs (by decide) (by decide) ?_
      (by decide) (by decide) (by decide)
    rcases hq with h | h <;> rw [h] <;> decide

/-- The loop of `Decoder.text` over escaped text, up to what follows it. -/
theorem textLoop_escapeText (quote : Option Char) (hq : quote = none ∨ quote = some '"')
    (cs : List Char) :
    ∀ (s : List Char) (b0 b1 : Char) (out : List Char),
      ∃ c0 c1, textLoop quote none b0 b1 out (escapeText s ++ cs)
        = textLoop quote none c0 c1 (out ++ s.map sanitizeRune) cs := by
  intro s
  induction s with
  | nil => intro b0 b1 out; exact ⟨b0, b1, by simp [escapeText]⟩
  | cons r rs ih =>
    intro b0 b1 out
    obtain ⟨c0, c1, h⟩ := textLoop_escapeRune quote hq r b0 b1 out (escapeText rs ++ cs)
    obtain ⟨e0, e1, h'⟩ := ih c0 c1 (out ++ [sanitizeRune r])
    refine ⟨e0, e1, ?_⟩
    rw [escapeText, List.append_assoc, h, h']
    simp

theorem all_isInCharacterRange_map (s : List Char) :
    (s.map sanitizeRune).all isInCharacterRange = true := by
  simp [List.all_eq_true, isInCharacterRange_sanitizeRune]

/-- An attribute value written by the printer is read back, sanitized. -/
theorem text_quoted (s rest : List Char) :
    text (some '"') (escapeText s ++ '"' :: rest)
      = some (String.mk (s.map sanitizeRune), rest) := by
  obtain ⟨c0, c1, h⟩ := textLoop_escapeText (some '"') (Or.inr rfl) ('"' :: rest) s
    (Char.ofNat 0) (Char.ofNat 0) []
  have hend : textLoop (some '"') none c0 c1 ([] ++ s.map sanitizeRune) ('"' :: rest)
      = some (s.map sanitizeRune, rest) := by
    rw [textLoop]
    simp
  rw [text, h, hend]
  simp only [all_isInCharacterRange_map, if_true]

/-- Character data written by the printer is read back, sanitized, up to the
next tag. -/
theorem text_chardata (s rest : List Char) :
    text none (escapeText s ++ '<' :: rest)
      = some (String.mk (s.map sanitizeRune), '<' :: rest) := by
  obtain ⟨c0, c1, h⟩ := textLoop_escapeText none (Or.inl rfl) ('<' :: rest) s
    (Char.ofNat 0) (Char.ofNat 0) []
  have hend : textLoop none none c0 c1 ([] ++ s.map sanitizeRune) ('<' :: rest)
      = some (s.map sanitizeRune, '<' :: rest) := by
    rw [textLoop]
    simp
  rw [text, h, hend]
  simp only [all_isInCharacterRange_map, if_true]

theorem textLoop_tabs (rest : List Char) :
    ∀ (k : Nat) (b0 b1 : Char) (out : List Char), b1 ≠ '\r' →
      textLoop none none b0 b1 out (List.replicate k '\t' ++ '<' :: rest)
        = some (out ++ List.replicate k '\t', '<' :: rest) := by
  intro k
  induction k with
  | zero =>
    intro b0 b1 out _
    rw [List.replicate_zero, List.nil_append, textLoop]
    simp
  | succ k ih =>
    intro b0 b1 out _
    rw [List.replicate_succ, List.cons_append,
      textLoop_raw none b0 b1 '\t' out _ (by decide) (by decide) (by simp) (by decide)
        (by decide) (by decide),
      ih b1 '\t' _ (by decide)]
    simp

/-- The line break and indentation before a tag are read as character data. -/
theorem text_indent (k : Nat) (rest : List Char) :
    text none (writeIndent k ++ '<' :: rest)
      = some (String.mk (writeIndent k), '<' :: rest) := by
  have h : textLoop none none (Char.ofNat 0) (Char.ofNat 0) [] (writeIndent k ++ '<' :: rest)
      = some (writeIndent k, '<' :: rest) := by
    rw [writeIndent, List.cons_append, textLoop]
    have h0 : ¬ (Char.ofNat 0 = '\r') := by decide
    simp only [h0, false_and, if_false]
    have h1 : ¬ ('\n' = '<') := by decide
    have h2 : ¬ ('\n' = '&') := by decide
    have h3 : ¬ ('\n' = '\r') := by decide
    have h4 : ¬ ((none : Option Char) = some '\n') := by simp
    have h5 : ¬ (Char.ofNat 0 = ']' ∧ Char.ofNat 0 = ']' ∧ '\n' = '>') := by decide
    simp only [h1, h2, h3, h4, h5, if_false]
    rw [textLoop_tabs rest k _ '\n' _ (by decide)]
    simp
  rw [text, h]
  have hall : (writeIndent k).all isInCharacterRange = true := by
    rw [writeIndent, List.all_cons]
    simp only [Bool.and_eq_true, List.all_eq_true]
    refine ⟨by decide, ?_⟩
    intro c hc
    rw [List.eq_of_mem_replicate hc]
    decide
  simp [hall]

theorem takeWhile_dropWhile_append (p : Char → Bool) (l tail : List Char)
    (hl : ∀ c ∈ l, p c = true) (ht : ∀ t, tail.head? = some t → p t = false) :
    (l ++ tail).takeWhile p = l ∧ (l ++ tail).dropWhile p = tail := by
  induction l with
  | nil =>
    cases tail with
    | nil => simp
    | cons t ts =>
      have h := ht t rfl
      simp [List.takeWhile_cons, List.dropWhile_cons, h]
  | cons c cs ih =>
    have hc := hl c (List.mem_cons_self _ _)
    obtain ⟨h1, h2⟩ := ih (fun x hx => hl x (List.mem_cons_of_mem _ hx))
    simp [List.takeWhile_cons, List.dropWhile_cons, hc, h1, h2]

/-- A name the printer wrote is read back, up to the first character that is not
a name byte. -/
theorem readName_append (n : String) (tail : List Char) (hn : validName n = true)
    (ht : ∀ t, tail.head? = some t → isNameByte t = false ∧ t.toNat < 128) :
    readName (n.data ++ tail) = some (n, tail) := by
  unfold validName at hn
  cases hd : n.data with
  | nil => rw [hd] at hn; simp at hn
  | cons c cs =>
    rw [hd] at hn
    simp only [Bool.and_eq_true] at hn
    obtain ⟨⟨h1, h2⟩, h3⟩ := hn
    have hall : ∀ x ∈ c :: cs, isNameByte x = true := by
      simpa [List.all_eq_true] using h2
    obtain ⟨e1, e2⟩ := takeWhile_dropWhile_append isNameByte (c :: cs) tail hall
      (fun t h => (ht t h).1)
    have hascii : tail.head?.all (fun x => decide (x.toNat < 128)) = true := by
      cases tail with
      | nil => rfl
      | cons t ts => simpa using (ht t rfl).2
    have hn' : n = String.mk (c :: cs) := by
      rw [← hd]
    unfold readName
    rw [e1, e2]
    simp only [h1, h3, hascii, Bool.and_self, if_true, hn']

theorem isNameStart_facts (c : Char) (h : isNameStart c = true) :
    c ≠ '/' ∧ c ≠ '>' ∧ c ≠ '?' ∧ c ≠ '!' ∧ c ≠ '<' ∧ isSpaceByte c = false := by
  refine ⟨?_, ?_, ?_, ?_, ?_, ?_⟩
  · rintro rfl; revert h; decide
  · rintro rfl; revert h; decide
  · rintro rfl; revert h; decide
  · rintro rfl; revert h; decide
  · rintro rfl; revert h; decide
  · cases hs : isSpaceByte c with
    | false => rfl
    | true =>
      simp only [isSpaceByte, Bool.or_eq_true, beq_iff_eq] at hs
      rcases hs with ((hs | hs) | hs) | hs <;> subst hs <;> revert h <;> decide

theorem validName_head (n : String) (hn : validName n = true) :
    ∃ c cs, n.data = c :: cs ∧ isNameStart c = true := by
  unfold validName at hn
  cases hd : n.data with
  | nil => rw [hd] at hn; simp at hn
  | cons c cs =>
    rw [hd] at hn
    simp only [Bool.and_eq_true] at hn
    exact ⟨c, cs, rfl, hn.1.1⟩

theorem space_cons_of_not_space (c : Char) (cs : List Char) (h : isSpaceByte c = false) :
    space (c :: cs) = c :: cs := by
  simp [space, List.dropWhile_cons, h]

/-- The attributes the printer wrote are read back, with sanitized values. -/
theorem readAttrs_writeAttrs (rest : List Char) :
    ∀ (attr : List (String × String)) (fuel : Nat), attr.length < fuel →
      (∀ a ∈ attr, validName a.1 = true ∧ a.1 ≠ "xmlns") →
      readAttrs fuel (writeAttrs attr ++ '>' :: rest)
        = some (attr.map (fun a => (a.1, sanitizeString a.2)), false, rest) := by
  intro attr
  induction attr with
  | nil =>
    intro fuel hf _
    obtain ⟨k, rfl⟩ : ∃ k, fuel = k + 1 := ⟨fuel - 1, by simp at hf; omega⟩
    rw [writeAttrs, List.nil_append, readAttrs,
      space_cons_of_not_space '>' rest (by decide)]
    simp
  | cons a as ih =>
    intro fuel hf hall
    obtain ⟨k, rfl⟩ : ∃ k, fuel = k + 1 := ⟨fuel - 1, by simp at hf; omega⟩
    obtain ⟨hv, hx⟩ := hall a (List.mem_cons_self _ _)
    obtain ⟨c, cs, hd, hc⟩ := validName_head a.1 hv
    obtain ⟨f1, f2, _, _, _, f6⟩ := isNameStart_facts c hc
    have hrest := ih k (by simp at hf; omega) (fun x hx => hall x (List.mem_cons_of_mem _ hx))
    have hname := readName_append a.1
      ('=' :: '"' :: (escapeText a.2.data ++ '"' :: (writeAttrs as ++ '>' :: rest))) hv
      (by intro t ht; simp at ht; subst ht; decide)
    rw [hd] at hname
    have hin : writeAttrs (a :: as) ++ '>' :: rest
        = ' ' :: c :: (cs ++ '=' :: '"' :: (escapeText a.2.data ++ '"'
            :: (writeAttrs as ++ '>' :: rest))) := by
      simp [writeAttrs, writeAttr, hd]
    have hsp : space (' ' :: c :: (cs ++ '=' :: '"' :: (escapeText a.2.data ++ '"'
        :: (writeAttrs as ++ '>' :: rest))))
        = c :: (cs ++ '=' :: '"' :: (escapeText a.2.data ++ '"'
            :: (writeAttrs as ++ '>' :: rest))) := by
      have h1 : isSpaceByte ' ' = true := by decide
      simp only [space, List.dropWhile_cons, h1, f6, if_true, Bool.false_eq_true, if_false]
    rw [hin, readAttrs, hsp]
    simp only [f1, f2, if_false]
    rw [List.cons_append] at hname
    rw [hname]
    simp only [hx, if_false]
    rw [space_cons_of_not_space '=' _ (by decide)]
    simp only [if_true]
    rw [space_cons_of_not_space '"' _ (by decide)]
    simp only [true_or, if_true]
    simp only [text_quoted, hrest, List.map_cons, sanitizeString]

theorem writeAttrs_length (attr : List (String × String)) :
    attr.length ≤ (writeAttrs attr).length := by
  induction attr with
  | nil => simp [writeAttrs]
  | cons a as ih =>
    simp only [writeAttrs, writeAttr, List.length_append, List.length_cons]
    omega

theorem writeAttrs_head (attr : List (String × String)) (rest : List Char) (t : Char)
    (h : (writeAttrs attr ++ '>' :: rest).head? = some t) : t = ' ' ∨ t = '>' := by
  cases attr with
  | nil =>
    simp [writeAttrs] at h
    exact Or.inr h.symm
  | cons a as =>
    simp [writeAttrs, writeAttr] at h
    exact Or.inl h.symm

/-- A start tag the printer wrote is read back as one token; the element is
pushed on the stack. -/
theorem token_writeStart (name : String) (attr : List (String × String))
    (rest : List Char) (stk : List String) (hn : validName name = true)
    (hattr : ∀ a ∈ attr, validName a.1 = true ∧ a.1 ≠ "xmlns") :
    token { input := writeStart name attr ++ rest, stk := stk, needClose := none }
      = some (Token.StartElement name (attr.map (fun a => (a.1, sanitizeString a.2))),
          { input := rest, stk := name :: stk, needClose := none }) := by
  obtain ⟨c, cs, hd, hc⟩ := validName_head name hn
  obtain ⟨f1, _, f3, f4, _, _⟩ := isNameStart_facts c hc
  have hname := readName_append name (writeAttrs attr ++ '>' :: rest) hn
    (by
      intro t ht
      rcases writeAttrs_head attr rest t ht with h | h <;> subst h <;> decide)
  have hattrs := readAttrs_writeAttrs rest attr ((writeAttrs attr ++ '>' :: rest).length + 1)
    (by
      have := writeAttrs_length attr
      simp only [List.length_append, List.length_cons]
      omega) hattr
  have hin : writeStart name attr ++ rest
      = '<' :: c :: (cs ++ (writeAttrs attr ++ '>' :: rest)) := by
    simp [writeStart, hd]
  rw [hd, List.cons_append] at hname
  rw [hin, token, rawToken]
  simp only [f1, f3, f4, if_true, if_false, readStartTag, hname, hattrs]
  simp

/-- An end tag the printer wrote is read back as one token; the element is
popped from the stack. -/
theorem token_writeEnd (name : String) (rest : List Char) (stk : List String)
    (hn : validName name = true) :
    token { input := writeEnd name ++ rest, stk := name :: stk, needClose := none }
      = some (Token.EndElement name, { input := rest, stk := stk, needClose := none }) := by
  have hname := readName_append name ('>' :: rest) hn
    (by intro t ht; simp at ht; subst ht; decide)
  have hin : writeEnd name ++ rest = '<' :: '/' :: (name.data ++ '>' :: rest) := by
    simp [writeEnd]
  rw [hin, token, rawToken]
  simp only [if_true, readEndTag, hname, space_cons_of_not_space '>' rest (by decide)]

/-- The indentation before a tag is read back as one token of character data. -/
theorem token_writeIndent (k : Nat) (rest : List Char) (stk : List String) :
    token { input := writeIndent k ++ '<' :: rest, stk := stk, needClose := none }
      = some (Token.CharData (String.mk (writeIndent k)),
          { input := '<' :: rest, stk := stk, needClose := none }) := by
  have h := text_indent k rest
  rw [writeIndent, List.cons_append] at h ⊢
  rw [token, rawToken]
  have hne : ¬ ('\n' = '<') := by decide
  simp only [hne, if_false, h]

theorem escapeRune_head (r : Char) : ∃ c tl, escapeRune r = c :: tl ∧ c ≠ '<' := by
  unfold escapeRune
  split_ifs with h1 h2 h3 h4 h5 h6 h7 h8 h9
  · exact ⟨'&', _, rfl, by decide⟩
  · exact ⟨'&', _, rfl, by decide⟩
  · exact ⟨'&', _, rfl, by decide⟩
  · exact ⟨'&', _, rfl, by decide⟩
  · exact ⟨'&', _, rfl, by decide⟩
  · exact ⟨'&', _, rfl, by decide⟩
  · exact ⟨'&', _, rfl, by decide⟩
  · exact ⟨'&', _, rfl, by decide⟩
  · exact ⟨r, [], rfl, h4⟩
  · exact ⟨replacementChar, [], rfl, by decide⟩

/-- Text the printer wrote, when there is some, is read back as one token of
character data, sanitized. -/
theorem token_escapeText (s rest : List Char) (stk : List String) (hs : s ≠ []) :
    token { input := escapeText s ++ '<' :: rest, stk := stk, needClose := none }
      = some (Token.CharData (String.mk (s.map sanitizeRune)),
          { input := '<' :: rest, stk := stk, needClose := none }) := by
  have h := text_chardata s rest
  cases s with
  | nil => exact absurd rfl hs
  | cons r rs =>
    obtain ⟨c, tl, hc, hne⟩ := escapeRune_head r
    have hin : escapeText (r :: rs) ++ '<' :: rest = c :: (tl ++ escapeText rs ++ '<' :: rest) := by
      simp [escapeText, hc]
    rw [hin] at h ⊢
    rw [token, rawToken]
    simp only [hne, if_false, h]

/-- The XML declaration of `xml.Header` and the line break after it are read back
as a processing instruction and a token of character data. -/
theorem token_xmlHeader (rest : List Char) :
    token { input := xmlHeader.data ++ '<' :: rest, stk := [], needClose := none }
      = some (Token.ProcInst "xml" "version=\"1.0\" encoding=\"UTF-8\"",
          { input := writeIndent 0 ++ '<' :: rest, stk := [], needClose := none }) := by
  simp [xmlHeader, token, rawToken, readProcInstTag, readName, readProcInst, space, isNameByte,
    isNameStart, isSpaceByte, List.takeWhile, List.dropWhile, writeIndent]

theorem digitChar_facts : ∀ m, m < 10 →
    digitVal 10 (Nat.digitChar m) = some m ∧ (Nat.digitChar m).isDigit = true := by
  decide

theorem parseDigits_append (base : Nat) (l1 l2 : List Char) (a : Nat) :
    parseDigits base (l1 ++ l2) a = (parseDigits base l1 a).bind (parseDigits base l2) := by
  induction l1 generalizing a with
  | nil => simp [parseDigits]
  | cons c cs ih =>
    simp only [List.cons_append, parseDigits]
    cases digitVal base c with
    | none => simp
    | some v => simp [ih]

/-- The decimal digits of a number: not empty, all digits, and read back to it. -/
theorem toDigitsCore_spec : ∀ (fuel n : Nat) (acc : List Char), n < fuel →
    ∃ ds, Nat.toDigitsCore 10 fuel n acc = ds ++ acc ∧ ds ≠ [] ∧
      (∀ c ∈ ds, c.isDigit = true) ∧
      ∀ a, parseDigits 10 ds a = some (a * 10 ^ ds.length + n) := by
  intro fuel
  induction fuel with
  | zero => intro n acc h; omega
  | succ fuel ih =>
    intro n acc h
    obtain ⟨hv, hd⟩ := digitChar_facts (n % 10) (Nat.mod_lt n (by decide))
    rw [Nat.toDigitsCore]
    by_cases h0 : n / 10 = 0
    · simp only [h0, if_true]
      refine ⟨[Nat.digitChar (n % 10)], rfl, by simp, ?_, ?_⟩
      · intro c hc
        rw [List.mem_singleton.mp hc]
        exact hd
      · intro a
        simp only [parseDigits, hv, List.length_singleton, pow_one]
        congr 1
        omega
    · simp only [h0, if_false]
      obtain ⟨ds, e1, e2, e3, e4⟩ := ih (n / 10) (Nat.digitChar (n % 10) :: acc) (by omega)
      refine ⟨ds ++ [Nat.digitChar (n % 10)], ?_, by simp, ?_, ?_⟩
      · rw [e1]
        simp
      · intro c hc
        rcases List.mem_append.mp hc with h1 | h1
        · exact e3 c h1
        · rw [List.mem_singleton.mp h1]
          exact hd
      · intro a
        rw [parseDigits_append, e4]
        simp only [Option.some_bind, parseDigits, hv, List.length_append, List.length_singleton]
        congr 1
        rw [pow_succ]
        have := Nat.div_add_mod n 10
        nlinarith [this]

theorem repr_spec (n : Nat) :
    (Nat.repr n).data ≠ [] ∧ (∀ c ∈ (Nat.repr n).data, c.isDigit = true) ∧
    parseDigits 10 (Nat.repr n).data 0 = some n := by
  obtain ⟨ds, e1, e2, e3, e4⟩ := toDigitsCore_spec (n + 1) n [] (by omega)
  have h : (Nat.repr n).data = ds := by
    rw [Nat.repr, Nat.toDigits, e1]
    simp [List.asString]
  rw [h]
  refine ⟨e2, e3, ?_⟩
  rw [e4]
  simp

theorem isDigit_facts (c : Char) (h : c.isDigit = true) :
    isInCharacterRange c = true ∧ isUnicodeSpace c = false ∧ c ≠ '-' ∧ c ≠ '+' := by
  have hr : 48 ≤ c.toNat ∧ c.toNat ≤ 57 := by
    simp only [Char.isDigit, Bool.and_eq_true, decide_eq_true_eq, UInt32.le_def, ge_iff_le,
      BitVec.le_def] at h
    exact ⟨h.1, h.2⟩
  refine ⟨?_, ?_, ?_, ?_⟩
  · simp only [isInCharacterRange, Bool.or_eq_true, Bool.and_eq_true, decide_eq_true_eq,
      beq_iff_eq]
    omega
  · simp only [isUnicodeSpace, Bool.or_eq_false_iff, Bool.and_eq_false_imp, decide_eq_true_eq,
      decide_eq_false_iff_not, beq_eq_false_iff_ne, ne_eq]
    omega
  · rintro rfl
    revert h
    decide
  · rintro rfl
    revert h
    decide

theorem dropWhile_of_all_false (p : Char → Bool) (l : List Char)
    (h : ∀ c ∈ l, p c = false) : l.dropWhile p = l := by
  cases l with
  | nil => rfl
  | cons c cs => simp [List.dropWhile_cons, h c (List.mem_cons_self _ _)]

theorem map_sanitizeRune_of_valid (l : List Char)
    (h : ∀ c ∈ l, isInCharacterRange c = true) : l.map sanitizeRune = l := by
  induction l with
  | nil => rfl
  | cons c cs ih =>
    rw [List.map_cons, sanitizeRune_of_valid c (h c (List.mem_cons_self _ _)),
      ih (fun x hx => h x (List.mem_cons_of_mem _ hx))]

/-- An `int` attribute of a built document is read back to its value. -/
theorem parseInt_formatInt (n : Int) (h0 : 0 ≤ n) (h1 : n ≤ 9223372036854775807) :
    parseInt (sanitizeString (formatInt n)) = some n := by
  obtain ⟨m, rfl⟩ := Int.eq_ofNat_of_zero_le h0
  obtain ⟨e1, e2, e3⟩ := repr_spec m
  have hneg : ¬ ((m : Int) < 0) := by omega
  have hf : formatInt (m : Int) = Nat.repr m := by
    simp [formatInt, hneg]
  have hs : sanitizeString (Nat.repr m) = Nat.repr m := by
    unfold sanitizeString
    rw [map_sanitizeRune_of_valid _ (fun c hc => (isDigit_facts c (e2 c hc)).1)]
  have ht : trimSpace (Nat.repr m).data = (Nat.repr m).data := by
    unfold trimSpace
    rw [dropWhile_of_all_false _ _ (fun c hc => (isDigit_facts c (e2 c hc)).2.1),
      dropWhile_of_all_false _ _
        (fun c hc => (isDigit_facts c (e2 c (List.mem_reverse.mp hc))).2.1),
      List.reverse_reverse]
  rw [hf, hs, parseInt, if_neg e1, ht]
  cases hd : (Nat.repr m).data with
  | nil => exact absurd hd e1
  | cons c cs =>
    have hc := isDigit_facts c (e2 c (by rw [hd]; exact List.mem_cons_self _ _))
    rw [hd] at e3
    have hm : m ≤ 9223372036854775807 := by omega
    simp only [hc.2.2.1, hc.2.2.2, if_false, e3, Option.some_bind, hm, if_true]

theorem token_writeIndent_tail (k : Nat) (tail : List Char) (stk : List String)
    (ht : tail.head? = some '<') :
    token { input := writeIndent k ++ tail, stk := stk, needClose := none }
      = some (Token.CharData (String.mk (writeIndent k)),
          { input := tail, stk := stk, needClose := none }) := by
  cases tail with
  | nil => simp at ht
  | cons t ts =>
    simp only [List.head?_cons, Option.some.injEq] at ht
    subst ht
    exact token_writeIndent k ts stk

theorem token_escapeText_tail (s tail : List Char) (stk : List String) (hs : s ≠ [])
    (ht : tail.head? = some '<') :
    token { input := escapeText s ++ tail, stk := stk, needClose := none }
      = some (Token.CharData (String.mk (s.map sanitizeRune)),
          { input := tail, stk := stk, needClose := none }) := by
  cases tail with
  | nil => simp at ht
  | cons t ts =>
    simp only [List.head?_cons, Option.some.injEq] at ht
    subst ht
    exact token_escapeText s ts stk hs

theorem head_writeStart (name : String) (attr : List (String × String)) (rest : List Char) :
    (writeStart name attr ++ rest).head? = some '<' := by
  simp [writeStart]

theorem head_writeEnd (name : String) (rest : List Char) :
    (writeEnd name ++ rest).head? = some '<' := by
  simp [writeEnd]

/-- Attribute names are checked on the list of names alone. -/
theorem attr_names_valid (attr : List (String × String))
    (h : (attr.map Prod.fst).all (fun n => validName n && n != "xmlns") = true) :
    ∀ a ∈ attr, validName a.1 = true ∧ a.1 ≠ "xmlns" := by
  intro a ha
  rw [List.all_eq_true] at h
  have := h a.1 (List.mem_map_of_mem Prod.fst ha)
  simpa using this

/-- The loop for a `failure` element, run on what the printer wrote after the
start tag. -/
theorem unmarshalFailureLoop_marshal (f0 : JUnitFailure) (contents : String)
    (rest : List Char) (stk : List String) (k : Nat) (hk : 2 ≤ k) :
    unmarshalFailureLoop k f0 ""
        { input := escapeText contents.data ++ (writeEnd "failure" ++ rest)
          stk := "failure" :: stk, needClose := none }
      = some ({ f0 with Contents := sanitizeString contents },
          { input := rest, stk := stk, needClose := none }) := by
  obtain ⟨k, rfl⟩ : ∃ j, k = j + 2 := ⟨k - 2, by omega⟩
  by_cases hc : contents.data = []
  · have hs : sanitizeString contents = "" := by
      simp [sanitizeString, hc]
    rw [hc, escapeText, List.nil_append, unmarshalFailureLoop,
      token_writeEnd "failure" rest stk (by decide), hs]
  · rw [unmarshalFailureLoop,
      token_escapeText_tail _ _ _ hc (head_writeEnd "failure" rest)]
    simp only
    rw [unmarshalFailureLoop, token_writeEnd "failure" rest stk (by decide)]
    simp only [string_empty_append, sanitizeString]

theorem unmarshalFailure_marshal (init f : JUnitFailure) (rest : List Char)
    (stk : List String) :
    unmarshalFailure init
        [("message", sanitizeString f.Message), ("type", sanitizeString f.Type_)]
        { input := escapeText f.Contents.data ++ (writeEnd "failure" ++ rest)
          stk := "failure" :: stk, needClose := none }
      = some (decodedFailure f, { input := rest, stk := stk, needClose := none }) := by
  unfold unmarshalFailure
  rw [unmarshalFailureLoop_marshal _ _ _ _ _ (by
    simp only [List.length_append, writeEnd, List.length_cons]
    omega)]
  simp [assignFailureAttr, decodedFailure]

/-- A `testcase` element without skip message, as the printer wrote it after the
start tag, is unmarshalled to the sanitized test case. -/
theorem unmarshalTestCase_marshal (tc : JUnitTestCase) (depth : Nat) (tail : List Char)
    (stk : List String) (hskip : tc.SkipMessage = none) :
    unmarshalTestCase
        [("classname", sanitizeString tc.Classname), ("name", sanitizeString tc.Name),
          ("time", sanitizeString tc.Time)]
        { input := marshalOptFailure (depth + 1) tc.Failure
            ++ ((if tc.SkipMessage.isSome || tc.Failure.isSome then writeIndent depth else [])
              ++ (writeEnd "testcase" ++ tail))
          stk := "testcase" :: stk, needClose := none }
      = some (decodedTestCase tc, { input := tail, stk := stk, needClose := none }) := by
  unfold unmarshalTestCase
  cases hF : tc.Failure with
  | none =>
    simp only [hskip, Option.isSome_none, Bool.or_self, Bool.false_eq_true, if_false,
      List.nil_append, marshalOptFailure]
    generalize hk : (writeEnd "testcase" ++ tail).length + 1 = k
    obtain ⟨k, rfl⟩ : ∃ j, k = j + 1 := ⟨k - 1, by omega⟩
    rw [unmarshalTestCaseLoop, token_writeEnd "testcase" tail stk (by decide)]
    simp [assignTestCaseAttr, decodedTestCase, hF]
  | some f =>
    simp only [hskip, Option.isSome_none, Option.isSome_some, Bool.false_or, if_true,
      marshalOptFailure, marshalFailure, List.append_assoc]
    generalize hk : (writeIndent (depth + 1) ++ (writeStart "failure"
        [("message", f.Message), ("type", f.Type_)] ++ (escapeText f.Contents.data
          ++ (writeEnd "failure" ++ (writeIndent depth
            ++ (writeEnd "testcase" ++ tail)))))).length + 1 = k
    obtain ⟨k, rfl⟩ : ∃ j, k = j + 4 := ⟨k - 4, by
      simp only [List.length_append, writeIndent, writeStart, writeEnd, List.length_cons] at hk
      omega⟩
    rw [unmarshalTestCaseLoop, token_writeIndent_tail _ _ _ (head_writeStart _ _ _)]
    simp only
    rw [unmarshalTestCaseLoop, token_writeStart "failure" _ _ _ (by decide)
      (attr_names_valid _ (by simp only [List.map_cons, List.map_nil]; decide))]
    have hne : ¬ ("failure" = "skipped") := by decide
    simp only [hne, if_false, if_true, List.map_cons, List.map_nil]
    rw [unmarshalFailure_marshal]
    simp only
    rw [unmarshalTestCaseLoop, token_writeIndent_tail _ _ _ (head_writeEnd _ _)]
    simp only
    rw [unmarshalTestCaseLoop, token_writeEnd "testcase" tail stk (by decide)]
    simp [assignTestCaseAttr, decodedTestCase, hF]

/-- Two steps of the loop for a `testsuite` element read one `testcase` child. -/
theorem unmarshalTestSuiteLoop_case (ts0 : JUnitTestSuite) (tc : JUnitTestCase) (depth k : Nat)
    (tail : List Char) (stk : List String) (hskip : tc.SkipMessage = none) :
    unmarshalTestSuiteLoop (k + 2) ts0
        { input := marshalTestCase depth tc ++ tail, stk := "testsuite" :: stk,
          needClose := none }
      = unmarshalTestSuiteLoop k { ts0 with TestCases := ts0.TestCases ++ [decodedTestCase tc] }
          { input := tail, stk := "testsuite" :: stk, needClose := none } := by
  have hbody := unmarshalTestCase_marshal tc depth tail ("testsuite" :: stk) hskip
  simp only [hskip, Option.isSome_none, Bool.false_or] at hbody
  simp only [marshalTestCase, marshalOptSkipMessage, hskip, Option.isSome_none, Bool.false_or,
    List.append_assoc, List.nil_append]
  rw [unmarshalTestSuiteLoop, token_writeIndent_tail _ _ _ (head_writeStart _ _ _)]
  simp only
  rw [unmarshalTestSuiteLoop, token_writeStart "testcase" _ _ _ (by decide)
    (attr_names_valid _ (by simp only [List.map_cons, List.map_nil]; decide))]
  have hne : ¬ ("testcase" = "properties") := by decide
  simp only [hne, if_false, if_true, List.map_cons, List.map_nil]
  rw [hbody]

theorem marshalTestCases_length (depth : Nat) (tcs : List JUnitTestCase) :
    2 * tcs.length ≤ (marshalTestCases depth tcs).length := by
  induction tcs with
  | nil => simp
  | cons tc tcs ih =>
    simp only [marshalTestCases, marshalTestCase, writeIndent, writeStart, List.length_append,
      List.length_cons]
    omega

/-- The loop for a `testsuite` element reads all the `testcase` children and then
the end tag. -/
theorem unmarshalTestSuiteLoop_cases (depth depth1 : Nat) (tail : List Char)
    (stk : List String) :
    ∀ (tcs : List JUnitTestCase) (k : Nat) (ts0 : JUnitTestSuite),
      2 * tcs.length + 2 ≤ k → (∀ tc ∈ tcs, tc.SkipMessage = none) →
      unmarshalTestSuiteLoop k ts0
          { input := marshalTestCases depth tcs
              ++ (writeIndent depth1 ++ (writeEnd "testsuite" ++ tail))
            stk := "testsuite" :: stk, needClose := none }
        = some ({ ts0 with TestCases := ts0.TestCases ++ tcs.map decodedTestCase },
            { input := tail, stk := stk, needClose := none }) := by
  intro tcs
  induction tcs with
  | nil =>
    intro k ts0 hk _
    obtain ⟨k, rfl⟩ : ∃ j, k = j + 2 := ⟨k - 2, by omega⟩
    simp only [marshalTestCases, List.nil_append, List.map_nil, List.append_nil]
    rw [unmarshalTestSuiteLoop, token_writeIndent_tail _ _ _ (head_writeEnd _ _)]
    simp only
    rw [unmarshalTestSuiteLoop, token_writeEnd "testsuite" tail stk (by decide)]
  | cons tc tcs ih =>
    intro k ts0 hk hskip
    obtain ⟨k, rfl⟩ : ∃ j, k = j + 2 := ⟨k - 2, by omega⟩
    simp only [marshalTestCases, List.append_assoc]
    rw [unmarshalTestSuiteLoop_case _ _ _ _ _ _ (hskip tc (List.mem_cons_self _ _)),
      ih k _ (by simp only [List.length_cons] at hk; omega)
        (fun x hx => hskip x (List.mem_cons_of_mem _ hx))]
    simp

theorem unmarshalPropertiesLoop_empty (k : Nat) (ps : List JUnitProperty) (tail : List Char)
    (stk : List String) (hk : 1 ≤ k) :
    unmarshalPropertiesLoop k ps
        { input := writeEnd "properties" ++ tail, stk := "properties" :: stk, needClose := none }
      = some (ps, { input := tail, stk := stk, needClose := none }) := by
  obtain ⟨k, rfl⟩ : ∃ j, k = j + 1 := ⟨k - 1, by omega⟩
  rw [unmarshalPropertiesLoop, token_writeEnd "properties" _ _ (by decide)]

/-- A `testsuite` element of a built document, as the printer wrote it after the
start tag, is unmarshalled to the sanitized suite. -/
theorem unmarshalTestSuite_marshal (ts : JUnitTestSuite) (depth : Nat) (tail : List Char)
    (stk : List String) (h : builtSuite ts) :
    unmarshalTestSuite
        [("tests", sanitizeString (formatInt ts.Tests)),
          ("failures", sanitizeString (formatInt ts.Failures)),
          ("time", sanitizeString ts.Time), ("name", sanitizeString ts.Name)]
        { input := marshalProperties (depth + 1) ts.Properties
            ++ (marshalTestCases (depth + 1) ts.TestCases
              ++ (writeIndent depth ++ (writeEnd "testsuite" ++ tail)))
          stk := "testsuite" :: stk, needClose := none }
      = some (decodedTestSuite ts, { input := tail, stk := stk, needClose := none }) := by
  obtain ⟨hp, t0, t1, f0, f1, hskip⟩ := h
  have hattr : List.foldl assignTestSuiteAttr
      (some { XMLName := { Space := "", Local := "testsuite" } })
      [("tests", sanitizeString (formatInt ts.Tests)),
        ("failures", sanitizeString (formatInt ts.Failures)),
        ("time", sanitizeString ts.Time), ("name", sanitizeString ts.Name)]
      = some { XMLName := { Space := "", Local := "testsuite" }
               Tests := ts.Tests, Failures := ts.Failures
               Time := sanitizeString ts.Time, Name := sanitizeString ts.Name } := by
    simp [assignTestSuiteAttr, parseInt_formatInt _ t0 t1, parseInt_formatInt _ f0 f1]
  unfold unmarshalTestSuite
  rw [hattr]
  simp only [hp, marshalProperties, marshalPropertyList, if_true, List.append_assoc,
    List.nil_append]
  have hlen := marshalTestCases_length (depth + 1) ts.TestCases
  generalize hk : (writeIndent (depth + 1) ++ (writeStart "properties" []
      ++ (writeEnd "properties" ++ (marshalTestCases (depth + 1) ts.TestCases
        ++ (writeIndent depth ++ (writeEnd "testsuite" ++ tail)))))).length + 1 = k
  obtain ⟨k, rfl⟩ : ∃ j, k = j + 2 := ⟨k - 2, by
    simp only [List.length_append, writeIndent, List.length_cons] at hk
    omega⟩
  have hk2 : 2 * ts.TestCases.length + 2 ≤ k := by
    simp only [List.length_append, writeIndent, writeStart, writeEnd, List.length_cons] at hk
    omega
  rw [unmarshalTestSuiteLoop, token_writeIndent_tail _ _ _ (head_writeStart _ _ _)]
  simp only
  rw [unmarshalTestSuiteLoop, token_writeStart "properties" _ _ _ (by decide)
    (attr_names_valid _ (by decide))]
  simp only [if_true]
  rw [unmarshalPropertiesLoop_empty _ _ _ _ (Nat.le_add_left 1 _)]
  simp only
  rw [unmarshalTestSuiteLoop_cases _ _ _ _ _ _ _ hk2 hskip]
  simp [decodedTestSuite]

/-- Two steps of the loop for the `testsuites` element read one `testsuite` child. -/
theorem unmarshalTestSuitesLoop_suite (s0 : JUnitTestSuites) (ts : JUnitTestSuite)
    (depth k : Nat) (tail : List Char) (stk : List String) (h : builtSuite ts) :
    unmarshalTestSuitesLoop (k + 2) s0
        { input := marshalTestSuite depth ts ++ tail, stk := "testsuites" :: stk,
          needClose := none }
      = unmarshalTestSuitesLoop k { s0 with Suites := s0.Suites ++ [decodedTestSuite ts] }
          { input := tail, stk := "testsuites" :: stk, needClose := none } := by
  have hbody := unmarshalTestSuite_marshal ts depth tail ("testsuites" :: stk) h
  simp only [marshalTestSuite, List.append_assoc]
  rw [unmarshalTestSuitesLoop, token_writeIndent_tail _ _ _ (head_writeStart _ _ _)]
  simp only
  rw [unmarshalTestSuitesLoop, token_writeStart "testsuite" _ _ _ (by decide)
    (attr_names_valid _ (by simp only [List.map_cons, List.map_nil]; decide))]
  simp only [if_true, List.map_cons, List.map_nil]
  rw [hbody]

theorem marshalTestSuiteList_length (depth : Nat) (tss : List JUnitTestSuite) :
    2 * tss.length ≤ (marshalTestSuiteList depth tss).length := by
  induction tss with
  | nil => simp
  | cons ts tss ih =>
    simp only [marshalTestSuiteList, marshalTestSuite, writeIndent, writeStart,
      List.length_append, List.length_cons]
    omega

/-- The loop for the `testsuites` element reads all the `testsuite` children and
then the end tag, which comes after a line break or at once. -/
theorem unmarshalTestSuitesLoop_suites (depth : Nat) (ind tail : List Char)
    (stk : List String) (hind : ind = [] ∨ ∃ j, ind = writeIndent j) :
    ∀ (tss : List JUnitTestSuite) (k : Nat) (s0 : JUnitTestSuites),
      2 * tss.length + 2 ≤ k → (∀ ts ∈ tss, builtSuite ts) →
      unmarshalTestSuitesLoop k s0
          { input := marshalTestSuiteList depth tss ++ (ind ++ (writeEnd "testsuites" ++ tail))
            stk := "testsuites" :: stk, needClose := none }
        = some ({ s0 with Suites := s0.Suites ++ tss.map decodedTestSuite },
            { input := tail, stk := stk, needClose := none }) := by
  intro tss
  induction tss with
  | nil =>
    intro k s0 hk _
    obtain ⟨k, rfl⟩ : ∃ j, k = j + 2 := ⟨k - 2, by omega⟩
    simp only [marshalTestSuiteList, List.nil_append, List.map_nil, List.append_nil]
    rcases hind with h | ⟨j, h⟩
    · rw [h, List.nil_append, unmarshalTestSuitesLoop,
        token_writeEnd "testsuites" tail stk (by decide)]
    · rw [h, unmarshalTestSuitesLoop, token_writeIndent_tail _ _ _ (head_writeEnd _ _)]
      simp only
      rw [unmarshalTestSuitesLoop, token_writeEnd "testsuites" tail stk (by decide)]
  | cons ts tss ih =>
    intro k s0 hk hall
    obtain ⟨k, rfl⟩ : ∃ j, k = j + 2 := ⟨k - 2, by omega⟩
    simp only [marshalTestSuiteList, List.append_assoc]
    rw [unmarshalTestSuitesLoop_suite _ _ _ _ _ _ (hall ts (List.mem_cons_self _ _)),
      ih k _ (by simp only [List.length_cons] at hk; omega)
        (fun x hx => hall x (List.mem_cons_of_mem _ hx))]
    simp

theorem token_xmlHeader_tail (tail : List Char) (ht : tail.head? = some '<') :
    token { input := xmlHeader.data ++ tail, stk := [], needClose := none }
      = some (Token.ProcInst "xml" "version=\"1.0\" encoding=\"UTF-8\"",
          { input := writeIndent 0 ++ tail, stk := [], needClose := none }) := by
  cases tail with
  | nil => simp at ht
  | cons t ts =>
    simp only [List.head?_cons, Option.some.injEq] at ht
    subst ht
    exact token_xmlHeader ts

/-- Round trip: the file content of a built document is unmarshalled to the
document with sanitized strings. -/
theorem unmarshalText_MarshalIndent (doc : JUnitTestSuites)
    (h : ∀ ts ∈ doc.Suites, builtSuite ts) :
    unmarshalText (xmlHeader ++ MarshalIndent doc) = some (decodedTestSuites doc) := by
  have hdata : (xmlHeader ++ MarshalIndent doc).data
      = xmlHeader.data ++ (writeStart "testsuites" [("name", doc.Name)]
          ++ (marshalTestSuiteList 1 doc.Suites
            ++ ((if doc.Suites = [] then [] else writeIndent 0)
              ++ (writeEnd "testsuites" ++ [])))) := by
    simp [MarshalIndent, String.data_append]
  have hlen := marshalTestSuiteList_length 1 doc.Suites
  have hind : (if doc.Suites = [] then [] else writeIndent 0) = []
      ∨ ∃ j, (if doc.Suites = [] then [] else writeIndent 0) = writeIndent j := by
    by_cases he : doc.Suites = []
    · exact Or.inl (by simp [he])
    · exact Or.inr ⟨0, by simp [he]⟩
  unfold unmarshalText
  have hl : (xmlHeader ++ MarshalIndent doc).length = (xmlHeader ++ MarshalIndent doc).data.length :=
    rfl
  rw [hl, hdata]
  generalize hk : (xmlHeader.data ++ (writeStart "testsuites" [("name", doc.Name)]
      ++ (marshalTestSuiteList 1 doc.Suites
        ++ ((if doc.Suites = [] then [] else writeIndent 0)
          ++ (writeEnd "testsuites" ++ []))))).length + 1 = k
  obtain ⟨k, rfl⟩ : ∃ j, k = j + 3 := ⟨k - 3, by
    simp only [List.length_append, writeStart, List.length_cons] at hk
    omega⟩
  rw [unmarshalDocument, token_xmlHeader_tail _ (head_writeStart _ _ _)]
  simp only
  rw [unmarshalDocument, token_writeIndent_tail _ _ _ (head_writeStart _ _ _)]
  simp only
  rw [unmarshalDocument, token_writeStart "testsuites" _ _ _ (by decide)
    (attr_names_valid _ (by simp only [List.map_cons, List.map_nil]; decide))]
  simp only [if_true, List.map_cons, List.map_nil]
  rw [unmarshalTestSuitesLoop_suites 1 _ [] [] hind doc.Suites _ _ (by
    simp only [List.length_append, writeEnd, List.length_cons]
    omega) h]
  simp [assignTestSuitesAttr, decodedTestSuites]

theorem sanitizeString_of_valid (s : String) (h : xmlValid s = true) : sanitizeString s = s := by
  unfold sanitizeString
  rw [map_sanitizeRune_of_valid s.data (by simpa [xmlValid, List.all_eq_true] using h)]

theorem xmlValid_append (a b : String) (ha : xmlValid a = true) (hb : xmlValid b = true) :
    xmlValid (a ++ b) = true := by
  simp only [xmlValid, String.data_append, List.all_append, Bool.and_eq_true] at *
  exact ⟨ha, hb⟩

theorem isInCharacterRange_of_safe (c : Char) (h : isSafeChar c = true ∨ c = '_') :
    isInCharacterRange c = true := by
  rcases h with h | h
  · have hc := classMatch_eq_not_isSafeChar c
    rw [h] at hc
    simp only [classMatch, Bool.not_true, Bool.not_eq_false', Bool.or_eq_true, Bool.and_eq_true,
      decide_eq_true_eq, beq_iff_eq] at hc
    simp only [isInCharacterRange, Bool.or_eq_true, Bool.and_eq_true, decide_eq_true_eq,
      beq_iff_eq]
    have h1 : 'a'.toNat = 97 := rfl
    have h2 : 'z'.toNat = 122 := rfl
    have h3 : 'A'.toNat = 65 := rfl
    have h4 : 'Z'.toNat = 90 := rfl
    have h5 : '0'.toNat = 48 := rfl
    have h6 : '9'.toNat = 57 := rfl
    rw [h1, h2, h3, h4, h5, h6] at hc
    rcases hc with ((hc | hc) | hc) | hc
    · subst hc
      decide
    · omega
    · omega
    · omega
  · subst h
    decide

theorem xmlValid_cleanImageName (imageName : String) :
    xmlValid (cleanImageName imageName) = true := by
  rw [xmlValid, List.all_eq_true]
  intro c hc
  rw [cleanImageName_eq_collapse] at hc
  exact isInCharacterRange_of_safe c (collapseRuns_mem false imageName.data c hc)

/-- The suites `JUnitReportXML` builds have the shape the round trip is proved
for, when the numbers of records fit the type `int`. -/
theorem builtSuite_buildSuites (vsMap : List (String × List Vulnerability)) (imageName : String)
    (hlen : ∀ entry ∈ vsMap, (entry.2.length : Int) ≤ 9223372036854775807) :
    ∀ ts ∈ (buildSuites vsMap imageName).Suites, builtSuite ts := by
  intro ts hts
  by_cases hne : vsMap = []
  · subst hne
    rw [buildSuites_nil] at hts
    have h : ts = noVulnerabilitiesFound (cleanImageName imageName) := by simpa using hts
    rw [h, noVulnerabilitiesFound_eq]
    refine ⟨rfl, ?_, ?_, ?_, ?_, ?_⟩
    · show (0 : Int) ≤ 1
      decide
    · show (1 : Int) ≤ 9223372036854775807
      decide
    · show (0 : Int) ≤ 0
      decide
    · show (0 : Int) ≤ 9223372036854775807
      decide
    · intro tc htc
      rw [List.mem_singleton.mp htc]
  · rw [buildSuites_of_ne_nil vsMap imageName hne] at hts
    obtain ⟨entry, he, h⟩ := List.mem_map.mp hts
    rw [← h, newTestSuite_eq]
    refine ⟨rfl, by positivity, hlen entry he, by positivity, hlen entry he, ?_⟩
    intro tc htc
    obtain ⟨v, _, hv⟩ := List.mem_map.mp htc
    rw [← hv, newTestCase_failure]

/-- Sanitizing changes nothing of what the round trip compares when the names are
made of characters XML allows. -/
theorem roundTripView_decoded_of_valid (doc : JUnitTestSuites) (hn : xmlValid doc.Name = true)
    (hs : ∀ ts ∈ doc.Suites, xmlValid ts.Name = true ∧
      ∀ tc ∈ ts.TestCases, xmlValid tc.Name = true) :
    roundTripView (decodedTestSuites doc) = roundTripView doc := by
  unfold roundTripView decodedTestSuites
  simp only [sanitizeString_of_valid _ hn, List.map_map, Prod.mk.injEq, true_and]
  apply List.map_congr_left
  intro ts hts
  obtain ⟨h1, h2⟩ := hs ts hts
  simp only [Function.comp_apply, decodedTestSuite, sanitizeString_of_valid _ h1,
    List.length_map, List.map_map, Prod.mk.injEq, true_and]
  apply List.map_congr_left
  intro tc htc
  simp only [Function.comp_apply, decodedTestCase, sanitizeString_of_valid _ (h2 tc htc)]

theorem xmlValid_newTestCase_name (v : Vulnerability) (h1 : xmlValid v.Name = true)
    (h2 : xmlValid v.Severity = true) : xmlValid (newTestCase v).Name = true := by
  rw [newTestCase_failure]
  exact xmlValid_append _ _ (xmlValid_append _ _ (xmlValid_append _ _ h1 (by decide)) h2)
    (by decide)

/-- The names of a built document are made of characters XML allows when the
subject, the severities and the names of the records are. -/
theorem xmlValid_buildSuites (vsMap : List (String × List Vulnerability)) (imageName : String)
    (hkeys : ∀ entry ∈ vsMap, xmlValid entry.1 = true ∧
      ∀ v ∈ entry.2, xmlValid v.Name = true ∧ xmlValid v.Severity = true) :
    ∀ ts ∈ (buildSuites vsMap imageName).Suites, xmlValid ts.Name = true ∧
      ∀ tc ∈ ts.TestCases, xmlValid tc.Name = true := by
  intro ts hts
  by_cases hne : vsMap = []
  · subst hne
    rw [buildSuites_nil] at hts
    have h : ts = noVulnerabilitiesFound (cleanImageName imageName) := by simpa using hts
    rw [h, noVulnerabilitiesFound_eq]
    refine ⟨xmlValid_cleanImageName imageName, ?_⟩
    intro tc htc
    rw [List.mem_singleton.mp htc]
    decide
  · rw [buildSuites_of_ne_nil vsMap imageName hne] at hts
    obtain ⟨entry, he, h⟩ := List.mem_map.mp hts
    obtain ⟨hk, hv⟩ := hkeys entry he
    rw [← h, newTestSuite_eq]
    refine ⟨xmlValid_append _ _ (xmlValid_append _ _ (xmlValid_cleanImageName imageName)
      (by decide)) hk, ?_⟩
    intro tc htc
    obtain ⟨v, hvm, hv'⟩ := List.mem_map.mp htc
    rw [← hv']
    exact xmlValid_newTestCase_name v (hv v hvm).1 (hv v hvm).2

/-- In the environment `okEnv` with room for the bytes, the file holds the bytes of
the XML declaration followed by the marshalled document. -/
theorem JUnitReportXML_okEnv (capacity : Nat) (vsMap : List (String × List Vulnerability))
    (imageName : String)
    (hroom : (utf8Bytes (xmlHeader ++ MarshalIndent (buildSuites vsMap imageName))).length
      ≤ capacity) :
    (JUnitReportXML (okEnv capacity) vsMap imageName).file =
      some ({ dir := "/work", name := xmlFileName imageName },
        utf8Bytes (xmlHeader ++ MarshalIndent (buildSuites vsMap imageName))) := by
  rw [utf8Bytes_append] at hroom ⊢
  have hw := (writer_all_written capacity
    ("write " ++ "/work" ++ "/" ++ xmlFileName imageName ++ ": no space left on device")
    (utf8Bytes xmlHeader) (utf8Bytes (MarshalIndent (buildSuites vsMap imageName))) hroom).1
  simp only [JUnitReportXML, okEnv, Writer.WriteString, hw]

/-- The numbers of a document are those of its image under the round trip. -/
theorem countsView_decoded (doc : JUnitTestSuites) :
    countsView (decodedTestSuites doc) = countsView doc := by
  simp only [countsView, decodedTestSuites, List.map_map]
  apply List.map_congr_left
  intro ts _
  simp only [Function.comp_apply, decodedTestSuite, List.length_map]

/-- The names of a document after the round trip are its names with the
characters XML does not allow replaced. -/
theorem namesView_decoded (doc : JUnitTestSuites) :
    namesView (decodedTestSuites doc) =
      (sanitizeString doc.Name, doc.Suites.map fun ts =>
        (sanitizeString ts.Name, ts.TestCases.map fun tc => sanitizeString tc.Name)) := by
  simp only [namesView, decodedTestSuites, List.map_map, Prod.mk.injEq, true_and]
  apply List.map_congr_left
  intro ts _
  simp only [Function.comp_apply, decodedTestSuite, List.map_map, Prod.mk.injEq, true_and]
  apply List.map_congr_left
  intro tc _
  simp only [Function.comp_apply, decodedTestCase]

set_option maxRecDepth 100000 in
/-- Counterexample to C14: for the subject `U+0001`, a character XML does not
allow, the file written for the empty map is parsed back to a document whose
top-level name is `U+FFFD`, not the name of the source document. -/
theorem c14_counterexample :
    (JUnitReportXML (okEnv 1000) [] controlSubject).file.map
        (fun f => (Unmarshal f.2).map (fun s => s.Name))
      = some (some (String.mk [replacementChar])) ∧
    (buildSuites [] controlSubject).Name = controlSubject ∧
    String.mk [replacementChar] ≠ controlSubject := by
  have hb := builtSuite_buildSuites [] controlSubject (by intro e he; simp at he)
  rw [JUnitReportXML_okEnv 1000 [] controlSubject (by decide)]
  simp only [Option.map_some']
  rw [Unmarshal_utf8Bytes, unmarshalText_MarshalIndent _ hb, buildSuites_nil]
  refine ⟨?_, rfl, by decide⟩
  simp only [Option.map_some', decodedTestSuites]
  decide

/-- C14, amended: whenever the file has room for the bytes (and the numbers of
records fit the type `int`), the file written by `JUnitReportXML` is parsed back to
a document with the same number of suites and, suite by suite, the same `Tests`,
`Failures` and number of cases as the source document; the top-level name, the
suite names and the case names come back with every character XML does not allow
replaced by `U+FFFD`, so all of them are the same as in the source document when
the subject, the severities and the names and severities of the records are made
of characters XML allows. -/
theorem c14_round_trip (capacity : Nat)
    (vsMap : List (String × List Vulnerability)) (imageName : String)
    (hroom : (utf8Bytes (xmlHeader ++ MarshalIndent (buildSuites vsMap imageName))).length
      ≤ capacity)
    (hlen : ∀ entry ∈ vsMap, (entry.2.length : Int) ≤ 9223372036854775807) :
    ∃ path content parsed,
      (JUnitReportXML (okEnv capacity) vsMap imageName).file = some (path, content) ∧
      Unmarshal content = some parsed ∧
      parsed.Suites.length = (buildSuites vsMap imageName).Suites.length ∧
      countsView parsed = countsView (buildSuites vsMap imageName) ∧
      namesView parsed =
        (sanitizeString imageName, (buildSuites vsMap imageName).Suites.map fun ts =>
          (sanitizeString ts.Name, ts.TestCases.map fun tc => sanitizeString tc.Name)) ∧
      ((xmlValid imageName = true ∧ ∀ entry ∈ vsMap, xmlValid entry.1 = true ∧
          ∀ v ∈ entry.2, xmlValid v.Name = true ∧ xmlValid v.Severity = true) →
        roundTripView parsed = roundTripView (buildSuites vsMap imageName)) := by
  have hb := builtSuite_buildSuites vsMap imageName hlen
  have hname : (buildSuites vsMap imageName).Name = imageName := by
    by_cases hne : vsMap = []
    · rw [hne, buildSuites_nil]
    · rw [buildSuites_of_ne_nil vsMap imageName hne]
  refine ⟨_, _, decodedTestSuites (buildSuites vsMap imageName),
    JUnitReportXML_okEnv capacity vsMap imageName hroom, ?_, ?_, countsView_decoded _, ?_, ?_⟩
  · rw [Unmarshal_utf8Bytes, unmarshalText_MarshalIndent _ hb]
  · simp [decodedTestSuites]
  · rw [namesView_decoded, hname]
  · intro hvalid
    exact roundTripView_decoded_of_valid _ (by rw [hname]; exact hvalid.1)
      (xmlValid_buildSuites vsMap imageName hvalid.2)

set_option maxRecDepth 100000 in
/-- Witness of C14: the test scenario, whose file is parsed back to the subject
`test_image:latest` and the suites `low` and `med` with one and two cases. -/
theorem c14_witness :
    ∃ path content parsed,
      (JUnitReportXML (okEnv 948) testVsMap testImageName).file = some (path, content) ∧
      Unmarshal content = some parsed ∧
      roundTripView parsed =
        ("test_image:latest",
          [("test_image_latest_low", 1, 1, 1, ["nameLow [low]"]),
            ("test_image_latest_med", 2, 2, 2, ["nameMed [med]", "nameMed2 [med]"])]) := by
  obtain ⟨path, content, parsed, h0, h1, _, _, _, h3⟩ :=
    c14_round_trip 948 testVsMap testImageName (by decide) (by decide)
  refine ⟨path, content, parsed, h0, h1, ?_⟩
  rw [h3 (by decide), buildSuites_of_ne_nil testVsMap testImageName (by decide)]
  simp only [roundTripView, testVsMap, List.map_cons, List.map_nil, newTestSuite_eq,
    newTestCase_failure, List.length_cons, List.length_nil]
  rfl

end Formatter
